import Mathlib

/-!
# Natalie object runtime: ordered hash and tagged values

A shallow embedding of `include/natalie/hash_object.hpp` (the `HashKey` cells,
the `HashObject` facade and its `iterator`), of `src/value_ptr.cpp`, of the
argument-count checks of `src/args.cpp`, of the pack-directive tokenizer of
`include/natalie/array_packer/tokenizer.hpp`, of `Integer_div` of
`src/integer.cpp`, and of the code point conversions, characters and grapheme
clusters of `src/encoding/utf8_encoding_object.cpp` and
`src/encoding/iso885916_encoding_object.cpp`.

Pointers are arena indices: a `HashKey *` is an `Option Nat`, `nullptr` is
`none`, and dereferencing an index outside the arena is the fault
`Fault.nullDeref`.  Recursion that the C++ does not bound (`operator++` calls
itself while it skips removed cells) is given a fuel argument and reports
`Fault.outOfFuel` when the fuel is spent.

A byte string is a list of `Byte`s (`unsigned char`s); code points and other
`nat_int_t` values are integers, and the shifts, masks and XORs of the UTF-8
code are those of natural numbers, since they only meet unsigned chars and
code points that are not negative.  An `int64_t` is an integer between
`INT64_MIN` and `INT64_MAX`; a division whose quotient leaves that range is
undefined in C++ and is reported as such.
-/

namespace Natalie

/-- Ways in which a run of the embedded code fails to deliver a result. -/
inductive Fault where
  | nullDeref
  | outOfFuel
  | assertFailed
  deriving DecidableEq, Repr

/-- The error kinds of the runtime (section 7 of the specification). -/
inductive ErrorKind where
  | KeyNotFound
  | ArgumentError
  | TypeError
  | ConcurrentModification
  | FrozenError
  deriving DecidableEq, Repr

/-- Why an operation on a hash did not complete: a fault of the run or an
error raised to the caller. -/
inductive Abort where
  | fault (f : Fault)
  | raised (kind : ErrorKind)
  deriving DecidableEq, Repr

/-- The struct `HashKey` of `hash_object.hpp`: one cell of the ordered key list. -/
structure HashKey (V : Type) where
  prev : Option Nat := none
  next : Option Nat := none
  key : V
  val : V
  hash : Nat := 0
  removed : Bool := false
  deriving DecidableEq, Repr

/-- The class `HashObject` of `hash_object.hpp`.  `cells` is the arena in which
the `HashKey` cells live (a `HashKey *` is an index into it), `klass` is the
class pointer handed to the `Object` base, and `m_hashmap` lists the cells
registered in the lookup index, so that `TM::Hashmap::size` is its length. -/
structure HashObject (V : Type) where
  cells : List (HashKey V) := []
  klass : Nat
  m_key_list : Option Nat := none
  m_hashmap : List Nat := []
  m_is_iterating : Bool := false
  m_is_comparing_by_identity : Bool := false
  m_is_ruby2_keywords_hash : Bool := false
  m_default_value : V
  m_default_proc : Option Nat := none
  deriving DecidableEq, Repr

/-- The nested class `HashObject::iterator`; its `m_hash` back pointer is the
hash passed explicitly to the operations below. -/
structure iterator where
  m_key : Option Nat
  deriving DecidableEq, Repr

variable {V : Type}

/-- `HashObject::size() const`: `m_hashmap.size()`. -/
def HashObject.size (h : HashObject V) : Nat := h.m_hashmap.length

/-- `HashObject::is_empty()`: `m_hashmap.size() == 0`. -/
def HashObject.is_empty (h : HashObject V) : Bool := h.m_hashmap.length == 0

/-- `HashObject::default_value()`. -/
def HashObject.default_value (h : HashObject V) : V := h.m_default_value

/-- `HashObject::is_iterating() const`. -/
def HashObject.is_iterating (h : HashObject V) : Bool := h.m_is_iterating

/-- `HashObject::set_is_iterating(bool)`. -/
def HashObject.set_is_iterating (h : HashObject V) (is_iterating : Bool) : HashObject V :=
  { h with m_is_iterating := is_iterating }

/-- `HashObject::begin() const`: `iterator { m_key_list, this }`. -/
def HashObject.begin (h : HashObject V) : iterator := ⟨h.m_key_list⟩

/-- `HashObject::end() const`: `iterator { nullptr, this }`. -/
def HashObject.end_ (_h : HashObject V) : iterator := ⟨none⟩

/-- `iterator::operator++()` of `hash_object.hpp`, lines 127-137.  The fuel
bounds the self call taken when the next cell is removed. -/
def iterator.operator_inc (h : HashObject V) : Nat → iterator → Except Fault iterator
  | 0, _ => .error .outOfFuel
  | fuel + 1, it =>
    match it.m_key with
    | none => .error .nullDeref
    | some k =>
      match h.cells[k]? with
      | none => .error .nullDeref
      | some c =>
        match c.next with
        | none => .ok ⟨none⟩
        | some nx =>
          if !c.removed && (some nx == h.m_key_list) then .ok ⟨none⟩
          else
            match h.cells[nx]? with
            | none => .error .nullDeref
            | some cn =>
              if cn.removed then iterator.operator_inc h fuel ⟨some nx⟩
              else .ok ⟨some nx⟩

/-- The loop `for (auto it = begin(); it != end(); ++it)` that every traversal
of a hash runs (the range-for over a `HashObject`), started at `it`; the result
lists the cells `*it` handed to the loop body, in order.  `fuel` is the budget
of each `operator++`, `n` bounds the number of loop rounds. -/
def HashObject.traverse (h : HashObject V) (fuel : Nat) : Nat → iterator → Except Fault (List Nat)
  | _, ⟨none⟩ => .ok []
  | 0, ⟨some _⟩ => .error .outOfFuel
  | n + 1, ⟨some k⟩ =>
    match iterator.operator_inc h fuel ⟨some k⟩ with
    | .error e => .error e
    | .ok it =>
      match HashObject.traverse h fuel n it with
      | .error e => .error e
      | .ok l => .ok (k :: l)

/-- The rest of the loop once the body has run on `*it`: `++it` with the budget
`fi`, then the loop from the new position. -/
def HashObject.resume (h : HashObject V) (fi ft n : Nat) (it : iterator) :
    Except Fault (List Nat) :=
  match iterator.operator_inc h fi it with
  | .error e => .error e
  | .ok it2 => h.traverse ft n it2

/-- A full traversal from `begin()` to `end()` with the budget `fuel`. -/
def HashObject.each_node (h : HashObject V) (fuel : Nat) : Except Fault (List Nat) :=
  h.traverse fuel fuel h.begin

/-- The `next` field of the cell at `a`, when there is such a cell. -/
def HashObject.nextOf (h : HashObject V) (a : Nat) : Option Nat :=
  (h.cells[a]?).bind (fun c => c.next)

/-- The `prev` field of the cell at `a`, when there is such a cell. -/
def HashObject.prevOf (h : HashObject V) (a : Nat) : Option Nat :=
  (h.cells[a]?).bind (fun c => c.prev)

/-- The cell at `a` exists and has `removed == false`. -/
def HashObject.isLive (h : HashObject V) (a : Nat) : Bool :=
  match h.cells[a]? with
  | some c => !c.removed
  | none => false

/-- The cells `a, rest...` are linked in this order by `next` and back by
`prev`, and the last of them is linked to `t`. -/
def HashObject.Chain (h : HashObject V) : Nat → List Nat → Nat → Prop
  | a, [], t => h.nextOf a = some t ∧ h.prevOf t = some a
  | a, b :: rest, t => h.nextOf a = some b ∧ h.prevOf b = some a ∧ HashObject.Chain h b rest t

/-- The key list of `h` is a well-formed circular doubly-linked list whose
cells are, from `m_key_list` on and in `next` order, exactly `ids`. -/
def HashObject.WellFormed (h : HashObject V) : List Nat → Prop
  | [] => h.m_key_list = none
  | a :: rest => h.m_key_list = some a ∧ (a :: rest).Nodup ∧ h.Chain a rest a

/-- The last cell of the list `a, rest...`: the one before the head. -/
def lastOf : Nat → List Nat → Nat
  | a, [] => a
  | _, b :: rest => lastOf b rest

/-! ## Insertion, removal and construction -/

/-- The hashing and equality services of the value layer (section 6 of the
specification), both parameterised by the comparison mode: `false` is value
equality, `true` is identity. -/
structure KeyService (V : Type) where
  hash : Bool → V → Nat
  equal : Bool → V → V → Bool

/-- Modelled from the spec: `HashObject::generate_key_hash`, declared in
`hash_object.hpp` and defined outside the sources at hand; it is the hash code
of the key under the current comparison mode. -/
def HashObject.generate_key_hash (svc : KeyService V) (h : HashObject V) (key : V) : Nat :=
  svc.hash h.m_is_comparing_by_identity key

/-- Modelled from the spec: the probe of the lookup index `m_hashmap` (the
`TM::Hashmap` is outside the sources at hand) for a registered cell with the
given hash code whose key compares equal under the current mode. -/
def HashObject.find_item (svc : KeyService V) (h : HashObject V) (hash : Nat) (key : V) :
    Option Nat :=
  h.m_hashmap.find? (fun p =>
    match h.cells[p]? with
    | some c => c.hash == hash && svc.equal h.m_is_comparing_by_identity c.key key
    | none => false)

/-- Modelled from the spec: `HashObject::key_list_append`, declared in
`hash_object.hpp` and defined outside the sources at hand.  It allocates a new
cell and appends it at the tail of the circular list: between the last cell
(`m_key_list->prev`) and the head, or as a ring of one when the list is empty.
The result is the new cell's address and the new state. -/
def HashObject.key_list_append (h : HashObject V) (key : V) (hash : Nat) (val : V) :
    Except Fault (Nat × HashObject V) :=
  let node := h.cells.length
  match h.m_key_list with
  | none =>
    .ok (node, { h with
      cells := h.cells ++ [{ prev := some node, next := some node, key := key, val := val,
                             hash := hash }],
      m_key_list := some node })
  | some first =>
    match h.prevOf first with
    | none => .error .nullDeref
    | some last =>
      let cells1 := List.modify (fun c => { c with next := some node }) last h.cells
      let cells2 := List.modify (fun c => { c with prev := some node }) first cells1
      .ok (node, { h with
        cells := cells2 ++ [{ prev := some last, next := some first, key := key, val := val,
                              hash := hash }] })

/-- Modelled from the spec: `HashObject::put`, declared in `hash_object.hpp`
and defined outside the sources at hand (section 4.2 `insert`, section 4.4).
An equal registered entry has its value overwritten, key and position
unchanged; otherwise the insertion is structural: it fails with
`ConcurrentModification` while the hash is iterating, and else appends a new
cell at the tail of the list and registers it in the index.  The result is the
state the call leaves behind and what the caller receives. -/
def HashObject.put (svc : KeyService V) (h : HashObject V) (key val : V) :
    HashObject V × Except Abort Unit :=
  let hash := h.generate_key_hash svc key
  match h.find_item svc hash key with
  | some p => ({ h with cells := List.modify (fun c => { c with val := val }) p h.cells }, .ok ())
  | none =>
    if h.m_is_iterating then (h, .error (.raised .ConcurrentModification))
    else
      match h.key_list_append key hash val with
      | .error f => (h, .error (.fault f))
      | .ok (node, h1) => ({ h1 with m_hashmap := h1.m_hashmap ++ [node] }, .ok ())

/-- Modelled from the spec: `HashObject::key_list_remove_node`, declared in
`hash_object.hpp` and defined outside the sources at hand.  It takes a cell out
of the circular list and marks it `removed`.  The only cell of the list loses
its links and leaves the list empty.  Otherwise its two neighbours are linked
to each other, the head moves on to its successor when it was the head, and the
cell keeps its own links: this is the state `iterator::operator++` is written
for, which tests `next == nullptr` and lets an iterator that stands on a
removed head go on to the new head (section 4.2, ordered iteration). -/
def HashObject.key_list_remove_node (h : HashObject V) (node : Nat) :
    Except Fault (HashObject V) :=
  match h.prevOf node, h.nextOf node with
  | some prev, some next =>
    if next = node then
      .ok { h with
        cells := List.modify
          (fun c => { c with prev := none, next := none, removed := true }) node h.cells,
        m_key_list := none }
    else
      let cells1 := List.modify (fun c => { c with removed := true }) node h.cells
      let cells2 := List.modify (fun c => { c with next := some next }) prev cells1
      let cells3 := List.modify (fun c => { c with prev := some prev }) next cells2
      .ok { h with
        cells := cells3,
        m_key_list := if h.m_key_list = some node then some next else h.m_key_list }
  | _, _ => .error .nullDeref

/-- Modelled from the spec: `HashObject::remove`, declared in `hash_object.hpp`
and defined outside the sources at hand (section 4.2 `delete`, section 4.4).
While the hash is iterating the call fails with `ConcurrentModification`;
otherwise a found entry is marked `removed = true`, it is unlinked from the
index, and its value is returned; an absent key gives nothing and changes
nothing.  The ordered list is left to `key_list_remove_node`: the removed cell
stays linked in that it keeps its own links, while the ring of the live cells
no longer passes through it, which is what the iterator of the source needs to
end on a hash that `delete` has emptied. -/
def HashObject.remove (svc : KeyService V) (h : HashObject V) (key : V) :
    HashObject V × Except Abort (Option V) :=
  if h.m_is_iterating then (h, .error (.raised .ConcurrentModification))
  else
    match h.find_item svc (h.generate_key_hash svc key) key with
    | none => (h, .ok none)
    | some p =>
      match h.cells[p]? with
      | none => (h, .error (.fault .nullDeref))
      | some c =>
        match h.key_list_remove_node p with
        | .error f => (h, .error (.fault f))
        | .ok h1 => ({ h1 with m_hashmap := h1.m_hashmap.erase p }, .ok (some c.val))

/-- The constructor `HashObject(ClassObject *klass)` with the default member
initializers of lines 281-287; `nil` is `Value::nil()`. -/
def HashObject.create_klass (nil : V) (klass : Nat) : HashObject V :=
  { klass := klass, m_default_value := nil }

/-- The constructor `HashObject()`, which delegates to `HashObject(klass)` with
`GlobalEnv::the()->Hash()`, here `hashClass`. -/
def HashObject.create (nil : V) (hashClass : Nat) : HashObject V :=
  HashObject.create_klass nil hashClass

/-- The loop of the constructor `HashObject(Env *, size_t argc, Value *items)`:
one `put(env, items[i], items[i + 1])` per pair, in order. -/
def HashObject.put_items (svc : KeyService V) :
    HashObject V → List V → HashObject V × Except Abort Unit
  | h, key :: value :: rest =>
    match h.put svc key value with
    | (h1, .ok _) => HashObject.put_items svc h1 rest
    | (h1, .error e) => (h1, .error e)
  | h, _ => (h, .ok ())

/-- The constructor `HashObject(Env *, size_t argc, Value *items)`: the empty
hash of `HashObject {}`, the assertion `argc % 2 == 0`, then the loop of puts.
No object comes out of a constructor that does not complete. -/
def HashObject.create_items (svc : KeyService V) (nil : V) (hashClass : Nat) (items : List V) :
    Except Abort (HashObject V) :=
  if items.length % 2 ≠ 0 then .error (.fault .assertFailed)
  else
    match HashObject.put_items svc (HashObject.create nil hashClass) items with
    | (h, .ok _) => .ok h
    | (_, .error e) => .error e

/-- What a traversal hands to its body as `(node.key, node.val)`, in order. -/
def HashObject.each (h : HashObject V) (fuel : Nat) : Except Fault (List (V × V)) :=
  match h.each_node fuel with
  | .error e => .error e
  | .ok ids => .ok (ids.filterMap (fun p => (h.cells[p]?).map (fun c => (c.key, c.val))))

/-- The pairs `(k1, v1), (k2, v2), ...` of a flat item list `k1, v1, k2, v2, ...`. -/
def pairsOf : List V → List (V × V)
  | k :: v :: rest => (k, v) :: pairsOf rest
  | _ => []

/-- The distinct elements of a list in the order of their first occurrence. -/
def firstOccurrences [DecidableEq V] : List V → List V
  | [] => []
  | k :: ks => k :: (firstOccurrences ks).filter (fun x => x ≠ k)

/-- The value of the last pair with key `k`, when there is one. -/
def lastValueOf [DecidableEq V] (pairs : List (V × V)) (k : V) : Option V :=
  (pairs.reverse.find? (fun p => p.1 = k)).map Prod.snd

/-- The states a hash reaches from an empty one by `put` and `remove` calls,
whichever way each call ends. -/
inductive HashObject.Reachable (svc : KeyService V) : HashObject V → Prop where
  | create (nil : V) (klass : Nat) : HashObject.Reachable svc (HashObject.create_klass nil klass)
  | put (h : HashObject V) (key val : V) :
      HashObject.Reachable svc h → HashObject.Reachable svc (h.put svc key val).1
  | remove (h : HashObject V) (key : V) :
      HashObject.Reachable svc h → HashObject.Reachable svc (h.remove svc key).1

/-- The shape of the key list in a state reached by insertions only: the cells
are linked in allocation order into one ring whose head is cell 0, and the
index holds exactly the live cells. -/
def HashObject.RingInv (h : HashObject V) : Prop :=
  (h.m_key_list = if h.cells.length = 0 then none else some 0) ∧
  (∀ i, i < h.cells.length →
    h.nextOf i = some (if i + 1 = h.cells.length then 0 else i + 1) ∧
    h.prevOf i = some (if i = 0 then h.cells.length - 1 else i - 1)) ∧
  h.m_hashmap = (List.range h.cells.length).filter h.isLive

/-- The association list after one more insertion: an existing key keeps its
place and takes the new value, a new key goes to the end. -/
def assocPut [DecidableEq V] (al : List (V × V)) (k v : V) : List (V × V) :=
  if k ∈ al.map Prod.fst then al.map (fun e => if e.1 = k then (e.1, v) else e)
  else al ++ [(k, v)]

/-- The key service of value equality on strings, hashing by length. -/
def stringKeys : KeyService String :=
  { hash := fun _ s => s.length, equal := fun _ a b => a == b }

/-- The entries of the cells in allocation order, as `(key, val)` pairs. -/
def HashObject.entries (h : HashObject V) : List (V × V) :=
  h.cells.map (fun c => (c.key, c.val))

/-- The shape of a hash that has only seen insertions under value equality: a
ring of live cells with pairwise different keys, each stored with its hash
code, and no traversal in progress. -/
def HashObject.Rep (svc : KeyService V) (h : HashObject V) : Prop :=
  h.RingInv ∧
  (∀ c ∈ h.cells, c.removed = false ∧ c.hash = svc.hash false c.key) ∧
  (h.cells.map (fun c => c.key)).Nodup ∧
  h.m_is_iterating = false ∧
  h.m_is_comparing_by_identity = false

/-- Strings, integers and nil, as sample keys and values. -/
inductive SampleValue where
  | nil
  | str (s : String)
  | int (n : Int)
  deriving DecidableEq, Repr

/-- The key service of value equality on `SampleValue`. -/
def sampleKeys : KeyService SampleValue :=
  { hash := fun _ v =>
      match v with
      | .nil => 0
      | .str s => s.length
      | .int n => n.natAbs,
    equal := fun _ a b => decide (a = b) }

/-- The item list `"a", 1, "b", 2, "a", 3` of scenario A. -/
def scenarioA : List SampleValue :=
  [.str "a", .int 1, .str "b", .int 2, .str "a", .int 3]

/-- An exception raised through `env->raise(class_name, message)`. -/
structure Exception where
  class_name : String
  message : String
  deriving DecidableEq, Repr

/-- Modelled from the spec: `ValuePtr::Type`, which the `value_ptr.hpp` at hand
does not declare: whether the handle holds an immediate integer or a pointer
to a heap object. -/
inductive PtrType where
  | Integer
  | Pointer
  deriving DecidableEq, Repr

/-- Modelled from the spec: `Value::Type`, the type tag of a heap object (its
header is outside the sources at hand). -/
inductive ValueType where
  | Nil
  | Integer
  | Float
  | String
  | Symbol
  | Array
  | Hash
  | Object
  deriving DecidableEq, Repr

/-- Modelled from the spec: the class of a heap object (its header is outside
the sources at hand), as far as `class_name_or_blank` needs it. -/
structure ClassValue where
  class_name : Option String
  deriving DecidableEq, Repr

/-- Modelled from the spec: `ClassValue::class_name_or_blank()`, defined
outside the sources at hand: the name, or the empty string for a class without
one. -/
def ClassValue.class_name_or_blank (k : ClassValue) : String := k.class_name.getD ""

/-- Modelled from the spec: the heap object `Value` (its header is outside the
sources at hand): it knows its type tag and its class; an `IntegerValue`
carries the native integer `m_integer`. -/
structure Value where
  type : ValueType
  klass : ClassValue
  m_integer : Int := 0
  deriving DecidableEq, Repr

/-- Modelled from the spec: the heap object built by `IntegerValue { n }` (the
header of `IntegerValue` is outside the sources at hand): a heap integer of
class `Integer` holding `n`. -/
def IntegerValue (n : Int) : Value :=
  { type := .Integer, klass := ⟨some "Integer"⟩, m_integer := n }

/-- Modelled from the spec: `Value::is_integer()` on a heap object, the test
of its type tag. -/
def Value.is_integer (o : Value) : Bool := o.type == .Integer

/-- Modelled from the spec: `Value::is_float()` on a heap object, the test of
its type tag. -/
def Value.is_float (o : Value) : Bool := o.type == .Float

/-- Modelled from the spec: `Value::as_integer()`, the checked downcast to
`IntegerValue *`. -/
def Value.as_integer (o : Value) : Except Fault Value :=
  if o.is_integer then .ok o else .error .assertFailed

/-- Modelled from the spec: `IntegerValue::to_nat_int_t()`, the native integer
held. -/
def Value.to_nat_int_t (o : Value) : Int := o.m_integer

/-- Modelled from the spec: the process heap `Heap::the()` (its header is
outside the sources at hand): the objects allocated so far (a `Value *` is an
index into them) and the collector's enabled flag. -/
structure Heap where
  objects : List Value := []
  m_gc_enabled : Bool := true
  deriving DecidableEq, Repr

/-- Modelled from the spec: `Heap::gc_enabled()`, the collector's flag. -/
def Heap.gc_enabled (heap : Heap) : Bool := heap.m_gc_enabled

/-- Modelled from the spec: `Heap::gc_disable()`, which clears the flag. -/
def Heap.gc_disable (heap : Heap) : Heap := { heap with m_gc_enabled := false }

/-- Modelled from the spec: `Heap::gc_enable()`, which sets the flag. -/
def Heap.gc_enable (heap : Heap) : Heap := { heap with m_gc_enabled := true }

/-- The allocation `new T { ... }`: the object is placed at a fresh address. -/
def Heap.alloc (heap : Heap) (o : Value) : Nat × Heap :=
  (heap.objects.length, { heap with objects := heap.objects ++ [o] })

/-- The struct `ValuePtr` with the fields `value_ptr.cpp` reads and writes:
the tag `m_type`, the immediate `m_integer` and the pointer `m_value` (the
`value_ptr.hpp` at hand declares `m_value` only). -/
structure ValuePtr where
  m_type : PtrType
  m_integer : Int := 0
  m_value : Option Nat := none
  deriving DecidableEq, Repr

/-- `ValuePtr::value()` of `value_ptr.hpp`: `return m_value`. -/
def ValuePtr.value (v : ValuePtr) : Option Nat := v.m_value

/-- The heap object `value()` points to; `nullptr` and addresses outside the
heap are a fault. -/
def ValuePtr.deref (v : ValuePtr) (heap : Heap) : Except Fault Value :=
  match v.value with
  | none => .error .nullDeref
  | some a =>
    match heap.objects[a]? with
    | none => .error .nullDeref
    | some o => .ok o

/-- `ValuePtr::hydrate()` of `value_ptr.cpp`, lines 27-41. -/
def ValuePtr.hydrate (v : ValuePtr) (heap : Heap) : ValuePtr × Heap :=
  match v.m_type with
  | .Integer =>
    let was_gc_enabled := heap.gc_enabled
    let heap1 := heap.gc_disable
    let (m_value, heap2) := heap1.alloc (IntegerValue v.m_integer)
    let heap3 := if was_gc_enabled then heap2.gc_enable else heap2
    ({ m_type := .Pointer, m_integer := 0, m_value := some m_value }, heap3)
  | .Pointer => (v, heap)

/-- `ValuePtr::is_integer()` of `value_ptr.cpp`, lines 43-48. -/
def ValuePtr.is_integer (v : ValuePtr) (heap : Heap) : Except Fault Bool :=
  if v.m_type = .Integer then .ok true
  else
    match v.deref heap with
    | .error f => .error f
    | .ok o => .ok o.is_integer

/-- `ValuePtr::is_float()` of `value_ptr.cpp`, lines 50-55. -/
def ValuePtr.is_float (v : ValuePtr) (heap : Heap) : Except Fault Bool :=
  if v.m_type = .Integer then .ok false
  else
    match v.deref heap with
    | .error f => .error f
    | .ok o => .ok o.is_float

/-- `ValuePtr::to_nat_int_t()` of `value_ptr.cpp`, lines 64-69. -/
def ValuePtr.to_nat_int_t (v : ValuePtr) (heap : Heap) : Except Fault Int :=
  if v.m_type = .Integer then .ok v.m_integer
  else
    match v.deref heap with
    | .error f => .error f
    | .ok o =>
      match o.as_integer with
      | .error f => .error f
      | .ok i => .ok i.to_nat_int_t

/-- The method-dispatch layer, which is outside the sources at hand, taken as
a parameter: `Value::respond_to`, `Value::_send`, `Value::_public_send` (each
on a heap object, by method name, with arguments and a block) and
`IntegerValue::optimized_method`.  `R` is whatever a dispatched method hands
back to its caller. -/
structure Dispatch (R : Type) where
  respond_to : Value → String → Bool
  _send : Value → String → List ValuePtr → Option Nat → R
  _public_send : Value → String → List ValuePtr → Option Nat → R
  optimized_method : String → Bool

/-- `ValuePtr::send(Env *, SymbolValue *, size_t, ValuePtr *, Block *)` of
`value_ptr.cpp`, lines 14-21. -/
def ValuePtr.send {R : Type} (d : Dispatch R) (v : ValuePtr) (heap : Heap) (name : String)
    (args : List ValuePtr) (block : Option Nat) : Except Fault R :=
  if v.m_type = .Integer ∧ d.optimized_method name = true then
    let synthesized := IntegerValue v.m_integer
    .ok (d._send synthesized name args block)
  else
    match v.deref heap with
    | .error f => .error f
    | .ok o => .ok (d._send o name args block)

/-- `ValuePtr::public_send` of `value_ptr.cpp`, lines 5-12. -/
def ValuePtr.public_send {R : Type} (d : Dispatch R) (v : ValuePtr) (heap : Heap)
    (name : String) (args : List ValuePtr) (block : Option Nat) : Except Fault R :=
  if v.m_type = .Integer ∧ d.optimized_method name = true then
    let synthesized := IntegerValue v.m_integer
    .ok (d._public_send synthesized name args block)
  else
    match v.deref heap with
    | .error f => .error f
    | .ok o => .ok (d._public_send o name args block)

/-- How a call that may end in a method dispatch ends: it returns a value of
its own, raises an exception of its own, hands back what a dispatched method
gave, or faults. -/
inductive Outcome (R : Type) where
  | returned (v : ValuePtr)
  | raised (e : Exception)
  | dispatched (r : R)
  | fault (f : Fault)

/-- `ValuePtr::try_convert_to_int_or_raise(Env *)` of `value_ptr.cpp`,
lines 71-86. -/
def ValuePtr.try_convert_to_int_or_raise {R : Type} (d : Dispatch R) (v : ValuePtr)
    (heap : Heap) : Outcome R :=
  match v.is_integer heap with
  | .error f => .fault f
  | .ok true => .returned v
  | .ok false =>
    let sym_to_i := "to_i"
    let sym_to_int := "to_int"
    match v.deref heap with
    | .error f => .fault f
    | .ok o =>
      if d.respond_to o sym_to_i then
        match v.send d heap sym_to_i [] none with
        | .error f => .fault f
        | .ok r => .dispatched r
      else if d.respond_to o sym_to_int then
        match v.send d heap sym_to_int [] none with
        | .error f => .fault f
        | .ok r => .dispatched r
      else
        .raised ⟨"TypeError",
          "no implicit conversion of " ++ o.klass.class_name_or_blank ++ " into Integer"⟩

/-- Three live cells linked in a ring, the head being cell 0. -/
def ringOfThree : HashObject Nat :=
  { cells := [{ prev := some 2, next := some 1, key := 10, val := 1 },
              { prev := some 0, next := some 2, key := 20, val := 2 },
              { prev := some 1, next := some 0, key := 30, val := 3 }],
    klass := 0, m_key_list := some 0, m_hashmap := [0, 1, 2], m_default_value := 0 }

/-- Two linked cells, the head (cell 0) carrying `removed = true`. -/
def ringHeadRemoved : HashObject Nat :=
  { cells := [{ prev := some 1, next := some 1, key := 10, val := 1, removed := true },
              { prev := some 0, next := some 0, key := 20, val := 2 }],
    klass := 0, m_key_list := some 0, m_hashmap := [1], m_default_value := 0 }

/-- Two linked cells, the one before the head (cell 1) carrying `removed = true`. -/
def ringLastRemoved : HashObject Nat :=
  { cells := [{ prev := some 1, next := some 1, key := 10, val := 1 },
              { prev := some 0, next := some 0, key := 20, val := 2, removed := true }],
    klass := 0, m_key_list := some 0, m_hashmap := [0], m_default_value := 0 }

/-- Four linked cells of which the second and third carry `removed = true`. -/
def ringMiddleRemoved : HashObject Nat :=
  { cells := [{ prev := some 3, next := some 1, key := 10, val := 1 },
              { prev := some 0, next := some 2, key := 20, val := 2, removed := true },
              { prev := some 1, next := some 3, key := 30, val := 3, removed := true },
              { prev := some 2, next := some 0, key := 40, val := 4 }],
    klass := 0, m_key_list := some 0, m_hashmap := [0, 3], m_default_value := 0 }

/-- A key service on numbers: every key has the hash code 0, and equal
numbers are equal keys. -/
def numberKeys : KeyService Nat :=
  { hash := fun _ _ => 0, equal := fun _ a b => a == b }

/-- A hash holding `"a" => "1"` whose traversal is in progress. -/
def iteratingHash : HashObject String :=
  { cells := [{ prev := some 0, next := some 0, key := "a", val := "1", hash := 1 }],
    klass := 0, m_key_list := some 0, m_hashmap := [0], m_is_iterating := true,
    m_default_value := "nil" }

/-- A dispatch layer in which only objects of class `Str` respond to `to_i`
and only objects of class `Num` respond to `to_int`; a dispatched method hands
back the receiver's class name and the method name. -/
def sampleDispatch : Dispatch (String × String) :=
  { respond_to := fun o name =>
      (o.klass.class_name == some "Str" && name == "to_i") ||
        (o.klass.class_name == some "Num" && name == "to_int"),
    _send := fun o name _ _ => (o.klass.class_name_or_blank, name),
    _public_send := fun o name _ _ => (o.klass.class_name_or_blank, name),
    optimized_method := fun name => name == "+" }

/-- A heap holding a `Str` object, a `Num` object and a plain `Object`. -/
def sampleHeap : Heap :=
  { objects := [{ type := .String, klass := ⟨some "Str"⟩ },
                { type := .Object, klass := ⟨some "Num"⟩ },
                { type := .Object, klass := ⟨some "Object"⟩ }],
    m_gc_enabled := true }

/-- The constructor `HashObject(Env *, std::initializer_list<Value> items)` of
lines 219-228: the empty hash of `HashObject {}`, the assertion
`items.size() % 2 == 0`, then one `put` per pair, the iterator being moved on
twice in every round. -/
def HashObject.create_initializer_list (svc : KeyService V) (nil : V) (hashClass : Nat)
    (items : List V) : Except Abort (HashObject V) :=
  if items.length % 2 ≠ 0 then .error (.fault .assertFailed)
  else
    match HashObject.put_items svc (HashObject.create nil hashClass) items with
    | (h, .ok _) => .ok h
    | (_, .error e) => .error e

/-- A reference offered to the collector: a `HashKey *` (possibly null) or a
`Value`. -/
inductive Reference (V : Type) where
  | cell (p : Option Nat)
  | value (v : V)
  deriving DecidableEq, Repr

/-- The collector's `Visitor`, which is outside the sources at hand, taken as a
parameter: what `visit` does to the visitor's state when it is offered a cell
pointer or a value. -/
structure Visitor (σ V : Type) where
  visit_cell : σ → Option Nat → σ
  visit_value : σ → V → σ

/-- `HashKey::visit_children(Visitor &)` of `hash_object.hpp`, lines 27-32. -/
def HashKey.visit_children {σ : Type} (c : HashKey V) (visitor : Visitor σ V) (s : σ) : σ :=
  let s := visitor.visit_cell s c.prev
  let s := visitor.visit_cell s c.next
  let s := visitor.visit_value s c.key
  visitor.visit_value s c.val

/-- The visitor that records, in order, every reference it is offered. -/
def recordingVisitor : Visitor (List (Reference V)) V :=
  { visit_cell := fun s p => s ++ [.cell p], visit_value := fun s v => s ++ [.value v] }

/-! ## Argument counts (`args.cpp`) -/

/-- The class `Args` as `args.cpp` uses it: the count `argc` and the values
`args` points to. -/
structure Args (V : Type) where
  argc : Nat
  args : List V

/-- `Args::ensure_argc_is(Env *, size_t expected)` of `args.cpp`, lines 52-55;
`String::format` prints a `size_t` in decimal. -/
def Args.ensure_argc_is {V : Type} (a : Args V) (expected : Nat) : Except Exception Unit :=
  if a.argc ≠ expected then
    .error ⟨"ArgumentError",
      "wrong number of arguments (given " ++ toString a.argc ++ ", expected " ++
        toString expected ++ ")"⟩
  else .ok ()

/-- `Args::ensure_argc_between(Env *, size_t, size_t)` of `args.cpp`,
lines 57-60. -/
def Args.ensure_argc_between {V : Type} (a : Args V) (expected_low expected_high : Nat) :
    Except Exception Unit :=
  if a.argc < expected_low ∨ a.argc > expected_high then
    .error ⟨"ArgumentError",
      "wrong number of arguments (given " ++ toString a.argc ++ ", expected " ++
        toString expected_low ++ ".." ++ toString expected_high ++ ")"⟩
  else .ok ()

/-- `Utf8EncodingObject::is_printable_char(const nat_int_t c)` of
`utf8_encoding_object.cpp`, lines 226-228. -/
def Utf8EncodingObject.is_printable_char (c : Int) : Bool :=
  (decide (c ≥ 32) && decide (c < 127)) || (decide (c ≥ 160) && decide (c < 65520)) ||
    (decide (c ≥ 65529) && decide (c < 65534)) || decide (c ≥ 65536)

/-! ## The pack-directive tokenizer (`array_packer/tokenizer.hpp`) -/

namespace ArrayPacker

/-- `ArrayPacker::Token`; the directive 0 is the character NUL, `count` is a
32-bit `int`, and a null `error` is `none`. -/
structure Token where
  directive : Char := Char.ofNat 0
  count : Int := -1
  star : Bool := false
  error : Option String := none
  deriving DecidableEq, Repr

/-- `ArrayPacker::Tokenizer`: the directive string and the read position. -/
structure Tokenizer where
  m_directives : List Char
  m_index : Nat := 0
  deriving DecidableEq, Repr

/-- `isdigit` of the C library on the characters `0` to `9`. -/
def isdigit (c : Char) : Bool := decide ('0'.toNat ≤ c.toNat) && decide (c.toNat ≤ '9'.toNat)

/-- `isspace` of the C library in the C locale: space, tab, line feed,
vertical tab, form feed and carriage return. -/
def isspace (c : Char) : Bool := c.toNat == 32 || (decide (9 ≤ c.toNat) && decide (c.toNat ≤ 13))

/-- The loop of `Tokenizer::peek_char` on the characters from `m_index` on:
white space is passed over, and 0 is returned when only white space is left,
the position then staying on the last character looked at. -/
def Tokenizer.skip_space : List Char → Nat → Char × Nat
  | [], m_index => (Char.ofNat 0, m_index)
  | c :: rest, m_index =>
    if isspace c then
      match rest with
      | [] => (Char.ofNat 0, m_index)
      | _ :: _ => Tokenizer.skip_space rest (m_index + 1)
    else (c, m_index)

/-- `Tokenizer::peek_char()` of `tokenizer.hpp`, lines 71-81. -/
def Tokenizer.peek_char (t : Tokenizer) : Char × Tokenizer :=
  let r := Tokenizer.skip_space (t.m_directives.drop t.m_index) t.m_index
  (r.1, { t with m_index := r.2 })

/-- `Tokenizer::next_char()` of `tokenizer.hpp`, lines 65-69. -/
def Tokenizer.next_char (t : Tokenizer) : Char × Tokenizer :=
  let r := t.peek_char
  (r.1, { r.2 with m_index := r.2.m_index + 1 })

/-- What the 32-bit `int` field `Token::count` holds after an arithmetic result
`x`: its low 32 bits read in two's complement, which is how the overflow of
`count *= 10` and `count += ...` comes out. -/
def toInt32 (x : Int) : Int := (x + 2 ^ 31) % 2 ^ 32 - 2 ^ 31

/-- The loop `while (isdigit(peek_char()))` of `next_token`: every round reads
one more digit into the count, by `token.count *= 10` and
`token.count += ((int)d - 48)` on a 32-bit `int`.  The rounds are counted down
from the length of the directive string, which bounds them, since every round
moves the read position on. -/
def Tokenizer.read_count : Nat → Tokenizer → Int → Char → Tokenizer × Int × Char
  | 0, t, count, d => (t, count, d)
  | rounds + 1, t, count, d =>
    if isdigit t.peek_char.1 then
      let r := t.peek_char.2.next_char
      Tokenizer.read_count rounds r.2
        (toInt32 (toInt32 (count * 10) + ((r.1.toNat : Int) - 48))) r.1
    else (t.peek_char.2, count, d)

/-- `Tokenizer::next_token()` of `tokenizer.hpp`, lines 32-63. -/
def Tokenizer.next_token (t : Tokenizer) : Token × Tokenizer :=
  let r := t.next_char
  let d := r.1
  if d = Char.ofNat 0 then ({}, r.2)
  else
    let token : Token := { directive := d }
    let p := r.2.peek_char
    let d := p.1
    let t := p.2
    let q : Tokenizer × Int × Char :=
      if isdigit d then
        let n := t.next_char
        Tokenizer.read_count t.m_directives.length n.2 ((n.1.toNat : Int) - 48) n.1
      else (t, token.count, d)
    let t := q.1
    let token := { token with count := q.2.1 }
    let d := q.2.2
    if d = '*' then
      ({ token with star := true }, t.next_char.2)
    else if d = '_' ∨ d = '!' then
      let t := t.next_char.2
      if d ≠ 's' ∧ d ≠ 'S' ∧ d ≠ 'i' ∧ d ≠ 'I' ∧ d ≠ 'l' ∧ d ≠ 'L' ∧ d ≠ 'q' ∧ d ≠ 'Q' ∧
          d ≠ 'j' ∧ d ≠ 'J' then
        ({ token with
            error := some ("'" ++ String.singleton d ++ "' allowed only after types sSiIlLqQjJ") },
          t)
      else (token, t)
    else (token, t)

end ArrayPacker

/-! ## ISO-8859-16 (`iso885916_encoding_object.cpp`) -/

/-- The table `ISO885916` of `iso885916_encoding_object.cpp`, lines 5-19: the
code points of the bytes 0x80 to 0xFF. -/
def ISO885916 : List Int :=
  [0x80, 0x81, 0x82, 0x83, 0x84, 0x85, 0x86, 0x87, 0x88, 0x89,
   0x8A, 0x8B, 0x8C, 0x8D, 0x8E, 0x8F, 0x90, 0x91, 0x92, 0x93,
   0x94, 0x95, 0x96, 0x97, 0x98, 0x99, 0x9A, 0x9B, 0x9C, 0x9D,
   0x9E, 0x9F, 0xA0, 0x104, 0x105, 0x141, 0x20AC, 0x201E, 0x160, 0xA7,
   0x161, 0xA9, 0x218, 0xAB, 0x179, 0xAD, 0x17A, 0x17B, 0xB0, 0xB1,
   0x10C, 0x142, 0x17D, 0x201D, 0xB6, 0xB7, 0x17E, 0x10D, 0x219, 0xBB,
   0x152, 0x153, 0x178, 0x17C, 0xC0, 0xC1, 0xC2, 0x102, 0xC4, 0x106,
   0xC6, 0xC7, 0xC8, 0xC9, 0xCA, 0xCB, 0xCC, 0xCD, 0xCE, 0xCF,
   0x110, 0x143, 0xD2, 0xD3, 0xD4, 0x150, 0xD6, 0x15A, 0x170, 0xD9,
   0xDA, 0xDB, 0xDC, 0x118, 0x21A, 0xDF, 0xE0, 0xE1, 0xE2, 0x103,
   0xE4, 0x107, 0xE6, 0xE7, 0xE8, 0xE9, 0xEA, 0xEB, 0xEC, 0xED,
   0xEE, 0xEF, 0x111, 0x144, 0xF2, 0xF3, 0xF4, 0x151, 0xF6, 0x15B,
   0x171, 0xF9, 0xFA, 0xFB, 0xFC, 0x119, 0x21B, 0xFF]

/-- The constant `ISO885916_max`: the last index of the table. -/
def ISO885916_max : Nat := 127

/-- `Iso885916EncodingObject::valid_codepoint` of
`iso885916_encoding_object.hpp`, lines 18-20. -/
def Iso885916EncodingObject.valid_codepoint (codepoint : Int) : Bool :=
  decide (codepoint ≥ 0) && decide (codepoint ≤ 0xFF)

/-- `Iso885916EncodingObject::in_encoding_codepoint_range` of
`iso885916_encoding_object.hpp`, lines 21-23. -/
def Iso885916EncodingObject.in_encoding_codepoint_range (codepoint : Int) : Bool :=
  decide (codepoint ≥ 0) && decide (codepoint ≤ 0xFF)

/-- `Iso885916EncodingObject::to_unicode_codepoint` of
`iso885916_encoding_object.cpp`, lines 43-49. -/
def Iso885916EncodingObject.to_unicode_codepoint (codepoint : Int) : Int :=
  if codepoint ≥ 0x00 ∧ codepoint ≤ 0x7F then codepoint
  else if codepoint ≥ 0x80 ∧ codepoint ≤ 0xFF then ISO885916.getD (codepoint - 0x80).toNat 0
  else -1

/-- `Iso885916EncodingObject::from_unicode_codepoint` of
`iso885916_encoding_object.cpp`, lines 51-59: the loop returns at the first
index `i <= ISO885916_max` whose table entry is the code point. -/
def Iso885916EncodingObject.from_unicode_codepoint (codepoint : Int) : Int :=
  if codepoint ≥ 0x00 ∧ codepoint ≤ 0x7F then codepoint
  else
    match (List.range (ISO885916_max + 1)).find? (fun i => ISO885916.getD i 0 == codepoint) with
    | some i => (i : Int) + 0x80
    | none => -1

/-! ## UTF-8 (`utf8_encoding_object.cpp`) -/

/-- One `unsigned char` of a byte string. -/
abbrev Byte := Fin 256

/-- The conversion of an integer to `char` that `String::append_char` applies
to its argument: the low eight bits. -/
def toByte (x : Nat) : Byte := ⟨x % 256, Nat.mod_lt _ (by decide)⟩

/-- The read `(unsigned char)string[k]`. -/
def byteAt (string : List Byte) (k : Nat) : Nat :=
  match string[k]? with
  | some b => b.val
  | none => 0

/-- `Utf8EncodingObject::encode_codepoint(nat_int_t)` of
`utf8_encoding_object.cpp`, lines 249-270.  From the second branch on the code
point is at least 0x80, so its shifts and masks are those of a natural
number. -/
def Utf8EncodingObject.encode_codepoint (codepoint : Int) : List Byte :=
  if codepoint < 0x80 then
    [toByte (codepoint % 256).toNat]
  else
    let c := codepoint.toNat
    if codepoint < 0x800 then
      [toByte (0b11000000 ||| (c >>> 6)),
       toByte (0b10000000 ||| (c &&& 0x3f))]
    else if codepoint < 0x10000 then
      [toByte (0b11100000 ||| (c >>> 12)),
       toByte (0b10000000 ||| ((c >>> 6) &&& 0x3f)),
       toByte (0b10000000 ||| (c &&& 0x3f))]
    else if codepoint < 0x200000 then
      [toByte (0b11110000 ||| (c >>> 18)),
       toByte (0b10000000 ||| ((c >>> 12) &&& 0x3f)),
       toByte (0b10000000 ||| ((c >>> 6) &&& 0x3f)),
       toByte (0b10000000 ||| (c &&& 0x3f))]
    else
      [toByte 0xFF, toByte 0xFD]

/-- `Utf8EncodingObject::decode_codepoint(StringView &)` of
`utf8_encoding_object.cpp`, lines 272-291, on the bytes of the view. -/
def Utf8EncodingObject.decode_codepoint (str : List Byte) : Int :=
  match str with
  | [a] => (a.val : Nat)
  | [a, b] => ((((a.val ^^^ 0xC0) <<< 6) + ((b.val ^^^ 0x80) <<< 0) : Nat) : Int)
  | [a, b, c] =>
    ((((a.val ^^^ 0xE0) <<< 12) + ((b.val ^^^ 0x80) <<< 6) + ((c.val ^^^ 0x80) <<< 0) : Nat) : Int)
  | [a, b, c, d] =>
    ((((a.val ^^^ 0xF0) <<< 18) + ((b.val ^^^ 0x80) <<< 12) + ((c.val ^^^ 0x80) <<< 6) +
      ((d.val ^^^ 0x80) <<< 0) : Nat) : Int)
  | _ => -1

/-- The tuple `next_codepoint` returns: `valid`, `bytes` and `codepoint`. -/
structure CodepointResult where
  valid : Bool
  bytes : Nat
  codepoint : Int
  deriving DecidableEq, Repr

/-- `Utf8EncodingObject::next_codepoint(const String &, size_t *index)` of
`utf8_encoding_object.cpp`, lines 17-134.  The result is the tuple returned and
the value left in `*index`.  The code point is built from unsigned chars, so it
is a natural number and the `abort()` of line 52 is never reached;
`NAT_UNREACHABLE()` ends the run. -/
def Utf8EncodingObject.next_codepoint (string : List Byte) (index : Nat) :
    Except Fault (CodepointResult × Nat) :=
  let len := string.length
  if index ≥ len then .ok (⟨true, 0, -1⟩, index)
  else
    let i := index
    let c := byteAt string i
    let lead : Option (Nat × Nat) :=
      if c >>> 3 = 0b11110 then
        let codepoint := (c ^^^ 0xF0) <<< 18
        let codepoint :=
          if i + 1 < len then codepoint + ((byteAt string (i + 1) ^^^ 0x80) <<< 12) else codepoint
        let codepoint :=
          if i + 2 < len then codepoint + ((byteAt string (i + 2) ^^^ 0x80) <<< 6) else codepoint
        let codepoint :=
          if i + 3 < len then codepoint + (byteAt string (i + 3) ^^^ 0x80) else codepoint
        some (codepoint, 4)
      else if c >>> 4 = 0b1110 then
        let codepoint := (c ^^^ 0xE0) <<< 12
        let codepoint :=
          if i + 1 < len then codepoint + ((byteAt string (i + 1) ^^^ 0x80) <<< 6) else codepoint
        let codepoint :=
          if i + 2 < len then codepoint + (byteAt string (i + 2) ^^^ 0x80) else codepoint
        some (codepoint, 3)
      else if c >>> 5 = 0b110 then
        let codepoint := (c ^^^ 0xC0) <<< 6
        let codepoint :=
          if i + 1 < len then codepoint + (byteAt string (i + 1) ^^^ 0x80) else codepoint
        some (codepoint, 2)
      else if c >>> 7 = 0b0 then some (c, 1)
      else none
    match lead with
    | none => .ok (⟨false, 1, c⟩, index + 1)
    | some (codepoint, bytes) =>
      if index + bytes > len then .ok (⟨false, len - index, codepoint⟩, len)
      else
        let index := index + bytes
        if (List.range' 1 (bytes - 1)).any (fun j => decide (byteAt string (i + j) >>> 6 ≠ 0b10))
        then .ok (⟨false, bytes, codepoint⟩, index)
        else
          match bytes with
          | 1 => .ok (⟨true, 1, codepoint⟩, index)
          | 2 =>
            let extra_bits := byteAt string i &&& 0b11110
            if extra_bits = 0 then .ok (⟨false, 1, codepoint⟩, index)
            else .ok (⟨true, 2, codepoint⟩, index)
          | 3 =>
            let extra_bits1 := byteAt string i &&& 0b1111
            let extra_bits2 := byteAt string (i + 1) &&& 0b100000
            let significant_bits1 := byteAt string i &&& 0b1111
            let significant_bits2 := byteAt string (i + 1) &&& 0b111111
            if extra_bits1 = 0 ∧ extra_bits2 = 0 then .ok (⟨false, 1, codepoint⟩, index)
            else if significant_bits1 = 0b1101 ∧ significant_bits2 >>> 5 = 1 then
              .ok (⟨false, 1, codepoint⟩, index)
            else .ok (⟨true, 3, codepoint⟩, index)
          | 4 =>
            let significant_bits1 := byteAt string i &&& 0b111
            let significant_bits2 := byteAt string (i + 1) &&& 0b111111
            let significant_bits3 := byteAt string (i + 2) &&& 0b111111
            let significant_bits4 := byteAt string (i + 3) &&& 0b111111
            let codepoint2 :=
              significant_bits4 ||| (significant_bits3 <<< 6) ||| (significant_bits2 <<< 12) |||
                (significant_bits1 <<< 18)
            if codepoint2 < 0x10000 ∨ codepoint2 > 0x10FFFF then .ok (⟨false, 1, codepoint⟩, index)
            else .ok (⟨true, 4, codepoint⟩, index)
          | _ => .error .assertFailed

/-- Two live cells (1 and 2) linked in a ring whose head is cell 1, and the
former head, cell 0, unlinked from the ring while an iterator stood on it: it
carries `removed = true` and its `next` still designates cell 1. -/
def ringHeadUnlinked : HashObject Nat :=
  { cells := [{ prev := some 2, next := some 1, key := 10, val := 1, removed := true },
              { prev := some 2, next := some 2, key := 20, val := 2 },
              { prev := some 1, next := some 1, key := 30, val := 3 }],
    klass := 0, m_key_list := some 1, m_hashmap := [1, 2], m_default_value := 0 }

/-! ## A call of `send` and the state it leaves -/

/-- `ValuePtr::send` of `value_ptr.cpp`, lines 14-21, with the state the call
leaves behind: the fields of `*this` and the heap.  Neither branch assigns a
member or allocates: `synthesized` is a local object and `value()` only reads
`m_value`.  What the dispatched method does is part of `R`. -/
def ValuePtr.send_state {R : Type} (d : Dispatch R) (v : ValuePtr) (heap : Heap)
    (name : String) (args : List ValuePtr) (block : Option Nat) :
    (ValuePtr × Heap) × Except Fault R :=
  ((v, heap), v.send d heap name args block)

/-- `ValuePtr::public_send` of `value_ptr.cpp`, lines 5-12, with the state the
call leaves behind: the fields of `*this` and the heap, neither of which either
branch writes. -/
def ValuePtr.public_send_state {R : Type} (d : Dispatch R) (v : ValuePtr) (heap : Heap)
    (name : String) (args : List ValuePtr) (block : Option Nat) :
    (ValuePtr × Heap) × Except Fault R :=
  ((v, heap), v.public_send d heap name args block)

/-- An immediate integer 7 that was never hydrated. -/
def immediateSeven : ValuePtr := { m_type := .Integer, m_integer := 7 }

/-! ## Integer division (`integer.cpp`) -/

/-- The least `int64_t`. -/
def INT64_MIN : Int := -(2 ^ 63)

/-- The greatest `int64_t`. -/
def INT64_MAX : Int := 2 ^ 63 - 1

/-- Modelled from the spec: `IntegerValue::to_int64_t()` (the header of
`IntegerValue` is outside the sources at hand), the 64-bit integer held. -/
def Value.to_int64_t (o : Value) : Int := o.m_integer

/-- The expression `dividend / divisor` on two `int64_t`s: the quotient
truncated toward zero.  C++ leaves the division undefined when the divisor is 0
and when the quotient is no `int64_t`; both are `none`. -/
def int64_div (dividend divisor : Int) : Option Int :=
  if divisor = 0 then none
  else
    let q := Int.tdiv dividend divisor
    if INT64_MIN ≤ q ∧ q ≤ INT64_MAX then some q else none

/-- What the built-in functions of `integer.cpp` take from outside the sources
at hand, as parameters: the messages of the macros `NAT_ASSERT_ARGC` (from the
count given and the count expected) and `NAT_ASSERT_TYPE` (from the object and
the class name expected), `Value::respond_to`, and the dispatch of lines 60-63:
`coerce` sent to the argument with `self`, then `/` sent to the second element
of the pair with the first. -/
structure Builtin (R : Type) where
  argc_message : Nat → Nat → String
  type_message : Value → String → String
  respond_to : Value → String → Bool
  coerce_div : Value → Value → R

/-- How a built-in function ends: it returns a heap object, raises an
exception, hands back what a dispatched method gave, faults, or runs into
undefined behaviour of C++. -/
inductive BuiltinOutcome (R : Type) where
  | returned (v : Value)
  | raised (e : Exception)
  | dispatched (r : R)
  | fault (f : Fault)
  | undefined

/-- `Integer_div` of `integer.cpp`, lines 46-70; `args` are the `argc`
arguments.  `NAT_ASSERT_ARGC(1)` raises `ArgumentError` unless there is one
argument, `NAT_ASSERT_TYPE` raises `TypeError` when the type tag is not the
one expected, and the `abort()` after it ends the run. -/
def Integer_div {R : Type} (b : Builtin R) (self_value : Value) (args : List Value) :
    BuiltinOutcome R :=
  match self_value.as_integer with
  | .error f => .fault f
  | .ok self =>
    match args with
    | [arg] =>
      if arg.is_integer then
        let dividend := self.to_int64_t
        match arg.as_integer with
        | .error f => .fault f
        | .ok a =>
          let divisor := a.to_int64_t
          if divisor = 0 then .raised ⟨"ZeroDivisionError", "divided by 0"⟩
          else
            match int64_div dividend divisor with
            | none => .undefined
            | some result => .returned (IntegerValue result)
      else if b.respond_to arg "coerce" then .dispatched (b.coerce_div arg self_value)
      else if arg.type ≠ .Integer then .raised ⟨"TypeError", b.type_message arg "Integer"⟩
      else .fault .assertFailed
    | _ => .raised ⟨"ArgumentError", b.argc_message args.length 1⟩

/-- Macros that spell their messages out and a dispatch layer in which nothing
responds to `coerce`. -/
def sampleBuiltin : Builtin Unit :=
  { argc_message := fun given expected =>
      "wrong number of arguments (given " ++ toString given ++ ", expected " ++
        toString expected ++ ")",
    type_message := fun o name => o.klass.class_name_or_blank ++ " is no " ++ name,
    respond_to := fun _ _ => false,
    coerce_div := fun _ _ => () }

/-! ## Characters and grapheme clusters (`utf8_encoding_object.cpp`) -/

/-- Modelled from the spec: the class `StringView` (its header is outside the
sources at hand), as built by `StringView(&string, offset, size)`: `size` bytes
of the string from `offset` on. -/
structure StringView where
  offset : Nat
  size : Nat
  deriving DecidableEq, Repr

/-- Modelled from the spec: `StringView::is_empty()`, the view has no byte. -/
def StringView.is_empty (view : StringView) : Bool := view.size == 0

/-- The bytes `view[0]`, ..., `view[size - 1]` of a view that lies inside the
string. -/
def StringView.bytes (string : List Byte) (view : StringView) : List Byte :=
  (string.drop view.offset).take view.size

/-- `Utf8EncodingObject::next_char(const String &, size_t *index)` of
`utf8_encoding_object.cpp`, lines 158-171: the pair returned and the value left
in `*index`. -/
def Utf8EncodingObject.next_char (string : List Byte) (index : Nat) :
    Except Fault ((Bool × StringView) × Nat) :=
  let i := index
  match Utf8EncodingObject.next_codepoint string index with
  | .error f => .error f
  | .ok (⟨valid, length, _⟩, index) =>
    if !valid && decide (length > 1) then .ok ((valid, ⟨i, 1⟩), i + 1)
    else .ok ((valid, ⟨i, length⟩), index)

/-- The loop `for (;;)` of `next_grapheme_cluster`, lines 178-203, on the
variables `view`, `*index`, `join_next` and `index2`; `fuel` bounds the number
of rounds. -/
def Utf8EncodingObject.next_grapheme_cluster_loop (string : List Byte) :
    Nat → StringView → Nat → Bool → Nat → Except Fault (StringView × Nat × Bool)
  | 0, _, _, _, _ => .error .outOfFuel
  | fuel + 1, view, index, join_next, index2 =>
    match Utf8EncodingObject.next_char string index2 with
    | .error f => .error f
    | .ok ((valid2, view2), index2) =>
      if !valid2 || view2.is_empty then .ok (view, index, join_next)
      else
        let codepoint := Utf8EncodingObject.decode_codepoint (view2.bytes string)
        if codepoint ≥ 0xFE00 ∧ codepoint ≤ 0xFE0F then
          Utf8EncodingObject.next_grapheme_cluster_loop string fuel
            ⟨view.offset, view.size + view2.size⟩ index2 join_next index2
        else if codepoint = 0x200D then
          Utf8EncodingObject.next_grapheme_cluster_loop string fuel
            ⟨view.offset, view.size + view2.size⟩ index2 true index2
        else .ok (view, index, join_next)

/-- `Utf8EncodingObject::next_grapheme_cluster(const String &, size_t *index)`
of `utf8_encoding_object.cpp`, lines 173-215: the view returned and the value
left in `*index`; `fuel` bounds the rounds of its loop. -/
def Utf8EncodingObject.next_grapheme_cluster (string : List Byte) (index : Nat) (fuel : Nat) :
    Except Fault (StringView × Nat) :=
  match Utf8EncodingObject.next_char string index with
  | .error f => .error f
  | .ok ((_, view), index) =>
    match Utf8EncodingObject.next_grapheme_cluster_loop string fuel view index false index with
    | .error f => .error f
    | .ok (view, index, join_next) =>
      if join_next then
        match Utf8EncodingObject.next_char string index with
        | .error f => .error f
        | .ok ((valid2, view2), index2) =>
          if !valid2 || view2.is_empty then .ok (view, index)
          else .ok (⟨view.offset, view.size + view2.size⟩, index2)
      else .ok (view, index)

/-! ## The iterator on a well-formed key list -/

theorem HashObject.isLive_iff (h : HashObject V) (a : Nat) :
    h.isLive a = true ↔ ∃ c, h.cells[a]? = some c ∧ c.removed = false := by
  unfold HashObject.isLive
  cases hc : h.cells[a]? with
  | none => simp
  | some c => simp

theorem HashObject.nextOf_eq_some (h : HashObject V) (a b : Nat) :
    h.nextOf a = some b ↔ ∃ c, h.cells[a]? = some c ∧ c.next = some b := by
  unfold HashObject.nextOf
  cases hc : h.cells[a]? with
  | none => simp
  | some c => simp

theorem HashObject.prevOf_eq_some (h : HashObject V) (a b : Nat) :
    h.prevOf a = some b ↔ ∃ c, h.cells[a]? = some c ∧ c.prev = some b := by
  unfold HashObject.prevOf
  cases hc : h.cells[a]? with
  | none => simp
  | some c => simp

/-- The first cell of a chain exists. -/
theorem HashObject.Chain.head_cell {h : HashObject V} {a : Nat} {rest : List Nat} {t : Nat}
    (hc : h.Chain a rest t) : ∃ c, h.cells[a]? = some c := by
  cases rest with
  | nil =>
    obtain ⟨c, h1, _⟩ := (h.nextOf_eq_some a t).1 hc.1
    exact ⟨c, h1⟩
  | cons b r =>
    obtain ⟨c, h1, _⟩ := (h.nextOf_eq_some a b).1 hc.1
    exact ⟨c, h1⟩

/-- One `operator++` at the last cell of the list, when that cell is live: the
iterator becomes `end()`. -/
theorem iterator.operator_inc_last (h : HashObject V) (a t fuel : Nat)
    (hhead : h.m_key_list = some t) (hnext : h.nextOf a = some t)
    (hlive : h.isLive a = true) :
    iterator.operator_inc h (fuel + 1) ⟨some a⟩ = .ok ⟨none⟩ := by
  obtain ⟨c, hc, hn⟩ := (h.nextOf_eq_some a t).1 hnext
  obtain ⟨c2, hc2, hr⟩ := (h.isLive_iff a).1 hlive
  rw [hc] at hc2
  cases hc2
  simp [iterator.operator_inc, hc, hn, hr, hhead]

/-- One `operator++` at a cell whose successor `b` is not the head: it moves to
`b` when `b` is live and otherwise repeats from `b`. -/
theorem iterator.operator_inc_step (h : HashObject V) (a b t fuel : Nat)
    (hhead : h.m_key_list = some t) (hnext : h.nextOf a = some b) (hbt : b ≠ t)
    (cb : HashKey V) (hcb : h.cells[b]? = some cb) :
    iterator.operator_inc h (fuel + 1) ⟨some a⟩ =
      if cb.removed then iterator.operator_inc h fuel ⟨some b⟩ else .ok ⟨some b⟩ := by
  obtain ⟨c, hc, hn⟩ := (h.nextOf_eq_some a b).1 hnext
  simp [iterator.operator_inc, hc, hn, hhead, hbt, hcb]

/-- One round of the loop: the body on `*it`, then the rest of the loop. -/
theorem HashObject.traverse_succ (h : HashObject V) (fuel n k : Nat) :
    h.traverse fuel (n + 1) ⟨some k⟩ =
      (h.resume fuel fuel n ⟨some k⟩).map (fun l => k :: l) := by
  simp only [HashObject.traverse, HashObject.resume]
  cases iterator.operator_inc h fuel ⟨some k⟩ with
  | error e => rfl
  | ok it =>
    show (match h.traverse fuel n it with
      | .error e => .error e
      | .ok l => .ok (k :: l)) = Except.map (fun l => k :: l) (h.traverse fuel n it)
    cases h.traverse fuel n it with
    | error e => rfl
    | ok l => rfl

/-- What a traversal hands out after the cell `a` of a chain that leads back to
the head `t` and whose last cell is live: the live cells among `rest`. -/
theorem HashObject.resume_chain (h : HashObject V) (t : Nat) (hhead : h.m_key_list = some t) :
    ∀ (rest : List Nat) (a : Nat), h.Chain a rest t → t ∉ rest →
      h.isLive (lastOf a rest) = true →
      ∀ fi ft n, rest.length < fi → rest.length < ft → rest.length ≤ n →
        h.resume fi ft n ⟨some a⟩ = .ok (rest.filter h.isLive) := by
  intro rest
  induction rest with
  | nil =>
    intro a hc _ hl fi ft n hfi _ _
    obtain ⟨fi, rfl⟩ : ∃ k, fi = k + 1 := ⟨fi - 1, by simp at hfi; omega⟩
    unfold HashObject.resume
    rw [iterator.operator_inc_last h a t fi hhead hc.1 hl]
    simp [HashObject.traverse]
  | cons b r ih =>
    intro a hc hnot hl fi ft n hfi hft hn
    obtain ⟨fi, rfl⟩ : ∃ k, fi = k + 1 := ⟨fi - 1, by simp at hfi; omega⟩
    obtain ⟨cb, hcb⟩ := hc.2.2.head_cell
    have hbt : b ≠ t := fun e => hnot (by simp [e])
    have htr : t ∉ r := fun e => hnot (by simp [e])
    simp only [List.length_cons] at hfi hft hn
    unfold HashObject.resume
    rw [iterator.operator_inc_step h a b t fi hhead hc.1 hbt cb hcb]
    cases hrem : cb.removed with
    | true =>
      have hdead : h.isLive b = false := by simp [HashObject.isLive, hcb, hrem]
      simp only [if_true]
      rw [List.filter_cons_of_neg (by simp [hdead])]
      exact ih b hc.2.2 htr hl fi ft n (by omega) (by omega) (by omega)
    | false =>
      have hlive : h.isLive b = true := by simp [HashObject.isLive, hcb, hrem]
      obtain ⟨n, rfl⟩ : ∃ k, n = k + 1 := ⟨n - 1, by omega⟩
      have := ih b hc.2.2 htr hl ft ft n (by omega) (by omega) (by omega)
      simp only [Bool.false_eq_true, if_false]
      rw [List.filter_cons_of_pos hlive, HashObject.traverse_succ, this]
      rfl

/-- A traversal of a well-formed key list whose last cell is live ends and
hands out the head followed by the live cells among the others. -/
theorem HashObject.each_node_of_last_live (h : HashObject V) (a : Nat) (rest : List Nat)
    (hwf : h.WellFormed (a :: rest)) (hl : h.isLive (lastOf a rest) = true)
    (fuel : Nat) (hf : rest.length < fuel) :
    h.each_node fuel = .ok (a :: rest.filter h.isLive) := by
  obtain ⟨hhead, hnd, hc⟩ := hwf
  obtain ⟨f, rfl⟩ : ∃ k, fuel = k + 1 := ⟨fuel - 1, by omega⟩
  have hnot : a ∉ rest := (List.nodup_cons.1 hnd).1
  have := h.resume_chain a hhead rest a hc hnot hl (f + 1) (f + 1) f (by omega) (by omega)
    (by omega)
  simp only [HashObject.each_node, HashObject.begin, hhead]
  rw [HashObject.traverse_succ, this]
  rfl

/-- C1: on a well-formed circular doubly-linked key list whose cells `ids`
(listed in `next` order from `m_key_list`) are all live, the loop from
`begin()` with `operator++` until `end()` ends and visits exactly the cells
`ids`, each once, in that order; and a hash with `m_key_list == nullptr` has
`begin() == end()`. -/
theorem HashObject.each_node_all_live (h : HashObject V) (a : Nat) (rest : List Nat)
    (hwf : h.WellFormed (a :: rest)) (hlive : ∀ x ∈ a :: rest, h.isLive x = true)
    (fuel : Nat) (hf : (a :: rest).length ≤ fuel) :
    (h.each_node fuel = .ok (a :: rest) ∧ (a :: rest).Nodup) ∧
      ∀ h0 : HashObject V, h0.m_key_list = none → h0.begin = h0.end_ := by
  refine ⟨⟨?_, hwf.2.1⟩, ?_⟩
  · have hlast : h.isLive (lastOf a rest) = true := by
      have : ∀ (r : List Nat) (x : Nat), lastOf x r ∈ x :: r := by
        intro r
        induction r with
        | nil => intro x; simp [lastOf]
        | cons b r ih => intro x; simp only [lastOf]; exact List.mem_cons_of_mem _ (ih b)
      exact hlive _ (this rest a)
    rw [h.each_node_of_last_live a rest hwf hlast fuel (by simpa using hf)]
    have : rest.filter h.isLive = rest :=
      List.filter_eq_self.2 (fun x hx => hlive x (List.mem_cons_of_mem _ hx))
    rw [this]
  · intro h0 h1
    simp [HashObject.begin, HashObject.end_, h1]

theorem HashObject.each_node_all_live_witness :
    (ringOfThree.each_node 3 = .ok [0, 1, 2] ∧ [0, 1, 2].Nodup) ∧
      ∀ h0 : HashObject Nat, h0.m_key_list = none → h0.begin = h0.end_ :=
  HashObject.each_node_all_live ringOfThree 0 [1, 2]
    (by simp [HashObject.WellFormed, HashObject.Chain, HashObject.nextOf, HashObject.prevOf,
      ringOfThree])
    (by simp [HashObject.isLive, ringOfThree]) 3 (by simp)

/-- On a ring of two cells whose head is live and whose other cell is removed,
an `operator++` at the head either runs out of budget or comes back to the
head itself. -/
theorem iterator.operator_inc_wraps (h : HashObject V) (c0 c1 : HashKey V)
    (h0 : h.cells[0]? = some c0) (h1 : h.cells[1]? = some c1) (hk : h.m_key_list = some 0)
    (hn0 : c0.next = some 1) (hn1 : c1.next = some 0) (hr0 : c0.removed = false)
    (hr1 : c1.removed = true) (f : Nat) :
    iterator.operator_inc h f ⟨some 0⟩ = .error .outOfFuel ∨
      iterator.operator_inc h f ⟨some 0⟩ = .ok ⟨some 0⟩ := by
  match f with
  | 0 => exact Or.inl rfl
  | 1 => exact Or.inl (by simp [iterator.operator_inc, h0, h1, hk, hn0, hr0, hr1])
  | f + 2 => exact Or.inr (by simp [iterator.operator_inc, h0, h1, hk, hn0, hn1, hr0, hr1])

/-- The loop over such a ring never reaches `end()`, whatever the budget: it
comes back to the head again and again. -/
theorem HashObject.traverse_wraps (h : HashObject V) (c0 c1 : HashKey V)
    (h0 : h.cells[0]? = some c0) (h1 : h.cells[1]? = some c1) (hk : h.m_key_list = some 0)
    (hn0 : c0.next = some 1) (hn1 : c1.next = some 0) (hr0 : c0.removed = false)
    (hr1 : c1.removed = true) (f n : Nat) :
    h.traverse f n ⟨some 0⟩ = .error .outOfFuel := by
  induction n with
  | zero => rfl
  | succ n ih =>
    rw [HashObject.traverse_succ]
    unfold HashObject.resume
    rcases iterator.operator_inc_wraps h c0 c1 h0 h1 hk hn0 hn1 hr0 hr1 f with e | e
    · rw [e]; rfl
    · rw [e]; simp only [ih]; rfl

/-- C2 (as stated) fails on the code.  On the well-formed two-cell ring whose
head is removed the loop hands out the removed head; on the well-formed
two-cell ring whose last cell is removed the loop never ends. -/
theorem HashObject.each_node_removed_counterexample :
    (ringHeadRemoved.WellFormed [0, 1] ∧ ringHeadRemoved.isLive 0 = false ∧
      ringHeadRemoved.each_node 2 = .ok [0, 1]) ∧
    (ringLastRemoved.WellFormed [0, 1] ∧ ringLastRemoved.isLive 1 = false ∧
      ∀ fuel, ringLastRemoved.each_node fuel = .error .outOfFuel) := by
  refine ⟨⟨?_, ?_, ?_⟩, ?_, ?_, ?_⟩
  · simp [HashObject.WellFormed, HashObject.Chain, HashObject.nextOf, HashObject.prevOf,
      ringHeadRemoved]
  · simp [HashObject.isLive, ringHeadRemoved]
  · simp [HashObject.each_node, HashObject.begin, HashObject.traverse, iterator.operator_inc,
      ringHeadRemoved]
  · simp [HashObject.WellFormed, HashObject.Chain, HashObject.nextOf, HashObject.prevOf,
      ringLastRemoved]
  · simp [HashObject.isLive, ringLastRemoved]
  · intro fuel
    exact HashObject.traverse_wraps ringLastRemoved
      { prev := some 1, next := some 1, key := 10, val := 1 }
      { prev := some 0, next := some 0, key := 20, val := 2, removed := true }
      rfl rfl rfl rfl rfl rfl rfl fuel fuel

/-- C2 (amended): on a well-formed circular key list in which removed cells are
still linked, and whose head and last cell before the head are both live, the
loop from `begin()` to `end()` ends and hands out exactly the live cells, each
once, in list order; no removed cell is handed out. -/
theorem HashObject.each_node_skips_removed (h : HashObject V) (a : Nat) (rest : List Nat)
    (hwf : h.WellFormed (a :: rest)) (hhead : h.isLive a = true)
    (hlast : h.isLive (lastOf a rest) = true) (fuel : Nat) (hf : (a :: rest).length ≤ fuel) :
    h.each_node fuel = .ok ((a :: rest).filter h.isLive) ∧
      ((a :: rest).filter h.isLive).Nodup ∧
      ∀ x ∈ (a :: rest).filter h.isLive, h.isLive x = true := by
  refine ⟨?_, hwf.2.1.filter _, fun x hx => (List.mem_filter.1 hx).2⟩
  rw [h.each_node_of_last_live a rest hwf hlast fuel (by simpa using hf),
    List.filter_cons_of_pos hhead]

theorem HashObject.each_node_skips_removed_witness :
    ringMiddleRemoved.each_node 4 = .ok [0, 3] := by
  have h := HashObject.each_node_skips_removed ringMiddleRemoved 0 [1, 2, 3]
    (by simp [HashObject.WellFormed, HashObject.Chain, HashObject.nextOf, HashObject.prevOf,
      ringMiddleRemoved])
    (by simp [HashObject.isLive, ringMiddleRemoved])
    (by simp [HashObject.isLive, ringMiddleRemoved, lastOf]) 4 (by simp)
  have e : ([0, 1, 2, 3] : List Nat).filter ringMiddleRemoved.isLive = [0, 3] := by
    simp [List.filter, HashObject.isLive, ringMiddleRemoved]
  rw [e] at h
  exact h.1

/-! ## The iteration guard -/

/-- A successful probe of the index names a registered cell whose hash code and
key match. -/
theorem HashObject.find_item_some (svc : KeyService V) (h : HashObject V) (hash : Nat) (key : V)
    (p : Nat) (hp : h.find_item svc hash key = some p) :
    p ∈ h.m_hashmap ∧ ∃ c, h.cells[p]? = some c ∧ c.hash = hash ∧
      svc.equal h.m_is_comparing_by_identity c.key key = true := by
  unfold HashObject.find_item at hp
  have hmem := List.mem_of_find?_eq_some hp
  have hpred := List.find?_some hp
  refine ⟨hmem, ?_⟩
  cases hc : h.cells[p]? with
  | none => simp [hc] at hpred
  | some c =>
    simp only [hc, Bool.and_eq_true, beq_iff_eq] at hpred
    exact ⟨c, rfl, hpred.1, hpred.2⟩

/-- C5: while `is_iterating()` is true, `put` of a key that is not present and
`remove` of any key fail with the concurrent-modification error and leave the
hash as it was, whereas `put` of a key that is present succeeds and changes
nothing but the `val` of that key's cell. -/
theorem HashObject.iteration_guard (svc : KeyService V) (h : HashObject V) (key val : V)
    (hit : h.is_iterating = true) :
    (h.find_item svc (h.generate_key_hash svc key) key = none →
      h.put svc key val = (h, .error (.raised .ConcurrentModification))) ∧
    h.remove svc key = (h, .error (.raised .ConcurrentModification)) ∧
    (∀ p, h.find_item svc (h.generate_key_hash svc key) key = some p →
      (h.put svc key val).2 = .ok () ∧
      (∃ c, h.cells[p]? = some c ∧
        svc.equal h.m_is_comparing_by_identity c.key key = true ∧
        (h.put svc key val).1.cells[p]? = some { c with val := val }) ∧
      (∀ q, q ≠ p → (h.put svc key val).1.cells[q]? = h.cells[q]?) ∧
      (h.put svc key val).1 = { h with cells := (h.put svc key val).1.cells } ∧
      (h.put svc key val).1.cells.length = h.cells.length) := by
  have hit2 : h.m_is_iterating = true := hit
  refine ⟨?_, ?_, ?_⟩
  · intro hnone
    simp [HashObject.put, hnone, hit2]
  · simp [HashObject.remove, hit2]
  · intro p hp
    obtain ⟨_, c, hc, _, heq⟩ := h.find_item_some svc _ key p hp
    have hput : h.put svc key val =
        ({ h with cells := List.modify (fun c => { c with val := val }) p h.cells }, .ok ()) := by
      simp [HashObject.put, hp]
    rw [hput]
    refine ⟨rfl, ⟨c, hc, heq, ?_⟩, ?_, rfl, ?_⟩
    · simp [List.getElem?_modify, hc]
    · intro q hq
      exact List.getElem?_modify_ne _ _ (Ne.symm hq)
    · simp

theorem HashObject.iteration_guard_witness :
    iteratingHash.put stringKeys "b" "2" =
        (iteratingHash, .error (.raised .ConcurrentModification)) ∧
      iteratingHash.remove stringKeys "a" =
        (iteratingHash, .error (.raised .ConcurrentModification)) ∧
      (iteratingHash.put stringKeys "a" "3").2 = .ok () := by
  have hb := HashObject.iteration_guard stringKeys iteratingHash "b" "2" rfl
  have ha := HashObject.iteration_guard stringKeys iteratingHash "a" "3" rfl
  exact ⟨hb.1 (by decide), ha.2.1, (ha.2.2 0 (by decide)).1⟩

/-! ## Construction -/

/-- C6: a hash made by `create()` or `create(klass)` has `default_value()`
equal to nil, no default procedure, `size() == 0`, `is_iterating() == false`
and identity comparison off. -/
theorem HashObject.create_defaults (nil : V) (klass hashClass : Nat) :
    ((HashObject.create_klass nil klass).default_value = nil ∧
      (HashObject.create_klass nil klass).m_default_proc = none ∧
      (HashObject.create_klass nil klass).size = 0 ∧
      (HashObject.create_klass nil klass).is_iterating = false ∧
      (HashObject.create_klass nil klass).m_is_comparing_by_identity = false) ∧
    ((HashObject.create nil hashClass).default_value = nil ∧
      (HashObject.create nil hashClass).m_default_proc = none ∧
      (HashObject.create nil hashClass).size = 0 ∧
      (HashObject.create nil hashClass).is_iterating = false ∧
      (HashObject.create nil hashClass).m_is_comparing_by_identity = false) :=
  ⟨⟨rfl, rfl, rfl, rfl, rfl⟩, ⟨rfl, rfl, rfl, rfl, rfl⟩⟩

/-! ## Tagged values -/

/-- C7: an immediate-integer value with payload `n` answers `is_integer()`
with true, `is_float()` with false and `to_nat_int_t()` with `n`, and gives the
same three answers once `hydrate()` has turned it into a reference to a heap
integer holding `n`. -/
theorem ValuePtr.hydrate_preserves_answers (v : ValuePtr) (heap : Heap) (n : Int)
    (htype : v.m_type = .Integer) (hn : v.m_integer = n) :
    (v.is_integer heap = .ok true ∧ v.is_float heap = .ok false ∧
      v.to_nat_int_t heap = .ok n) ∧
    ((v.hydrate heap).1.m_type = .Pointer ∧
      (v.hydrate heap).1.deref (v.hydrate heap).2 = .ok (IntegerValue n) ∧
      (v.hydrate heap).1.is_integer (v.hydrate heap).2 = .ok true ∧
      (v.hydrate heap).1.is_float (v.hydrate heap).2 = .ok false ∧
      (v.hydrate heap).1.to_nat_int_t (v.hydrate heap).2 = .ok n) := by
  subst hn
  refine ⟨⟨?_, ?_, ?_⟩, ?_⟩
  · simp [ValuePtr.is_integer, htype]
  · simp [ValuePtr.is_float, htype]
  · simp [ValuePtr.to_nat_int_t, htype]
  · have hd : (v.hydrate heap).1.deref (v.hydrate heap).2 = .ok (IntegerValue v.m_integer) := by
      cases hg : heap.m_gc_enabled <;>
        simp [ValuePtr.hydrate, htype, ValuePtr.deref, ValuePtr.value, Heap.alloc,
          Heap.gc_disable, Heap.gc_enable, Heap.gc_enabled, hg]
    have ht : (v.hydrate heap).1.m_type = .Pointer := by
      simp [ValuePtr.hydrate, htype]
    refine ⟨ht, hd, ?_, ?_, ?_⟩
    · simp [ValuePtr.is_integer, ht, hd, IntegerValue, Value.is_integer]
    · simp [ValuePtr.is_float, ht, hd, IntegerValue, Value.is_float]
    · simp [ValuePtr.to_nat_int_t, ht, hd, IntegerValue, Value.is_integer, Value.as_integer,
        Value.to_nat_int_t]

theorem ValuePtr.hydrate_preserves_answers_witness :
    (({ m_type := .Integer, m_integer := 42 } : ValuePtr).hydrate sampleHeap).1.to_nat_int_t
      (({ m_type := .Integer, m_integer := 42 } : ValuePtr).hydrate sampleHeap).2 = .ok 42 :=
  (ValuePtr.hydrate_preserves_answers { m_type := .Integer, m_integer := 42 } sampleHeap 42
    rfl rfl).2.2.2.2.2

/-- C8: `hydrate()` is a one-way, idempotent transition.  On an
immediate-integer value it leaves the value with type `Pointer`, designating a
newly allocated heap integer of the same payload; on a value that already has
type `Pointer`, in particular on the result of a first `hydrate()`, it changes
neither the value nor the heap. -/
theorem ValuePtr.hydrate_idempotent (v : ValuePtr) (heap : Heap) :
    (v.m_type = .Integer →
      (v.hydrate heap).1.m_type = .Pointer ∧
      (v.hydrate heap).1.m_value = some heap.objects.length ∧
      (v.hydrate heap).2.objects = heap.objects ++ [IntegerValue v.m_integer] ∧
      (v.hydrate heap).1.deref (v.hydrate heap).2 = .ok (IntegerValue v.m_integer)) ∧
    (v.m_type = .Pointer → v.hydrate heap = (v, heap)) ∧
    (v.hydrate heap).1.hydrate (v.hydrate heap).2 = v.hydrate heap := by
  refine ⟨?_, ?_, ?_⟩
  · intro htype
    cases hg : heap.m_gc_enabled <;>
      simp [ValuePtr.hydrate, htype, ValuePtr.deref, ValuePtr.value, Heap.alloc,
        Heap.gc_disable, Heap.gc_enable, Heap.gc_enabled, hg]
  · intro htype
    simp [ValuePtr.hydrate, htype]
  · cases htype : v.m_type <;> simp [ValuePtr.hydrate, htype]

theorem ValuePtr.hydrate_idempotent_witness :
    (({ m_type := .Integer, m_integer := 7 } : ValuePtr).hydrate sampleHeap).1.m_value = some 3 ∧
      ({ m_type := .Pointer, m_value := some 1 } : ValuePtr).hydrate sampleHeap =
        ({ m_type := .Pointer, m_value := some 1 }, sampleHeap) :=
  ⟨((ValuePtr.hydrate_idempotent { m_type := .Integer, m_integer := 7 } sampleHeap).1 rfl).2.1,
    (ValuePtr.hydrate_idempotent { m_type := .Pointer, m_value := some 1 } sampleHeap).2.1 rfl⟩

/-- What `try_convert_to_int_or_raise` does on a value whose `is_integer()` is
false, by the methods its heap object responds to. -/
theorem ValuePtr.try_convert_of_not_integer {R : Type} (d : Dispatch R) (v : ValuePtr)
    (heap : Heap) (hint : v.is_integer heap = .ok false) :
    ∃ o, v.deref heap = .ok o ∧
      v.try_convert_to_int_or_raise d heap =
        if d.respond_to o "to_i" then .dispatched (d._send o "to_i" [] none)
        else if d.respond_to o "to_int" then .dispatched (d._send o "to_int" [] none)
        else .raised ⟨"TypeError",
          "no implicit conversion of " ++ o.klass.class_name_or_blank ++ " into Integer"⟩ := by
  have htype : v.m_type ≠ .Integer := by
    intro h
    simp [ValuePtr.is_integer, h] at hint
  cases hd : v.deref heap with
  | error f => simp [ValuePtr.is_integer, htype, hd] at hint
  | ok o =>
    refine ⟨o, rfl, ?_⟩
    simp only [ValuePtr.try_convert_to_int_or_raise, hint, hd, ValuePtr.send, htype, false_and,
      if_false]

/-- C9: `try_convert_to_int_or_raise` raises exactly when the value is not an
integer and its object responds to neither `to_i` nor `to_int`, and what it
raises is the `TypeError` with the message
"no implicit conversion of <class name of the value> into Integer". -/
theorem ValuePtr.try_convert_raises_iff {R : Type} (d : Dispatch R) (v : ValuePtr)
    (heap : Heap) :
    ((∃ e, v.try_convert_to_int_or_raise d heap = .raised e) ↔
      (v.is_integer heap = .ok false ∧
        ∃ o, v.deref heap = .ok o ∧ d.respond_to o "to_i" = false ∧
          d.respond_to o "to_int" = false)) ∧
    (∀ e, v.try_convert_to_int_or_raise d heap = .raised e →
      ∃ o, v.deref heap = .ok o ∧
        e = ⟨"TypeError",
          "no implicit conversion of " ++ o.klass.class_name_or_blank ++ " into Integer"⟩) := by
  have key : ∀ e, v.try_convert_to_int_or_raise d heap = .raised e →
      v.is_integer heap = .ok false ∧
        ∃ o, v.deref heap = .ok o ∧ d.respond_to o "to_i" = false ∧
          d.respond_to o "to_int" = false ∧
          e = ⟨"TypeError",
            "no implicit conversion of " ++ o.klass.class_name_or_blank ++ " into Integer"⟩ := by
    intro e he
    cases hint : v.is_integer heap with
    | error f => simp [ValuePtr.try_convert_to_int_or_raise, hint] at he
    | ok b =>
      cases b with
      | true => simp [ValuePtr.try_convert_to_int_or_raise, hint] at he
      | false =>
        obtain ⟨o, ho, hres⟩ := ValuePtr.try_convert_of_not_integer d v heap hint
        refine ⟨rfl, o, ho, ?_⟩
        rw [hres] at he
        cases h1 : d.respond_to o "to_i" with
        | true => simp [h1] at he
        | false =>
          cases h2 : d.respond_to o "to_int" with
          | true => simp [h1, h2] at he
          | false =>
            simp only [h1, h2, Bool.false_eq_true, if_false, Outcome.raised.injEq] at he
            exact ⟨rfl, rfl, he.symm⟩
  refine ⟨⟨?_, ?_⟩, ?_⟩
  · rintro ⟨e, he⟩
    obtain ⟨h1, o, h2, h3, h4, _⟩ := key e he
    exact ⟨h1, o, h2, h3, h4⟩
  · rintro ⟨hint, o, ho, h1, h2⟩
    obtain ⟨o2, ho2, hres⟩ := ValuePtr.try_convert_of_not_integer d v heap hint
    rw [ho] at ho2
    cases ho2
    refine ⟨⟨"TypeError",
      "no implicit conversion of " ++ o.klass.class_name_or_blank ++ " into Integer"⟩, ?_⟩
    rw [hres]
    simp [h1, h2]
  · intro e he
    obtain ⟨_, o, h2, _, _, h5⟩ := key e he
    exact ⟨o, h2, h5⟩

/-- C10: on a value for which `is_integer()` holds, `try_convert_to_int_or_raise`
returns that value unchanged whatever the dispatch layer is, so without any
method dispatch; on a non-integer value it hands back the result of dispatching
`to_i` when the object responds to `to_i`, and otherwise the result of
dispatching `to_int` when the object responds to `to_int`. -/
theorem ValuePtr.try_convert_returns {R : Type} (d : Dispatch R) (v : ValuePtr) (heap : Heap) :
    (v.is_integer heap = .ok true →
      ∀ d2 : Dispatch R, v.try_convert_to_int_or_raise d2 heap = .returned v) ∧
    (∀ o, v.is_integer heap = .ok false → v.deref heap = .ok o →
      d.respond_to o "to_i" = true →
      v.try_convert_to_int_or_raise d heap = .dispatched (d._send o "to_i" [] none)) ∧
    (∀ o, v.is_integer heap = .ok false → v.deref heap = .ok o →
      d.respond_to o "to_i" = false → d.respond_to o "to_int" = true →
      v.try_convert_to_int_or_raise d heap = .dispatched (d._send o "to_int" [] none)) := by
  refine ⟨?_, ?_, ?_⟩
  · intro hint d2
    simp [ValuePtr.try_convert_to_int_or_raise, hint]
  · intro o hint ho h1
    obtain ⟨o2, ho2, hres⟩ := ValuePtr.try_convert_of_not_integer d v heap hint
    rw [ho] at ho2
    cases ho2
    rw [hres]
    simp [h1]
  · intro o hint ho h1 h2
    obtain ⟨o2, ho2, hres⟩ := ValuePtr.try_convert_of_not_integer d v heap hint
    rw [ho] at ho2
    cases ho2
    rw [hres]
    simp [h1, h2]

theorem ValuePtr.try_convert_returns_witness :
    (({ m_type := .Integer, m_integer := 5 } : ValuePtr).try_convert_to_int_or_raise
        sampleDispatch sampleHeap = .returned { m_type := .Integer, m_integer := 5 }) ∧
      (({ m_type := .Pointer, m_value := some 0 } : ValuePtr).try_convert_to_int_or_raise
        sampleDispatch sampleHeap = .dispatched ("Str", "to_i")) ∧
      (({ m_type := .Pointer, m_value := some 1 } : ValuePtr).try_convert_to_int_or_raise
        sampleDispatch sampleHeap = .dispatched ("Num", "to_int")) :=
  ⟨(ValuePtr.try_convert_returns sampleDispatch { m_type := .Integer, m_integer := 5 }
      sampleHeap).1 rfl sampleDispatch,
    (ValuePtr.try_convert_returns sampleDispatch { m_type := .Pointer, m_value := some 0 }
      sampleHeap).2.1 _ rfl rfl (by decide),
    (ValuePtr.try_convert_returns sampleDispatch { m_type := .Pointer, m_value := some 1 }
      sampleHeap).2.2 _ rfl rfl (by decide) (by decide)⟩

theorem ValuePtr.try_convert_raises_iff_witness :
    ∃ e, ({ m_type := .Pointer, m_value := some 2 } : ValuePtr).try_convert_to_int_or_raise
      sampleDispatch sampleHeap = .raised e ∧
      e = ⟨"TypeError", "no implicit conversion of Object into Integer"⟩ := by
  obtain ⟨e, he⟩ := (ValuePtr.try_convert_raises_iff sampleDispatch
    { m_type := .Pointer, m_value := some 2 } sampleHeap).1.2
    ⟨rfl, _, rfl, by decide, by decide⟩
  refine ⟨e, he, ?_⟩
  obtain ⟨o, ho, h2⟩ := (ValuePtr.try_convert_raises_iff sampleDispatch
    { m_type := .Pointer, m_value := some 2 } sampleHeap).2 e he
  cases ho
  rw [h2]
  decide

/-! ## The ring built by insertions -/

/-- Rewriting one cell by a function that keeps a field keeps that field of
every cell. -/
theorem getElem?_modify_bind {α β : Type} (f : α → α) (g : α → Option β)
    (hfg : ∀ c, g (f c) = g c) (p i : Nat) (l : List α) :
    ((List.modify f p l)[i]?).bind g = (l[i]?).bind g := by
  rw [List.getElem?_modify]
  cases l[i]? with
  | none => rfl
  | some c =>
    by_cases hpi : p = i
    · simp [hpi, hfg]
    · simp [hpi]

theorem HashObject.isLive_eq (h : HashObject V) (a : Nat) :
    h.isLive a = ((h.cells[a]?).map (fun c => !c.removed)).getD false := by
  unfold HashObject.isLive
  cases h.cells[a]? <;> rfl

theorem HashObject.RingInv_create (nil : V) (klass : Nat) :
    (HashObject.create_klass nil klass).RingInv := by
  refine ⟨rfl, ?_, rfl⟩
  intro i hi
  simp [HashObject.create_klass] at hi

/-- Rewriting one cell by a function that keeps `next` keeps every `next`. -/
theorem HashObject.nextOf_modify (h h2 : HashObject V) (f : HashKey V → HashKey V)
    (hf : ∀ c, (f c).next = c.next) (p : Nat) (hc : h2.cells = List.modify f p h.cells)
    (i : Nat) : h2.nextOf i = h.nextOf i := by
  unfold HashObject.nextOf
  rw [hc]
  exact getElem?_modify_bind f (fun c => c.next) hf p i h.cells

/-- Rewriting one cell by a function that keeps `prev` keeps every `prev`. -/
theorem HashObject.prevOf_modify (h h2 : HashObject V) (f : HashKey V → HashKey V)
    (hf : ∀ c, (f c).prev = c.prev) (p : Nat) (hc : h2.cells = List.modify f p h.cells)
    (i : Nat) : h2.prevOf i = h.prevOf i := by
  unfold HashObject.prevOf
  rw [hc]
  exact getElem?_modify_bind f (fun c => c.prev) hf p i h.cells

/-- Rewriting one cell by a function that keeps `removed` keeps liveness. -/
theorem HashObject.isLive_modify (h h2 : HashObject V) (f : HashKey V → HashKey V)
    (hf : ∀ c, (f c).removed = c.removed) (p : Nat) (hc : h2.cells = List.modify f p h.cells)
    (i : Nat) : h2.isLive i = h.isLive i := by
  simp only [HashObject.isLive_eq, hc, List.getElem?_modify]
  cases h.cells[i]? with
  | none => rfl
  | some c => by_cases hpi : p = i <;> simp [hpi, hf]

/-- The ring invariant only reads the links, the liveness, the head and the
index. -/
theorem HashObject.RingInv_congr (h h2 : HashObject V) (hlen : h2.cells.length = h.cells.length)
    (hn : ∀ i, h2.nextOf i = h.nextOf i) (hp : ∀ i, h2.prevOf i = h.prevOf i)
    (hl : ∀ i, h2.isLive i = h.isLive i) (hk : h2.m_key_list = h.m_key_list)
    (hm : h2.m_hashmap = h.m_hashmap) (hinv : h.RingInv) : h2.RingInv := by
  obtain ⟨h1, h2', h3⟩ := hinv
  have hl2 : h2.isLive = h.isLive := funext hl
  refine ⟨?_, ?_, ?_⟩
  · rw [hk, hlen]; exact h1
  · intro i hi
    rw [hn, hp, hlen]
    exact h2' i (hlen ▸ hi)
  · rw [hm, hlen, hl2]; exact h3

/-- Overwriting the value of a cell keeps the ring. -/
theorem HashObject.RingInv_set_val (h : HashObject V) (p : Nat) (val : V) (hinv : h.RingInv) :
    ({ h with cells := List.modify (fun c => { c with val := val }) p h.cells } :
      HashObject V).RingInv :=
  HashObject.RingInv_congr h _ (by simp)
    (HashObject.nextOf_modify h _ (fun c => { c with val := val }) (fun _ => rfl) p rfl)
    (HashObject.prevOf_modify h _ (fun c => { c with val := val }) (fun _ => rfl) p rfl)
    (HashObject.isLive_modify h _ (fun c => { c with val := val }) (fun _ => rfl) p rfl)
    rfl rfl hinv

/-- What `key_list_append` does to a ring: every old cell keeps its place and
its contents, the last one is linked forward to the new cell, the head is
linked back to it, and the new cell closes the ring. -/
theorem HashObject.key_list_append_ring (h : HashObject V) (key : V) (hash : Nat) (val : V)
    (hinv : h.RingInv) :
    ∃ cells2 : List (HashKey V),
      h.key_list_append key hash val =
        .ok (h.cells.length, { h with
          cells := cells2 ++ [{ prev := some (h.cells.length - 1), next := some 0, key := key,
                                val := val, hash := hash }],
          m_key_list := some 0 }) ∧
      cells2.length = h.cells.length ∧
      ∀ (i : Nat) (c : HashKey V), h.cells[i]? = some c →
        cells2[i]? = some { c with
          next := if i + 1 = h.cells.length then some h.cells.length else c.next,
          prev := if i = 0 then some h.cells.length else c.prev } := by
  obtain ⟨h1, h2, _⟩ := hinv
  by_cases hn : h.cells.length = 0
  · have hnil : h.cells = [] := List.length_eq_zero.1 hn
    rw [if_pos hn] at h1
    refine ⟨[], ?_, by simp [hn], ?_⟩
    · simp [HashObject.key_list_append, h1, hnil]
    · intro i c hc
      simp [hnil] at hc
  · rw [if_neg hn] at h1
    have hpos : 0 < h.cells.length := Nat.pos_of_ne_zero hn
    have hprev : h.prevOf 0 = some (h.cells.length - 1) := by
      simpa using (h2 0 hpos).2
    refine ⟨List.modify (fun c => { c with prev := some h.cells.length }) 0
      (List.modify (fun c => { c with next := some h.cells.length }) (h.cells.length - 1)
        h.cells), ?_, by simp, ?_⟩
    · simp only [HashObject.key_list_append, h1, hprev]
    · intro i c hc
      have hi : i < h.cells.length := by
        rcases List.getElem?_eq_some.1 hc with ⟨hlt, _⟩
        exact hlt
      have e1 : (h.cells.length - 1 = i) ↔ (i + 1 = h.cells.length) := by omega
      have e2 : (0 = i) ↔ (i = 0) := by omega
      simp only [List.getElem?_modify, hc, Option.map_eq_map, Option.map_some', e1, e2]
      split_ifs <;> rfl

/-- The ring with one more cell appended and registered is a ring again. -/
theorem HashObject.RingInv_append (h : HashObject V) (cells2 : List (HashKey V))
    (new : HashKey V) (hinv : h.RingInv) (hlen : cells2.length = h.cells.length)
    (hcells : ∀ (i : Nat) (c : HashKey V), h.cells[i]? = some c →
      cells2[i]? = some { c with
        next := if i + 1 = h.cells.length then some h.cells.length else c.next,
        prev := if i = 0 then some h.cells.length else c.prev })
    (hnext : new.next = some 0) (hprev : new.prev = some (h.cells.length - 1))
    (hrem : new.removed = false) :
    ({ h with
        cells := cells2 ++ [new],
        m_key_list := some 0,
        m_hashmap := h.m_hashmap ++ [h.cells.length] } : HashObject V).RingInv := by
  obtain ⟨_, h2, h3⟩ := hinv
  have hold : ∀ i, i < h.cells.length → ∃ c, h.cells[i]? = some c ∧
      (cells2 ++ [new])[i]? =
        some { c with
          next := if i + 1 = h.cells.length then some h.cells.length else c.next,
          prev := if i = 0 then some h.cells.length else c.prev } := by
    intro i hi
    obtain ⟨c, hc⟩ : ∃ c, h.cells[i]? = some c := ⟨h.cells[i], List.getElem?_eq_getElem hi⟩
    refine ⟨c, hc, ?_⟩
    rw [List.getElem?_append_left (by omega)]
    exact hcells i c hc
  have hnew : (cells2 ++ [new])[h.cells.length]? = some new := by
    rw [List.getElem?_append_right (by omega)]
    simp [hlen]
  refine ⟨?_, ?_, ?_⟩
  · simp
  · intro i hi
    simp only [List.length_append, List.length_singleton, hlen] at hi
    simp only [HashObject.nextOf, HashObject.prevOf, List.length_append, List.length_singleton,
      hlen]
    by_cases hin : i < h.cells.length
    · obtain ⟨c, hc, hc2⟩ := hold i hin
      obtain ⟨hn, hp⟩ := h2 i hin
      simp only [HashObject.nextOf, HashObject.prevOf, hc, Option.some_bind] at hn hp
      rw [hc2]
      simp only [Option.some_bind, hn, hp]
      constructor
      · split_ifs <;> simp_all
      · split_ifs <;> simp_all
    · have : i = h.cells.length := by omega
      subst this
      rw [hnew]
      simp only [Option.some_bind, hnext, hprev]
      constructor
      · simp
      · split_ifs <;> simp_all
  · simp only [List.length_append, List.length_singleton, hlen, List.range_succ,
      List.filter_append]
    have hlast : ({ h with
        cells := cells2 ++ [new],
        m_key_list := some 0,
        m_hashmap := h.m_hashmap ++ [h.cells.length] } : HashObject V).isLive h.cells.length
          = true := by
      simp only [HashObject.isLive, hnew, hrem]
      rfl
    rw [List.filter_cons_of_pos hlast, List.filter_nil, h3]
    congr 1
    apply List.filter_congr
    intro i hi
    have hin : i < h.cells.length := List.mem_range.1 hi
    obtain ⟨c, hc, hc2⟩ := hold i hin
    simp only [HashObject.isLive, hc, hc2]

/-- What `put` does for a key that is not found while the hash is not
iterating: the new cell is appended and registered. -/
theorem HashObject.put_new (svc : KeyService V) (h : HashObject V) (key val : V)
    (hinv : h.RingInv) (hnf : h.find_item svc (h.generate_key_hash svc key) key = none)
    (hit : h.m_is_iterating = false) :
    ∃ cells2 : List (HashKey V),
      h.put svc key val =
        ({ h with
            cells := cells2 ++ [{ prev := some (h.cells.length - 1), next := some 0, key := key,
                                  val := val, hash := h.generate_key_hash svc key }],
            m_key_list := some 0,
            m_hashmap := h.m_hashmap ++ [h.cells.length] }, .ok ()) ∧
      cells2.length = h.cells.length ∧
      ∀ (i : Nat) (c : HashKey V), h.cells[i]? = some c →
        cells2[i]? = some { c with
          next := if i + 1 = h.cells.length then some h.cells.length else c.next,
          prev := if i = 0 then some h.cells.length else c.prev } := by
  obtain ⟨cells2, happ, hlen, hcells⟩ :=
    h.key_list_append_ring key (h.generate_key_hash svc key) val hinv
  refine ⟨cells2, ?_, hlen, hcells⟩
  simp only [HashObject.put, hnf, hit, happ]
  rfl

/-- Any `put` keeps the ring. -/
theorem HashObject.RingInv_put (svc : KeyService V) (h : HashObject V) (key val : V)
    (hinv : h.RingInv) : (h.put svc key val).1.RingInv := by
  cases hf : h.find_item svc (h.generate_key_hash svc key) key with
  | some p =>
    have : h.put svc key val =
        ({ h with cells := List.modify (fun c => { c with val := val }) p h.cells }, .ok ()) := by
      simp [HashObject.put, hf]
    rw [this]
    exact h.RingInv_set_val p val hinv
  | none =>
    cases hit : h.m_is_iterating with
    | true =>
      have : h.put svc key val = (h, .error (.raised .ConcurrentModification)) := by
        simp [HashObject.put, hf, hit]
      rw [this]
      exact hinv
    | false =>
      obtain ⟨cells2, hput, hlen, hcells⟩ := h.put_new svc key val hinv hf hit
      rw [hput]
      exact h.RingInv_append cells2 _ hinv hlen hcells rfl rfl rfl

theorem lastOf_range' (k i : Nat) : lastOf i (List.range' (i + 1) k) = i + k := by
  induction k generalizing i with
  | zero => rfl
  | succ k ih =>
    rw [List.range'_succ]
    simp only [lastOf]
    rw [ih (i + 1)]
    omega

/-- In a ring the cells from `i` on are chained in allocation order back to
the head. -/
theorem HashObject.RingInv.chain {h : HashObject V} (hinv : h.RingInv) :
    ∀ (k i : Nat), i + k + 1 = h.cells.length → h.Chain i (List.range' (i + 1) k) 0 := by
  obtain ⟨_, h2, _⟩ := hinv
  intro k
  induction k with
  | zero =>
    intro i hi
    obtain ⟨hn, _⟩ := h2 i (by omega)
    obtain ⟨_, hp⟩ := h2 0 (by omega)
    refine ⟨?_, ?_⟩
    · simpa [show i + 1 = h.cells.length by omega] using hn
    · rw [hp]
      simp
      omega
  | succ k ih =>
    intro i hi
    obtain ⟨hn, _⟩ := h2 i (by omega)
    obtain ⟨_, hp⟩ := h2 (i + 1) (by omega)
    rw [List.range'_succ]
    refine ⟨?_, ?_, ih (i + 1) (by omega)⟩
    · simpa [show i + 1 ≠ h.cells.length by omega] using hn
    · simpa using hp

theorem cons_range'_one (n : Nat) (hpos : 0 < n) :
    0 :: List.range' 1 (n - 1) = List.range n := by
  obtain ⟨m, rfl⟩ : ∃ m, n = m + 1 := ⟨n - 1, by omega⟩
  rw [List.range_eq_range', List.range'_succ]
  rfl

/-- A nonempty ring is a well-formed key list whose cells are, from the head
on, the cells in allocation order. -/
theorem HashObject.RingInv.wellFormed {h : HashObject V} (hinv : h.RingInv)
    (hpos : 0 < h.cells.length) :
    h.WellFormed (0 :: List.range' 1 (h.cells.length - 1)) := by
  refine ⟨?_, ?_, ?_⟩
  · rw [hinv.1, if_neg (by omega)]
  · rw [cons_range'_one _ hpos]
    exact List.nodup_range _
  · exact hinv.chain (h.cells.length - 1) 0 (by omega)

/-! ## The key list under insertion and removal -/

/-- A chain only reads the links of its cells. -/
theorem HashObject.Chain.congr {h h2 : HashObject V} {t : Nat} :
    ∀ (rest : List Nat) (a : Nat), h.Chain a rest t →
      (∀ x ∈ a :: rest, h2.nextOf x = h.nextOf x) →
      (∀ x ∈ rest, h2.prevOf x = h.prevOf x) → h2.prevOf t = h.prevOf t →
      h2.Chain a rest t := by
  intro rest
  induction rest with
  | nil =>
    intro a hc hn _ hpt
    exact ⟨(hn a (by simp)).trans hc.1, hpt.trans hc.2⟩
  | cons b r ih =>
    intro a hc hn hp hpt
    exact ⟨(hn a (by simp)).trans hc.1, (hp b (by simp)).trans hc.2.1,
      ih b hc.2.2 (fun x hx => hn x (List.mem_cons_of_mem _ hx))
        (fun x hx => hp x (List.mem_cons_of_mem _ hx)) hpt⟩

/-- The last cell of a list is one of its cells. -/
theorem lastOf_mem : ∀ (rest : List Nat) (a : Nat), lastOf a rest ∈ a :: rest := by
  intro rest
  induction rest with
  | nil => intro a; simp [lastOf]
  | cons b r ih => intro a; simp only [lastOf]; exact List.mem_cons_of_mem _ (ih b)

/-- The cell before a cell of a chain is a cell of the chain. -/
theorem HashObject.Chain.prev_mem {h : HashObject V} {t : Nat} :
    ∀ (rest : List Nat) (a p : Nat), h.Chain a rest t → p ∈ rest →
      ∃ x, x ∈ a :: rest ∧ h.prevOf p = some x := by
  intro rest
  induction rest with
  | nil => intro a p _ hp; simp at hp
  | cons b r ih =>
    intro a p hc hp
    rcases List.mem_cons.1 hp with e | e
    · subst e
      exact ⟨a, by simp, hc.2.1⟩
    · obtain ⟨x, hx, hpx⟩ := ih b p hc.2.2 e
      exact ⟨x, List.mem_cons_of_mem _ hx, hpx⟩

/-- The cell after a cell of a chain is a later cell of the chain or its
target. -/
theorem HashObject.Chain.next_mem {h : HashObject V} {t : Nat} :
    ∀ (rest : List Nat) (a p : Nat), h.Chain a rest t → p ∈ a :: rest →
      ∃ y, h.nextOf p = some y ∧ (y ∈ rest ∨ y = t) := by
  intro rest
  induction rest with
  | nil =>
    intro a p hc hp
    simp only [List.mem_singleton] at hp
    subst hp
    exact ⟨t, hc.1, Or.inr rfl⟩
  | cons b r ih =>
    intro a p hc hp
    rcases List.mem_cons.1 hp with e | e
    · subst e
      exact ⟨b, hc.1, Or.inl (by simp)⟩
    · obtain ⟨y, hy, hmem⟩ := ih b p hc.2.2 e
      exact ⟨y, hy, hmem.imp (List.mem_cons_of_mem _) id⟩

/-- A chain from which a cell `p` is taken out: its predecessor `q` and its
successor `s` are linked to each other, the other links are kept. -/
theorem HashObject.Chain.erase {h h2 : HashObject V} {t p q s : Nat}
    (hq : h.prevOf p = some q) (hs : h.nextOf p = some s)
    (hn : ∀ x, x ≠ q → h2.nextOf x = h.nextOf x) (hnq : h2.nextOf q = some s)
    (hp : ∀ x, x ≠ s → h2.prevOf x = h.prevOf x) (hps : h2.prevOf s = some q) :
    ∀ (rest : List Nat) (a : Nat), h.Chain a rest t → (a :: rest).Nodup → t ∉ rest →
      p ∈ rest → h2.Chain a (rest.erase p) t := by
  intro rest
  induction rest with
  | nil => intro a _ _ _ hmem; simp at hmem
  | cons b r ih =>
    intro a hc hnd ht hmem
    have hnd2 := (List.nodup_cons.1 hnd).2
    have ha : a ∉ b :: r := (List.nodup_cons.1 hnd).1
    have hb : b ∉ r := (List.nodup_cons.1 hnd2).1
    by_cases hbp : b = p
    · subst hbp
      rw [List.erase_cons_head]
      have hqa : q = a := by
        have := hc.2.1
        rw [hq] at this
        exact Option.some.inj this
      subst hqa
      cases r with
      | nil =>
        have hst : s = t := by
          have := hc.2.2.1
          rw [hs] at this
          exact Option.some.inj this
        subst hst
        exact ⟨hnq, hps⟩
      | cons c r2 =>
        have hsc : s = c := by
          have := hc.2.2.1
          rw [hs] at this
          exact Option.some.inj this
        subst hsc
        refine ⟨hnq, hps, ?_⟩
        apply HashObject.Chain.congr r2 s hc.2.2.2.2
        · intro x hx
          exact hn x (fun e => ha (e ▸ List.mem_cons_of_mem _ hx))
        · intro x hx
          exact hp x (fun e => (List.nodup_cons.1 (List.nodup_cons.1 hnd2).2).1 (e ▸ hx))
        · exact hp t (fun e => ht (by simp [e]))
    · have hpr : p ∈ r := by
        rcases List.mem_cons.1 hmem with e | e
        · exact absurd e.symm hbp
        · exact e
      rw [List.erase_cons_tail (by simpa using hbp)]
      obtain ⟨x, hx, hpx⟩ := HashObject.Chain.prev_mem r b p hc.2.2 hpr
      have hqx : q = x := by
        rw [hq] at hpx
        exact Option.some.inj hpx
      obtain ⟨y, hy, hymem⟩ := HashObject.Chain.next_mem r b p hc.2.2
        (List.mem_cons_of_mem _ hpr)
      have hsy : s = y := by
        rw [hs] at hy
        exact Option.some.inj hy
      have haq : a ≠ q := fun e => ha (by rw [e, hqx]; exact hx)
      have hbs : b ≠ s := by
        intro e
        rw [hsy] at e
        rcases hymem with hm | hm
        · exact hb (e ▸ hm)
        · exact ht (by rw [← hm, ← e]; simp)
      exact ⟨(hn a haq).trans hc.1, (hp b hbs).trans hc.2.1,
        ih b hc.2.2 hnd2 (fun hm => ht (List.mem_cons_of_mem _ hm)) hpr⟩

/-! ### The links after a cell was rewritten -/

/-- Rewriting the cell `p` keeps the `next` of every other cell. -/
theorem HashObject.nextOf_modify_ne (h h2 : HashObject V) (f : HashKey V → HashKey V)
    (p : Nat) (hc : h2.cells = List.modify f p h.cells) (x : Nat) (hx : x ≠ p) :
    h2.nextOf x = h.nextOf x := by
  unfold HashObject.nextOf
  rw [hc, List.getElem?_modify_ne _ _ (Ne.symm hx)]

/-- Rewriting the cell `p` keeps the `prev` of every other cell. -/
theorem HashObject.prevOf_modify_ne (h h2 : HashObject V) (f : HashKey V → HashKey V)
    (p : Nat) (hc : h2.cells = List.modify f p h.cells) (x : Nat) (hx : x ≠ p) :
    h2.prevOf x = h.prevOf x := by
  unfold HashObject.prevOf
  rw [hc, List.getElem?_modify_ne _ _ (Ne.symm hx)]

/-- Rewriting the cell `p` keeps the liveness of every other cell. -/
theorem HashObject.isLive_modify_ne (h h2 : HashObject V) (f : HashKey V → HashKey V)
    (p : Nat) (hc : h2.cells = List.modify f p h.cells) (x : Nat) (hx : x ≠ p) :
    h2.isLive x = h.isLive x := by
  unfold HashObject.isLive
  rw [hc, List.getElem?_modify_ne _ _ (Ne.symm hx)]

/-- Setting the `next` of an existing cell. -/
theorem HashObject.nextOf_set (h h2 : HashObject V) (f : HashKey V → HashKey V) (p s : Nat)
    (hf : ∀ c, (f c).next = some s) (hc : h2.cells = List.modify f p h.cells)
    (c : HashKey V) (hp : h.cells[p]? = some c) : h2.nextOf p = some s := by
  unfold HashObject.nextOf
  rw [hc, List.getElem?_modify_eq, hp]
  simp [hf]

/-- Setting the `prev` of an existing cell. -/
theorem HashObject.prevOf_set (h h2 : HashObject V) (f : HashKey V → HashKey V) (p s : Nat)
    (hf : ∀ c, (f c).prev = some s) (hc : h2.cells = List.modify f p h.cells)
    (c : HashKey V) (hp : h.cells[p]? = some c) : h2.prevOf p = some s := by
  unfold HashObject.prevOf
  rw [hc, List.getElem?_modify_eq, hp]
  simp [hf]

/-- A cell that has a `next` link exists. -/
theorem HashObject.cell_of_nextOf (h : HashObject V) (a b : Nat) (hn : h.nextOf a = some b) :
    ∃ c, h.cells[a]? = some c := by
  obtain ⟨c, hc, _⟩ := (h.nextOf_eq_some a b).1 hn
  exact ⟨c, hc⟩

/-- A cell that has a `prev` link exists. -/
theorem HashObject.cell_of_prevOf (h : HashObject V) (a b : Nat) (hn : h.prevOf a = some b) :
    ∃ c, h.cells[a]? = some c := by
  obtain ⟨c, hc, _⟩ := (h.prevOf_eq_some a b).1 hn
  exact ⟨c, hc⟩

/-! ### The invariant of the key list -/

/-- With only live cells the index holds every cell. -/
theorem HashObject.Rep.hashmap_eq {svc : KeyService V} {h : HashObject V} (hrep : h.Rep svc) :
    h.m_hashmap = List.range h.cells.length := by
  obtain ⟨⟨_, _, h3⟩, hall, _⟩ := hrep
  rw [h3]
  apply List.filter_eq_self.2
  intro i hi
  have hlt : i < h.cells.length := List.mem_range.1 hi
  have hc : h.cells[i]? = some h.cells[i] := List.getElem?_eq_getElem hlt
  simp [HashObject.isLive, hc, (hall _ (List.getElem_mem hlt)).1]

/-- A found key is the key of the cell found. -/
theorem HashObject.Rep.find_some {svc : KeyService V} {h : HashObject V} (hrep : h.Rep svc)
    (hsvc : ∀ a b, svc.equal false a b = true ↔ a = b) (key : V) (p : Nat)
    (hf : h.find_item svc (h.generate_key_hash svc key) key = some p) :
    ∃ c, h.cells[p]? = some c ∧ c.key = key := by
  obtain ⟨_, c, hc, _, heq⟩ := h.find_item_some svc _ key p hf
  rw [hrep.2.2.2.2] at heq
  exact ⟨c, hc, (hsvc _ _).1 heq⟩

/-- A key that is not found is the key of no cell. -/
theorem HashObject.Rep.find_none {svc : KeyService V} {h : HashObject V} (hrep : h.Rep svc)
    (hsvc : ∀ a b, svc.equal false a b = true ↔ a = b) (key : V)
    (hf : h.find_item svc (h.generate_key_hash svc key) key = none) :
    key ∉ h.cells.map (fun c => c.key) := by
  intro hmem
  obtain ⟨c, hc, hk⟩ := List.mem_map.1 hmem
  obtain ⟨i, hi, hci⟩ := List.getElem_of_mem hc
  have hget : h.cells[i]? = some c := by rw [List.getElem?_eq_getElem hi, hci]
  unfold HashObject.find_item at hf
  rw [List.find?_eq_none] at hf
  have := hf i (by rw [hrep.hashmap_eq]; exact List.mem_range.2 hi)
  apply this
  simp only [hget, Bool.and_eq_true, beq_iff_eq]
  refine ⟨?_, ?_⟩
  · rw [(hrep.2.1 c hc).2, hk, HashObject.generate_key_hash, hrep.2.2.2.2]
  · rw [hrep.2.2.2.2]
    exact (hsvc _ _).2 hk

theorem HashObject.Rep_create (svc : KeyService V) (nil : V) (klass : Nat) :
    (HashObject.create_klass nil klass).Rep svc := by
  refine ⟨HashObject.RingInv_create nil klass, ?_, ?_, rfl, rfl⟩
  · intro c hc
    simp [HashObject.create_klass] at hc
  · simp [HashObject.create_klass]

/-- Rewriting one cell by a function that `g` does not see through leaves the
`g` image of the cells as it was. -/
theorem map_modify_of_eq {α β : Type} (f : α → α) (g : α → β) (hfg : ∀ c, g (f c) = g c)
    (p : Nat) (l : List α) : (List.modify f p l).map g = l.map g := by
  apply List.ext_getElem?
  intro i
  simp only [List.getElem?_map, List.getElem?_modify]
  cases l[i]? with
  | none => rfl
  | some c => by_cases hpi : p = i <;> simp [hpi, hfg]

theorem HashObject.entries_keys (h : HashObject V) :
    h.entries.map Prod.fst = h.cells.map (fun c => c.key) := by
  simp [HashObject.entries, List.map_map, Function.comp_def]

/-- The `put` of a key that is found: the call succeeds, the shape is kept and
the entries change as `assocPut` says. -/
theorem HashObject.Rep.put_found [DecidableEq V] {svc : KeyService V} {h : HashObject V}
    (hrep : h.Rep svc) (hsvc : ∀ a b, svc.equal false a b = true ↔ a = b) (key val : V)
    (p : Nat) (hf : h.find_item svc (h.generate_key_hash svc key) key = some p) :
    (h.put svc key val).2 = .ok () ∧ (h.put svc key val).1.Rep svc ∧
      (h.put svc key val).1.entries = assocPut h.entries key val := by
  obtain ⟨c, hc, hk⟩ := hrep.find_some hsvc key p hf
  have hput : h.put svc key val =
      ({ h with cells := List.modify (fun c => { c with val := val }) p h.cells }, .ok ()) := by
    simp [HashObject.put, hf]
  rw [hput]
  have hp : p < h.cells.length := (List.getElem?_eq_some.1 hc).1
  have hkeys : (List.modify (fun c : HashKey V => { c with val := val }) p h.cells).map
      (fun c => c.key) = h.cells.map (fun c => c.key) :=
    map_modify_of_eq (fun c : HashKey V => { c with val := val }) (fun c => c.key)
      (fun _ => rfl) p h.cells
  refine ⟨rfl, ⟨h.RingInv_set_val p val hrep.1, ?_, ?_, hrep.2.2.2.1, hrep.2.2.2.2⟩, ?_⟩
  · intro c2 hc2
    obtain ⟨i, hi⟩ := List.mem_iff_getElem?.1 hc2
    simp only [List.getElem?_modify] at hi
    cases hci : h.cells[i]? with
    | none => simp [hci] at hi
    | some ci =>
      have hmem : ci ∈ h.cells := List.mem_iff_getElem?.2 ⟨i, hci⟩
      have := hrep.2.1 ci hmem
      simp only [hci, Option.map_eq_map, Option.map_some', Option.some.injEq] at hi
      subst hi
      split_ifs <;> exact this
  · show (List.map _ (List.modify _ p h.cells)).Nodup
    rw [hkeys]
    exact hrep.2.2.1
  · have hin : key ∈ h.entries.map Prod.fst := by
      rw [h.entries_keys]
      exact List.mem_map.2 ⟨c, List.mem_iff_getElem?.2 ⟨p, hc⟩, hk⟩
    rw [assocPut, if_pos hin]
    simp only [HashObject.entries, List.map_map]
    apply List.ext_getElem?
    intro i
    simp only [List.getElem?_map, List.getElem?_modify, Function.comp_def]
    cases hci : h.cells[i]? with
    | none => rfl
    | some ci =>
      simp only [Option.map_eq_map, Option.map_some', Option.some.injEq]
      by_cases hpi : p = i
      · subst hpi
        rw [hc] at hci
        cases hci
        simp [hk]
      · have hne : ci.key ≠ key := by
          intro hck
          apply hpi
          apply List.getElem?_inj (by simpa using hp) hrep.2.2.1
          simp [List.getElem?_map, hc, hci, hk, hck]
        simp [hpi, hne]

/-- The cells relinked by an append keep every field but `next` and `prev`. -/
theorem map_relinked {β : Type} (cells cells2 : List (HashKey V)) (n : Nat)
    (g : HashKey V → β) (hg : ∀ (c : HashKey V) (a b : Option Nat),
      g { c with next := a, prev := b } = g c)
    (hlen : cells2.length = cells.length)
    (hcells : ∀ (i : Nat) (c : HashKey V), cells[i]? = some c →
      cells2[i]? = some { c with
        next := if i + 1 = n then some n else c.next,
        prev := if i = 0 then some n else c.prev }) :
    cells2.map g = cells.map g := by
  apply List.ext_getElem?
  intro i
  simp only [List.getElem?_map]
  cases hci : cells[i]? with
  | some ci => rw [hcells i ci hci]; simp [hg]
  | none =>
    have : cells2[i]? = none := by
      rw [List.getElem?_eq_none_iff] at hci ⊢
      omega
    rw [this]

/-- The `put` of a key that is not found: the call succeeds, the shape is kept
and the entries change as `assocPut` says. -/
theorem HashObject.Rep.put_absent [DecidableEq V] {svc : KeyService V} {h : HashObject V}
    (hrep : h.Rep svc) (hsvc : ∀ a b, svc.equal false a b = true ↔ a = b) (key val : V)
    (hf : h.find_item svc (h.generate_key_hash svc key) key = none) :
    (h.put svc key val).2 = .ok () ∧ (h.put svc key val).1.Rep svc ∧
      (h.put svc key val).1.entries = assocPut h.entries key val := by
  have hnot := hrep.find_none hsvc key hf
  obtain ⟨cells2, hput, hlen, hcells⟩ := h.put_new svc key val hrep.1 hf hrep.2.2.2.1
  rw [hput]
  have hkeys : cells2.map (fun c => c.key) = h.cells.map (fun c => c.key) :=
    map_relinked h.cells cells2 h.cells.length _ (fun _ _ _ => rfl) hlen hcells
  have hkv : cells2.map (fun c => (c.key, c.val)) = h.cells.map (fun c => (c.key, c.val)) :=
    map_relinked h.cells cells2 h.cells.length _ (fun _ _ _ => rfl) hlen hcells
  have hprops : cells2.map (fun c => (c.removed, c.hash, c.key)) =
      h.cells.map (fun c => (c.removed, c.hash, c.key)) :=
    map_relinked h.cells cells2 h.cells.length _ (fun _ _ _ => rfl) hlen hcells
  refine ⟨rfl, ⟨h.RingInv_append cells2 _ hrep.1 hlen hcells rfl rfl rfl, ?_, ?_, hrep.2.2.2.1,
    hrep.2.2.2.2⟩, ?_⟩
  · intro c2 hc2
    rcases List.mem_append.1 hc2 with hin | hin
    · have h1 : (c2.removed, c2.hash, c2.key) ∈ cells2.map (fun c => (c.removed, c.hash, c.key)) :=
        List.mem_map.2 ⟨c2, hin, rfl⟩
      rw [hprops] at h1
      obtain ⟨c, hc, he⟩ := List.mem_map.1 h1
      simp only [Prod.mk.injEq] at he
      obtain ⟨e1, e2, e3⟩ := he
      rw [← e1, ← e2, ← e3]
      exact hrep.2.1 c hc
    · simp only [List.mem_singleton] at hin
      subst hin
      exact ⟨rfl, by simp [HashObject.generate_key_hash, hrep.2.2.2.2]⟩
  · show (List.map _ (cells2 ++ _)).Nodup
    rw [List.map_append, hkeys]
    simp only [List.map_cons, List.map_nil]
    rw [List.nodup_append]
    refine ⟨hrep.2.2.1, by simp, ?_⟩
    intro a ha hb
    simp only [List.mem_singleton] at hb
    subst hb
    exact hnot ha
  · have hnin : key ∉ h.entries.map Prod.fst := by
      rw [h.entries_keys]
      exact hnot
    rw [assocPut, if_neg hnin]
    simp only [HashObject.entries, List.map_append, hkv, List.map_cons, List.map_nil]

/-- Every `put` on a hash of that shape succeeds, keeps the shape and changes
the entries as `assocPut` says. -/
theorem HashObject.Rep.put [DecidableEq V] {svc : KeyService V} {h : HashObject V}
    (hrep : h.Rep svc) (hsvc : ∀ a b, svc.equal false a b = true ↔ a = b) (key val : V) :
    (h.put svc key val).2 = .ok () ∧ (h.put svc key val).1.Rep svc ∧
      (h.put svc key val).1.entries = assocPut h.entries key val := by
  cases hf : h.find_item svc (h.generate_key_hash svc key) key with
  | some p => exact hrep.put_found hsvc key val p hf
  | none => exact hrep.put_absent hsvc key val hf

/-- The loop of puts of the constructor succeeds, keeps the shape and folds
`assocPut` over the pairs. -/
theorem HashObject.Rep.put_items [DecidableEq V] {svc : KeyService V}
    (hsvc : ∀ a b, svc.equal false a b = true ↔ a = b) :
    ∀ (items : List V) (h : HashObject V), h.Rep svc →
      ∃ h2, HashObject.put_items svc h items = (h2, .ok ()) ∧ h2.Rep svc ∧
        h2.entries = (pairsOf items).foldl (fun al kv => assocPut al kv.1 kv.2) h.entries
  | [], h, hrep => ⟨h, rfl, hrep, rfl⟩
  | [_], h, hrep => ⟨h, rfl, hrep, rfl⟩
  | key :: value :: rest, h, hrep => by
    obtain ⟨h1, h2, h3⟩ := hrep.put hsvc key value
    obtain ⟨h4, h5, h6, h7⟩ := HashObject.Rep.put_items hsvc rest (h.put svc key value).1 h2
    refine ⟨h4, ?_, h6, ?_⟩
    · rw [HashObject.put_items]
      cases hp : h.put svc key value with
      | mk s r =>
        rw [hp] at h1 h5
        simp only at h1 h5
        subst h1
        exact h5
    · rw [h7, h3]
      rfl

/-! ### The association list of a sequence of insertions -/

theorem assocPut_keys [DecidableEq V] (al : List (V × V)) (k v : V) :
    (assocPut al k v).map Prod.fst =
      if k ∈ al.map Prod.fst then al.map Prod.fst else al.map Prod.fst ++ [k] := by
  unfold assocPut
  split_ifs with hk
  · rw [List.map_map]
    apply List.map_congr_left
    intro e _
    simp only [Function.comp_def]
    split_ifs <;> rfl
  · simp

theorem mem_assocPut [DecidableEq V] (al : List (V × V)) (k0 v0 k v : V)
    (hm : (k, v) ∈ assocPut al k0 v0) : (k = k0 ∧ v = v0) ∨ (k ≠ k0 ∧ (k, v) ∈ al) := by
  unfold assocPut at hm
  split_ifs at hm with hk
  · obtain ⟨e, he, heq⟩ := List.mem_map.1 hm
    split_ifs at heq with h1
    · simp only [Prod.mk.injEq] at heq
      exact Or.inl ⟨heq.1 ▸ h1, heq.2.symm⟩
    · subst heq
      exact Or.inr ⟨h1, he⟩
  · rcases List.mem_append.1 hm with h1 | h1
    · refine Or.inr ⟨?_, h1⟩
      intro e
      subst e
      exact hk (List.mem_map.2 ⟨(k, v), h1, rfl⟩)
    · simp only [List.mem_singleton, Prod.mk.injEq] at h1
      exact Or.inl h1

/-- The keys after a sequence of insertions: the keys there were, then the new
ones in the order of their first occurrence. -/
theorem foldl_assocPut_keys [DecidableEq V] (ps : List (V × V)) :
    ∀ acc : List (V × V),
      (ps.foldl (fun al kv => assocPut al kv.1 kv.2) acc).map Prod.fst =
        acc.map Prod.fst ++
          (firstOccurrences (ps.map Prod.fst)).filter (fun x => decide (x ∉ acc.map Prod.fst)) := by
  induction ps with
  | nil => intro acc; simp [firstOccurrences]
  | cons p ps ih =>
    intro acc
    rw [List.foldl_cons, ih, assocPut_keys]
    simp only [List.map_cons, firstOccurrences]
    by_cases hk : p.1 ∈ acc.map Prod.fst
    · rw [if_pos hk, List.filter_cons_of_neg (by simpa using hk), List.filter_filter]
      congr 1
      apply List.filter_congr
      intro x _
      by_cases hx : x ∈ acc.map Prod.fst
      · simp [hx]
      · have : x ≠ p.1 := fun e => hx (e ▸ hk)
        simp [hx, this]
    · rw [if_neg hk, List.filter_cons_of_pos (by simpa using hk), List.filter_filter,
        List.append_assoc]
      congr 1
      simp only [List.singleton_append]
      congr 1
      apply List.filter_congr
      intro x _
      by_cases hx : x = p.1
      · simp [hx]
      · simp [hx]

theorem lastValueOf_cons_of_some [DecidableEq V] (p : V × V) (ps : List (V × V)) (k v : V)
    (h : lastValueOf ps k = some v) : lastValueOf (p :: ps) k = some v := by
  unfold lastValueOf at h ⊢
  rw [List.reverse_cons, List.find?_append]
  cases hf : ps.reverse.find? (fun p => p.1 = k) with
  | none => simp [hf] at h
  | some e => simpa [hf] using h

theorem lastValueOf_cons_of_none [DecidableEq V] (p : V × V) (ps : List (V × V)) (k : V)
    (h : lastValueOf ps k = none) :
    lastValueOf (p :: ps) k = if p.1 = k then some p.2 else none := by
  unfold lastValueOf at h ⊢
  rw [List.reverse_cons, List.find?_append]
  cases hf : ps.reverse.find? (fun p => p.1 = k) with
  | some e => simp [hf] at h
  | none =>
    by_cases hk : p.1 = k
    · simp [hk]
    · simp [hk]

/-- The value an entry carries after a sequence of insertions: that of the
last insertion of its key, or its old one when the key was not inserted. -/
theorem foldl_assocPut_values [DecidableEq V] (ps : List (V × V)) :
    ∀ (acc : List (V × V)) (k v : V),
      (k, v) ∈ ps.foldl (fun al kv => assocPut al kv.1 kv.2) acc →
        lastValueOf ps k = some v ∨ (lastValueOf ps k = none ∧ (k, v) ∈ acc) := by
  induction ps with
  | nil =>
    intro acc k v hm
    exact Or.inr ⟨rfl, hm⟩
  | cons p ps ih =>
    intro acc k v hm
    rw [List.foldl_cons] at hm
    rcases ih _ k v hm with h1 | ⟨h1, h2⟩
    · exact Or.inl (lastValueOf_cons_of_some p ps k v h1)
    · rw [lastValueOf_cons_of_none p ps k h1]
      rcases mem_assocPut acc p.1 p.2 k v h2 with ⟨e1, e2⟩ | ⟨e1, e2⟩
      · exact Or.inl (by simp [e1, e2])
      · exact Or.inr ⟨by simp [Ne.symm e1], e2⟩

theorem mem_firstOccurrences [DecidableEq V] (l : List V) (x : V) :
    x ∈ firstOccurrences l ↔ x ∈ l := by
  induction l with
  | nil => simp [firstOccurrences]
  | cons k ks ih =>
    simp only [firstOccurrences, List.mem_cons, List.mem_filter, ih]
    by_cases hx : x = k
    · simp [hx]
    · simp [hx]

theorem nodup_firstOccurrences [DecidableEq V] (l : List V) : (firstOccurrences l).Nodup := by
  induction l with
  | nil => simp [firstOccurrences]
  | cons k ks ih =>
    simp only [firstOccurrences, List.nodup_cons]
    exact ⟨by simp [List.mem_filter], ih.filter _⟩

/-- There are as many first occurrences as distinct elements. -/
theorem length_firstOccurrences [DecidableEq V] (l : List V) :
    (firstOccurrences l).length = l.dedup.length := by
  rw [← List.card_toFinset, ← List.toFinset_card_of_nodup (nodup_firstOccurrences l)]
  congr 1
  ext x
  simp [mem_firstOccurrences]

theorem length_pairsOf_le : ∀ items : List V, (pairsOf items).length ≤ items.length
  | [] => by simp [pairsOf]
  | [_] => by simp [pairsOf]
  | _ :: _ :: rest => by
    have := length_pairsOf_le rest
    simp only [pairsOf, List.length_cons]
    omega

theorem filterMap_range_getElem? {α β : Type} (f : α → β) (l : List α) :
    (List.range l.length).filterMap (fun p => (l[p]?).map f) = l.map f := by
  induction l using List.reverseRecOn with
  | nil => rfl
  | append_singleton l a ih =>
    rw [List.length_append, List.length_singleton, List.range_succ, List.filterMap_append,
      List.map_append]
    congr 1
    · rw [← ih]
      apply List.filterMap_congr
      intro p hp
      rw [List.getElem?_append_left (List.mem_range.1 hp)]
    · simp

/-- Every cell of a hash of that shape is live. -/
theorem HashObject.Rep.isLive {svc : KeyService V} {h : HashObject V} (hrep : h.Rep svc)
    (i : Nat) (hi : i < h.cells.length) : h.isLive i = true := by
  have hc : h.cells[i]? = some h.cells[i] := List.getElem?_eq_getElem hi
  simp [HashObject.isLive, hc, (hrep.2.1 _ (List.getElem_mem hi)).1]

/-- The traversal of a hash of that shape ends and hands out the cells in
allocation order. -/
theorem HashObject.Rep.each_node {svc : KeyService V} {h : HashObject V} (hrep : h.Rep svc)
    (fuel : Nat) (hf : h.cells.length ≤ fuel) :
    h.each_node fuel = .ok (List.range h.cells.length) := by
  by_cases hpos : 0 < h.cells.length
  · have hl : h.isLive (lastOf 0 (List.range' 1 (h.cells.length - 1))) = true := by
      rw [lastOf_range']
      exact hrep.isLive _ (by omega)
    rw [h.each_node_of_last_live 0 _ (hrep.1.wellFormed hpos) hl fuel
      (by simp only [List.length_range']; omega)]
    have : (List.range' 1 (h.cells.length - 1)).filter h.isLive =
        List.range' 1 (h.cells.length - 1) := by
      apply List.filter_eq_self.2
      intro i hi
      rw [List.mem_range'_1] at hi
      exact hrep.isLive i (by omega)
    rw [this, cons_range'_one _ hpos]
  · have hz : h.cells.length = 0 := by omega
    have : h.m_key_list = none := by rw [hrep.1.1, if_pos hz]
    simp [HashObject.each_node, HashObject.begin, this, HashObject.traverse, hz]

/-- The traversal of a hash of that shape hands its entries to the loop body,
in allocation order. -/
theorem HashObject.Rep.each {svc : KeyService V} {h : HashObject V} (hrep : h.Rep svc)
    (fuel : Nat) (hf : h.cells.length ≤ fuel) : h.each fuel = .ok h.entries := by
  unfold HashObject.each
  rw [hrep.each_node fuel hf]
  simp only [HashObject.entries]
  rw [filterMap_range_getElem?]

/-- C3: for every flat list of an even number of items `k1, v1, ..., kn, vn`
the constructor `HashObject(env, argc, items)` completes, and the hash it
builds iterates its keys in the order of their first occurrence in the list,
each key carrying the value of its last occurrence, with `size()` the number of
distinct keys. -/
theorem HashObject.create_items_order [DecidableEq V] (svc : KeyService V)
    (hsvc : ∀ a b, svc.equal false a b = true ↔ a = b) (nil : V) (hashClass : Nat)
    (items : List V) (heven : items.length % 2 = 0) :
    ∃ h, HashObject.create_items svc nil hashClass items = .ok h ∧
      (∀ fuel, items.length ≤ fuel →
        ∃ l, h.each fuel = .ok l ∧
          l.map Prod.fst = firstOccurrences ((pairsOf items).map Prod.fst) ∧
          ∀ e ∈ l, lastValueOf (pairsOf items) e.1 = some e.2) ∧
      h.size = ((pairsOf items).map Prod.fst).dedup.length := by
  obtain ⟨h, hput, hrep, hent⟩ :=
    HashObject.Rep.put_items hsvc items _ (HashObject.Rep_create svc nil hashClass)
  have hnil : (HashObject.create_klass nil hashClass).entries = [] := rfl
  rw [hnil] at hent
  have hkeys : h.entries.map Prod.fst = firstOccurrences ((pairsOf items).map Prod.fst) := by
    rw [hent, foldl_assocPut_keys]
    simp
  have hlen : h.cells.length = ((pairsOf items).map Prod.fst).dedup.length := by
    rw [← length_firstOccurrences, ← hkeys]
    simp [HashObject.entries]
  refine ⟨h, ?_, ?_, ?_⟩
  · simp only [HashObject.create_items, heven]
    simp only [HashObject.create, hput]
    simp
  · intro fuel hfuel
    refine ⟨h.entries, hrep.each fuel ?_, hkeys, ?_⟩
    · have h1 := (List.dedup_sublist ((pairsOf items).map Prod.fst)).length_le
      have h2 := length_pairsOf_le items
      simp only [List.length_map] at h1
      omega
    · intro e he
      rw [hent] at he
      rcases foldl_assocPut_values (pairsOf items) [] e.1 e.2 he with h1 | ⟨_, h2⟩
      · exact h1
      · simp at h2
  · rw [HashObject.size, hrep.hashmap_eq, List.length_range, hlen]

theorem HashObject.create_items_order_witness :
    ∃ h, HashObject.create_items sampleKeys .nil 0 scenarioA = .ok h ∧ h.size = 2 ∧
      h.each 6 = .ok [(.str "a", .int 3), (.str "b", .int 2)] := by
  obtain ⟨h, h1, h2, h3⟩ := HashObject.create_items_order sampleKeys
    (by intro a b; simp [sampleKeys]) .nil 0 scenarioA (by decide)
  refine ⟨h, h1, ?_, ?_⟩
  · rw [h3]
    decide
  · obtain ⟨l, hl, hk, hv⟩ := h2 6 (by decide)
    rw [hl]
    have hk2 : l.map Prod.fst = [.str "a", .str "b"] := by
      rw [hk]
      decide
    match l, hk2, hv with
    | [(k1, v1), (k2, v2)], hk2, hv =>
      simp only [List.map_cons, List.map_nil, List.cons.injEq, and_true] at hk2
      obtain ⟨e1, e2⟩ := hk2
      subst e1 e2
      have a1 := hv (.str "a", v1) (by simp)
      have a2 := hv (.str "b", v2) (by simp)
      have b1 : lastValueOf (pairsOf scenarioA) (.str "a") = some (.int 3) := by decide
      have b2 : lastValueOf (pairsOf scenarioA) (.str "b") = some (.int 2) := by decide
      rw [b1] at a1
      rw [b2] at a2
      cases a1
      cases a2
      rfl

/-! ## Construction from an odd item list -/

/-- C11 (as stated) fails on the code: on the one-item list `"a"` both
constructors stop at their assertion; what comes out is not an `ArgumentError`
raised to the caller. -/
theorem HashObject.create_odd_counterexample :
    HashObject.create_items stringKeys "nil" 0 ["a"] = .error (.fault .assertFailed) ∧
      HashObject.create_initializer_list stringKeys "nil" 0 ["a"] =
        .error (.fault .assertFailed) ∧
      HashObject.create_items stringKeys "nil" 0 ["a"] ≠ .error (.raised .ArgumentError) ∧
      HashObject.create_initializer_list stringKeys "nil" 0 ["a"] ≠
        .error (.raised .ArgumentError) := by
  have h1 : HashObject.create_items stringKeys "nil" 0 ["a"] =
      .error (.fault .assertFailed) := rfl
  have h2 : HashObject.create_initializer_list stringKeys "nil" 0 ["a"] =
      .error (.fault .assertFailed) := rfl
  refine ⟨h1, h2, ?_, ?_⟩
  · rw [h1]
    intro h
    cases h
  · rw [h2]
    intro h
    cases h

/-- C11 (amended): constructing a hash from a flat item list of odd length, by
`HashObject(env, argc, items)` or by the initializer-list constructor, fails
the constructor's assertion that the length is even; the run is aborted, no
`ArgumentError` is raised to the caller and no hash is produced. -/
theorem HashObject.create_odd_asserts (svc : KeyService V) (nil : V) (hashClass : Nat)
    (items : List V) (hodd : items.length % 2 = 1) :
    HashObject.create_items svc nil hashClass items = .error (.fault .assertFailed) ∧
      HashObject.create_initializer_list svc nil hashClass items =
        .error (.fault .assertFailed) := by
  have h : items.length % 2 ≠ 0 := by omega
  exact ⟨by simp [HashObject.create_items, h], by simp [HashObject.create_initializer_list, h]⟩

theorem HashObject.create_odd_asserts_witness :
    HashObject.create_items sampleKeys .nil 0 [.str "a", .int 1, .str "b"] =
        .error (.fault .assertFailed) ∧
      HashObject.create_initializer_list sampleKeys .nil 0 [.str "a", .int 1, .str "b"] =
        .error (.fault .assertFailed) :=
  HashObject.create_odd_asserts sampleKeys .nil 0 [.str "a", .int 1, .str "b"] (by decide)

/-! ## Tracing a cell -/

/-- C12: `visit_children` offers to the visitor exactly the four references a
`HashKey` holds, `prev`, `next`, `key` and `val`, in this order, each once and
nothing else, whether the entry is removed or not. -/
theorem HashKey.visit_children_offers (c : HashKey V) (log : List (Reference V)) :
    c.visit_children recordingVisitor log =
        log ++ [.cell c.prev, .cell c.next, .value c.key, .value c.val] ∧
      ({ c with removed := true } : HashKey V).visit_children recordingVisitor log =
        log ++ [.cell c.prev, .cell c.next, .value c.key, .value c.val] := by
  constructor <;> simp [HashKey.visit_children, recordingVisitor]

/-! ## Argument counts -/

/-- C13: `ensure_argc_is(env, expected)` raises exactly when
`argc != expected`; what it raises is the `ArgumentError` with the message
"wrong number of arguments (given <argc>, expected <expected>)"; when
`argc == expected` it returns normally. -/
theorem Args.ensure_argc_is_raises {V : Type} (a : Args V) (expected : Nat) :
    ((∃ e, a.ensure_argc_is expected = .error e) ↔ a.argc ≠ expected) ∧
    (∀ e, a.ensure_argc_is expected = .error e →
      e = ⟨"ArgumentError",
        "wrong number of arguments (given " ++ toString a.argc ++ ", expected " ++
          toString expected ++ ")"⟩) ∧
    (a.argc = expected → a.ensure_argc_is expected = .ok ()) := by
  unfold Args.ensure_argc_is
  by_cases h : a.argc = expected
  · simp [h]
  · simp [h]

theorem Args.ensure_argc_is_raises_witness :
    ((⟨2, ["x", "y"]⟩ : Args String).ensure_argc_is 3 =
        .error ⟨"ArgumentError", "wrong number of arguments (given 2, expected 3)"⟩) ∧
      (⟨2, ["x", "y"]⟩ : Args String).ensure_argc_is 2 = .ok () := by
  obtain ⟨e, he⟩ := (Args.ensure_argc_is_raises (⟨2, ["x", "y"]⟩ : Args String) 3).1.2
    (by decide)
  have h2 := (Args.ensure_argc_is_raises (⟨2, ["x", "y"]⟩ : Args String) 3).2.1 e he
  refine ⟨?_, (Args.ensure_argc_is_raises (⟨2, ["x", "y"]⟩ : Args String) 2).2.2 rfl⟩
  rw [he, h2]
  rfl

/-- C14: `ensure_argc_between(env, low, high)` raises exactly when
`argc < low` or `argc > high`, hence always when `low > high`; what it raises
is the `ArgumentError` with the message
"wrong number of arguments (given <argc>, expected <low>..<high>)"; and
`ensure_argc_between(env, n, n)` raises exactly when `ensure_argc_is(env, n)`
raises. -/
theorem Args.ensure_argc_between_raises {V : Type} (a : Args V) (low high n : Nat) :
    ((∃ e, a.ensure_argc_between low high = .error e) ↔ (a.argc < low ∨ a.argc > high)) ∧
    (high < low → ∃ e, a.ensure_argc_between low high = .error e) ∧
    (∀ e, a.ensure_argc_between low high = .error e →
      e = ⟨"ArgumentError",
        "wrong number of arguments (given " ++ toString a.argc ++ ", expected " ++
          toString low ++ ".." ++ toString high ++ ")"⟩) ∧
    ((∃ e, a.ensure_argc_between n n = .error e) ↔ ∃ e, a.ensure_argc_is n = .error e) := by
  unfold Args.ensure_argc_between Args.ensure_argc_is
  refine ⟨?_, ?_, ?_, ?_⟩
  · by_cases h : a.argc < low ∨ a.argc > high
    · simp [h]
    · simp [h]
  · intro hl
    have h : a.argc < low ∨ a.argc > high := by omega
    simp [h]
  · intro e
    by_cases h : a.argc < low ∨ a.argc > high
    · simp [h]
      intro he; exact he.symm
    · simp [h]
  · by_cases h : a.argc = n
    · simp [h]
    · have h2 : a.argc < n ∨ a.argc > n := by omega
      simp [h, h2]

theorem Args.ensure_argc_between_raises_witness :
    (⟨5, []⟩ : Args String).ensure_argc_between 1 3 =
      .error ⟨"ArgumentError", "wrong number of arguments (given 5, expected 1..3)"⟩ := by
  obtain ⟨e, he⟩ := (Args.ensure_argc_between_raises (⟨5, []⟩ : Args String) 1 3 0).1.2
    (by decide)
  have h2 := (Args.ensure_argc_between_raises (⟨5, []⟩ : Args String) 1 3 0).2.2.1 e he
  rw [he, h2]
  rfl

/-- C18: for `c >= 0`, `is_printable_char(c)` is false exactly when `c` is a
C0 control (0x00..0x1F or 0x7F), a C1 control (0x80..0x9F), one of
U+FFF0..U+FFF8, or U+FFFE or U+FFFF, and true for every other `c`. -/
theorem Utf8EncodingObject.is_printable_char_false_iff (c : Int) (hc : 0 ≤ c) :
    (Utf8EncodingObject.is_printable_char c = false ↔
      ((c ≤ 0x1F ∨ c = 0x7F) ∨ (0x80 ≤ c ∧ c ≤ 0x9F) ∨ (0xFFF0 ≤ c ∧ c ≤ 0xFFF8) ∨
        c = 0xFFFE ∨ c = 0xFFFF)) ∧
    (Utf8EncodingObject.is_printable_char c = true ↔
      ¬((c ≤ 0x1F ∨ c = 0x7F) ∨ (0x80 ≤ c ∧ c ≤ 0x9F) ∨ (0xFFF0 ≤ c ∧ c ≤ 0xFFF8) ∨
        c = 0xFFFE ∨ c = 0xFFFF)) := by
  unfold Utf8EncodingObject.is_printable_char
  constructor
  · simp only [Bool.or_eq_false_iff, Bool.and_eq_false_iff, decide_eq_false_iff_not]
    omega
  · simp only [Bool.or_eq_true, Bool.and_eq_true, decide_eq_true_eq]
    omega

theorem Utf8EncodingObject.is_printable_char_false_iff_witness :
    Utf8EncodingObject.is_printable_char 0x9F = false ∧
      Utf8EncodingObject.is_printable_char 0xA0 = true :=
  ⟨(Utf8EncodingObject.is_printable_char_false_iff 0x9F (by decide)).1.2 (by decide),
    (Utf8EncodingObject.is_printable_char_false_iff 0xA0 (by decide)).2.2 (by decide)⟩

/-! ## The pack-directive tokenizer -/

/-- C19 fails on the code: after each of the directives `s S i I l L q Q j J`
a modifier `_` or `!` placed directly behind it gives a token that carries the
error "'<modifier>' allowed only after types sSiIlLqQjJ", because the test of
line 55 looks at the modifier, not at the directive. -/
theorem ArrayPacker.Tokenizer.modifier_after_native_type :
    (∀ d ∈ ['s', 'S', 'i', 'I', 'l', 'L', 'q', 'Q', 'j', 'J'],
      (ArrayPacker.Tokenizer.next_token ⟨[d, '_'], 0⟩).1 =
        { directive := d, error := some "'_' allowed only after types sSiIlLqQjJ" }) ∧
    (∀ d ∈ ['s', 'S', 'i', 'I', 'l', 'L', 'q', 'Q', 'j', 'J'],
      (ArrayPacker.Tokenizer.next_token ⟨[d, '!'], 0⟩).1 =
        { directive := d, error := some "'!' allowed only after types sSiIlLqQjJ" }) := by
  decide

/-! ## ISO-8859-16 -/

section Iso885916

open Iso885916EncodingObject

set_option maxRecDepth 100000 in
/-- Every table entry is found again at its own index. -/
theorem ISO885916_from_to_high :
    ∀ k : Fin 128, from_unicode_codepoint (to_unicode_codepoint ((k.val : Int) + 0x80)) =
      (k.val : Int) + 0x80 := by
  decide

set_option maxRecDepth 100000 in
/-- No table entry is -1. -/
theorem ISO885916_entry_ne : ∀ k : Fin 128, ISO885916.getD k.val 0 ≠ -1 := by
  decide

/-- C20: on the bytes 0..0xFF `from_unicode_codepoint` undoes
`to_unicode_codepoint`; whenever `from_unicode_codepoint(cp)` is a byte `b`
other than -1, `to_unicode_codepoint(b)` is `cp`; and `to_unicode_codepoint`
returns -1 exactly for the arguments outside 0..0xFF, that is exactly when
`valid_codepoint` is false. -/
theorem Iso885916EncodingObject.codepoint_bijection :
    (∀ b : Int, 0 ≤ b → b ≤ 0xFF → from_unicode_codepoint (to_unicode_codepoint b) = b) ∧
    (∀ cp b : Int, from_unicode_codepoint cp = b → b ≠ -1 → to_unicode_codepoint b = cp) ∧
    (∀ x : Int, to_unicode_codepoint x = -1 ↔ ¬(0 ≤ x ∧ x ≤ 0xFF)) ∧
    (∀ x : Int, to_unicode_codepoint x = -1 ↔ valid_codepoint x = false) := by
  have hto : ∀ x : Int, to_unicode_codepoint x = -1 ↔ ¬(0 ≤ x ∧ x ≤ 0xFF) := by
    intro x
    unfold to_unicode_codepoint
    by_cases h1 : x ≥ 0x00 ∧ x ≤ 0x7F
    · rw [if_pos h1]
      omega
    · rw [if_neg h1]
      by_cases h2 : x ≥ 0x80 ∧ x ≤ 0xFF
      · rw [if_pos h2]
        have hk : (x - 0x80).toNat < 128 := by omega
        have := ISO885916_entry_ne ⟨(x - 0x80).toNat, hk⟩
        simp only at this
        constructor
        · intro h; exact absurd h this
        · intro h; omega
      · rw [if_neg h2]
        omega
  refine ⟨?_, ?_, hto, ?_⟩
  · intro b h0 h1
    by_cases hlow : b ≤ 0x7F
    · have : b ≥ 0x00 ∧ b ≤ 0x7F := ⟨h0, hlow⟩
      simp [to_unicode_codepoint, from_unicode_codepoint, this]
    · have hk : (b - 0x80).toNat < 128 := by omega
      have := ISO885916_from_to_high ⟨(b - 0x80).toNat, hk⟩
      have e : (((b - 0x80).toNat : Nat) : Int) + 0x80 = b := by omega
      simp only [e] at this
      exact this
  · intro cp b hb hne
    unfold from_unicode_codepoint at hb
    by_cases h1 : cp ≥ 0x00 ∧ cp ≤ 0x7F
    · rw [if_pos h1] at hb
      subst hb
      simp [to_unicode_codepoint, h1]
    · rw [if_neg h1] at hb
      cases hf : (List.range (ISO885916_max + 1)).find?
          (fun i => ISO885916.getD i 0 == cp) with
      | none =>
        rw [hf] at hb
        exact absurd hb.symm hne
      | some i =>
        rw [hf] at hb
        simp only at hb
        have hi : i < 128 := by
          have := List.mem_of_find?_eq_some hf
          simpa [ISO885916_max] using this
        have hv : ISO885916.getD i 0 = cp := by
          have := List.find?_some hf
          simpa using this
        subst hb
        unfold to_unicode_codepoint
        have h2 : ¬((i : Int) + 0x80 ≥ 0x00 ∧ (i : Int) + 0x80 ≤ 0x7F) := by omega
        have h3 : (i : Int) + 0x80 ≥ 0x80 ∧ (i : Int) + 0x80 ≤ 0xFF := by omega
        rw [if_neg h2, if_pos h3]
        have : ((i : Int) + 0x80 - 0x80).toNat = i := by omega
        rw [this, hv]
  · intro x
    rw [hto]
    simp only [valid_codepoint, Bool.and_eq_false_iff, decide_eq_false_iff_not]
    omega


end Iso885916

/-! ## UTF-8 -/

section Utf8

open Utf8EncodingObject

/-! ### Bytes as numbers -/

theorem or_80 : ∀ x, x < 64 → 0b10000000 ||| x = 128 + x := by decide
theorem or_C0 : ∀ x, x < 32 → 0b11000000 ||| x = 192 + x := by decide
theorem or_E0 : ∀ x, x < 16 → 0b11100000 ||| x = 224 + x := by decide
theorem or_F0 : ∀ x, x < 8 → 0b11110000 ||| x = 240 + x := by decide

set_option maxRecDepth 100000 in
theorem xor_80 : ∀ b, b < 256 → 128 ≤ b → b < 192 → b ^^^ 0x80 = b - 128 := by decide
set_option maxRecDepth 100000 in
theorem xor_C0 : ∀ b, b < 256 → 192 ≤ b → b < 224 → b ^^^ 0xC0 = b - 192 := by decide
set_option maxRecDepth 100000 in
theorem xor_E0 : ∀ b, b < 256 → 224 ≤ b → b < 240 → b ^^^ 0xE0 = b - 224 := by decide
set_option maxRecDepth 100000 in
theorem xor_F0 : ∀ b, b < 256 → 240 ≤ b → b < 248 → b ^^^ 0xF0 = b - 240 := by decide

theorem toByte_val (x : Nat) (h : x < 256) : (toByte x).val = x := by
  simp only [toByte]
  omega

theorem and_3f (x : Nat) : x &&& 0x3f = x % 64 := by
  rw [show (0x3f : Nat) = 2 ^ 6 - 1 by rfl, Nat.and_pow_two_sub_one_eq_mod]

/-- The bytes `encode_codepoint` produces, written with division and
remainder. -/
theorem Utf8EncodingObject.encode_codepoint_bytes (n : Nat) :
    (n < 0x80 → encode_codepoint n = [toByte n]) ∧
    (0x80 ≤ n → n < 0x800 → encode_codepoint n = [toByte (192 + n / 64), toByte (128 + n % 64)]) ∧
    (0x800 ≤ n → n < 0x10000 →
      encode_codepoint n =
        [toByte (224 + n / 4096), toByte (128 + n / 64 % 64), toByte (128 + n % 64)]) ∧
    (0x10000 ≤ n → n < 0x200000 →
      encode_codepoint n =
        [toByte (240 + n / 262144), toByte (128 + n / 4096 % 64), toByte (128 + n / 64 % 64),
          toByte (128 + n % 64)]) := by
  refine ⟨?_, ?_, ?_, ?_⟩
  · intro h
    have c1 : (n : Int) < 0x80 := by omega
    have : ((n : Int) % 256).toNat = n := by omega
    simp only [encode_codepoint, if_pos c1, this]
  · intro h1 h2
    have c1 : ¬(n : Int) < 0x80 := by omega
    have c2 : (n : Int) < 0x800 := by omega
    simp only [encode_codepoint, if_neg c1, if_pos c2, Int.toNat_ofNat, and_3f,
      Nat.shiftRight_eq_div_pow]
    rw [or_C0 _ (by omega), or_80 _ (by omega)]
  · intro h1 h2
    have c1 : ¬(n : Int) < 0x80 := by omega
    have c2 : ¬(n : Int) < 0x800 := by omega
    have c3 : (n : Int) < 0x10000 := by omega
    simp only [encode_codepoint, if_neg c1, if_neg c2, if_pos c3, Int.toNat_ofNat, and_3f,
      Nat.shiftRight_eq_div_pow]
    rw [or_E0 _ (by omega), or_80 _ (by omega), or_80 _ (by omega)]
  · intro h1 h2
    have c1 : ¬(n : Int) < 0x80 := by omega
    have c2 : ¬(n : Int) < 0x800 := by omega
    have c3 : ¬(n : Int) < 0x10000 := by omega
    have c4 : (n : Int) < 0x200000 := by omega
    simp only [encode_codepoint, if_neg c1, if_neg c2, if_neg c3, if_pos c4, Int.toNat_ofNat,
      and_3f, Nat.shiftRight_eq_div_pow]
    rw [or_F0 _ (by omega), or_80 _ (by omega), or_80 _ (by omega), or_80 _ (by omega)]

/-- Decoding the bytes `encode_codepoint` produces for a code point up to
0x10FFFF gives the code point back. -/
theorem Utf8EncodingObject.decode_encode_nat (n : Nat) (hn : n ≤ 0x10FFFF) :
    decode_codepoint (encode_codepoint n) = n := by
  obtain ⟨e1, e2, e3, e4⟩ := encode_codepoint_bytes n
  by_cases c1 : n < 0x80
  · rw [e1 c1]
    simp only [decode_codepoint]
    rw [toByte_val n (by omega)]
  · by_cases c2 : n < 0x800
    · rw [e2 (by omega) c2]
      simp only [decode_codepoint]
      rw [toByte_val _ (by omega), toByte_val _ (by omega),
        xor_C0 _ (by omega) (by omega) (by omega), xor_80 _ (by omega) (by omega) (by omega)]
      simp only [Nat.shiftLeft_eq]
      omega
    · by_cases c3 : n < 0x10000
      · rw [e3 (by omega) c3]
        simp only [decode_codepoint]
        rw [toByte_val _ (by omega), toByte_val _ (by omega), toByte_val _ (by omega),
          xor_E0 _ (by omega) (by omega) (by omega), xor_80 _ (by omega) (by omega) (by omega),
          xor_80 _ (by omega) (by omega) (by omega)]
        simp only [Nat.shiftLeft_eq]
        omega
      · rw [e4 (by omega) (by omega)]
        simp only [decode_codepoint]
        rw [toByte_val _ (by omega), toByte_val _ (by omega), toByte_val _ (by omega),
          toByte_val _ (by omega),
          xor_F0 _ (by omega) (by omega) (by omega), xor_80 _ (by omega) (by omega) (by omega),
          xor_80 _ (by omega) (by omega) (by omega), xor_80 _ (by omega) (by omega) (by omega)]
        simp only [Nat.shiftLeft_eq]
        omega

/-- C15: UTF-8 round trip: for every code point `cp` with
`0 <= cp <= 0x10FFFF`, `decode_codepoint` applied to the whole byte string
that `encode_codepoint(cp)` produces returns `cp`. -/
theorem Utf8EncodingObject.decode_encode (cp : Int) (h0 : 0 ≤ cp) (h1 : cp ≤ 0x10FFFF) :
    decode_codepoint (encode_codepoint cp) = cp := by
  obtain ⟨n, rfl⟩ := Int.eq_ofNat_of_zero_le h0
  exact decode_encode_nat n (by omega)

theorem byteAt_lt (string : List Byte) (k : Nat) : byteAt string k < 256 := by
  unfold byteAt
  cases string[k]? with
  | none => decide
  | some b => exact b.isLt

theorem or_shift (a b i : Nat) (h : b < 2 ^ i) : b ||| (a <<< i) = b + a * 2 ^ i := by
  rw [Nat.or_comm, Nat.shiftLeft_eq, Nat.mul_comm, ← Nat.mul_add_lt_is_or h, Nat.add_comm]

theorem and_0f (x : Nat) : x &&& 0b1111 = x % 16 := by
  rw [show (0b1111 : Nat) = 2 ^ 4 - 1 by rfl, Nat.and_pow_two_sub_one_eq_mod]

theorem and_07 (x : Nat) : x &&& 0b111 = x % 8 := by
  rw [show (0b111 : Nat) = 2 ^ 3 - 1 by rfl, Nat.and_pow_two_sub_one_eq_mod]

theorem and_3f_bin (x : Nat) : x &&& 0b111111 = x % 64 := and_3f x

set_option maxRecDepth 100000 in
theorem and_1e : ∀ b, b < 256 → (b &&& 0b11110 = 0 ↔ b % 32 < 2) := by decide

set_option maxRecDepth 100000 in
theorem and_20 : ∀ b, b < 256 → (b &&& 0b100000 = 0 ↔ b % 64 < 32) := by decide

theorem Utf8EncodingObject.decode_encode_witness :
    decode_codepoint (encode_codepoint 0x20AC) = 0x20AC :=
  Utf8EncodingObject.decode_encode 0x20AC (by decide) (by decide)

theorem shr_cont (b : Nat) : b >>> 6 = 0b10 ↔ (128 ≤ b ∧ b < 192) := by
  rw [Nat.shiftRight_eq_div_pow]
  omega

/-- What `next_codepoint` has read when it reports a valid character: a lead
byte of the length class, continuation bytes in 0x80..0xBF, neither an overlong
form nor a surrogate nor a code point above 0x10FFFF, and the code point made of
the payload bits of these bytes. -/
theorem Utf8EncodingObject.next_codepoint_valid_shape (string : List Byte) (index : Nat)
    (r : CodepointResult) (idx : Nat) (hi : index < string.length)
    (h : next_codepoint string index = .ok (r, idx)) (hv : r.valid = true) :
    index + r.bytes ≤ string.length ∧ idx = index + r.bytes ∧
    ((r.bytes = 1 ∧ byteAt string index < 128 ∧ r.codepoint = (byteAt string index : Nat)) ∨
     (r.bytes = 2 ∧ (194 ≤ byteAt string index ∧ byteAt string index < 224) ∧
        (128 ≤ byteAt string (index + 1) ∧ byteAt string (index + 1) < 192) ∧
        r.codepoint =
          (((byteAt string index - 192) * 64 + (byteAt string (index + 1) - 128) : Nat) : Int)) ∨
     (r.bytes = 3 ∧ (224 ≤ byteAt string index ∧ byteAt string index < 240) ∧
        (128 ≤ byteAt string (index + 1) ∧ byteAt string (index + 1) < 192) ∧
        (128 ≤ byteAt string (index + 2) ∧ byteAt string (index + 2) < 192) ∧
        ¬(byteAt string index = 224 ∧ byteAt string (index + 1) < 160) ∧
        ¬(byteAt string index = 237 ∧ 160 ≤ byteAt string (index + 1)) ∧
        r.codepoint =
          (((byteAt string index - 224) * 4096 + (byteAt string (index + 1) - 128) * 64 +
            (byteAt string (index + 2) - 128) : Nat) : Int)) ∨
     (r.bytes = 4 ∧ (240 ≤ byteAt string index ∧ byteAt string index < 248) ∧
        (128 ≤ byteAt string (index + 1) ∧ byteAt string (index + 1) < 192) ∧
        (128 ≤ byteAt string (index + 2) ∧ byteAt string (index + 2) < 192) ∧
        (128 ≤ byteAt string (index + 3) ∧ byteAt string (index + 3) < 192) ∧
        0x10000 ≤ (byteAt string index - 240) * 262144 +
          (byteAt string (index + 1) - 128) * 4096 + (byteAt string (index + 2) - 128) * 64 +
          (byteAt string (index + 3) - 128) ∧
        (byteAt string index - 240) * 262144 +
          (byteAt string (index + 1) - 128) * 4096 + (byteAt string (index + 2) - 128) * 64 +
          (byteAt string (index + 3) - 128) ≤ 0x10FFFF ∧
        r.codepoint =
          (((byteAt string index - 240) * 262144 + (byteAt string (index + 1) - 128) * 4096 +
            (byteAt string (index + 2) - 128) * 64 + (byteAt string (index + 3) - 128) : Nat) :
            Int))) := by
  unfold next_codepoint at h
  rw [if_neg (by omega)] at h
  have hb0 := byteAt_lt string index
  have hb1 := byteAt_lt string (index + 1)
  have hb2 := byteAt_lt string (index + 2)
  have hb3 := byteAt_lt string (index + 3)
  have hr4 : List.range' 1 (4 - 1) = [1, 2, 3] := rfl
  have hr3 : List.range' 1 (3 - 1) = [1, 2] := rfl
  have hr2 : List.range' 1 (2 - 1) = [1] := rfl
  have hr1 : List.range' 1 (1 - 1) = [] := rfl
  by_cases c4 : byteAt string index >>> 3 = 0b11110
  · simp only [c4, if_true, hr4] at h
    split_ifs at h <;>
      (simp only [Except.ok.injEq, Prod.mk.injEq] at h
       obtain ⟨rfl, rfl⟩ := h
       first
        | (simp at hv; done)
        | (exfalso; omega)
        | skip)
    rename_i hlen hcont hrange _ _ _
    simp only [List.any_cons, List.any_nil, Bool.or_false, Bool.or_eq_true, decide_eq_true_eq,
      not_or, not_not, shr_cont] at hcont
    obtain ⟨k1, k2, k3⟩ := hcont
    rw [Nat.shiftRight_eq_div_pow] at c4
    simp only [and_3f_bin, and_07] at hrange
    rw [or_shift _ _ 6 (by omega), or_shift _ _ 12 (by omega), or_shift _ _ 18 (by omega)]
      at hrange
    refine ⟨by simp only; omega, rfl, ?_⟩
    simp only
    rw [xor_F0 _ hb0 (by omega) (by omega), xor_80 _ hb1 k1.1 k1.2, xor_80 _ hb2 k2.1 k2.2,
      xor_80 _ hb3 k3.1 k3.2]
    simp only [Nat.shiftLeft_eq]
    right; right; right
    refine ⟨trivial, ⟨by omega, by omega⟩, k1, k2, k3, by omega, by omega, ?_⟩
    push_cast
  · simp only [c4, if_false] at h
    by_cases c3 : byteAt string index >>> 4 = 0b1110
    · simp only [c3, if_true, hr3] at h
      split_ifs at h <;>
        (simp only [Except.ok.injEq, Prod.mk.injEq] at h
         obtain ⟨rfl, rfl⟩ := h
         first
          | (simp at hv; done)
          | (exfalso; omega)
          | skip)
      rename_i hlen hcont hover hsur _ _
      simp only [List.any_cons, List.any_nil, Bool.or_false, Bool.or_eq_true, decide_eq_true_eq,
        not_or, not_not, shr_cont] at hcont
      obtain ⟨k1, k2⟩ := hcont
      rw [Nat.shiftRight_eq_div_pow] at c3
      simp only [and_0f, and_20 _ hb1] at hover
      simp only [and_0f, and_3f_bin, Nat.shiftRight_eq_div_pow] at hsur
      refine ⟨by simp only; omega, rfl, ?_⟩
      simp only
      rw [xor_E0 _ hb0 (by omega) (by omega), xor_80 _ hb1 k1.1 k1.2, xor_80 _ hb2 k2.1 k2.2]
      simp only [Nat.shiftLeft_eq]
      right; right; left
      refine ⟨trivial, ⟨by omega, by omega⟩, k1, k2, by omega, by omega, ?_⟩
      push_cast
    · simp only [c3, if_false] at h
      by_cases c2 : byteAt string index >>> 5 = 0b110
      · simp only [c2, if_true, hr2] at h
        split_ifs at h <;>
          (simp only [Except.ok.injEq, Prod.mk.injEq] at h
           obtain ⟨rfl, rfl⟩ := h
           first
            | (simp at hv; done)
            | (exfalso; omega)
            | skip)
        rename_i hlen hcont hover _
        simp only [List.any_cons, List.any_nil, Bool.or_false, decide_eq_true_eq,
          not_not, shr_cont] at hcont
        rw [Nat.shiftRight_eq_div_pow] at c2
        simp only [and_1e _ hb0] at hover
        refine ⟨by simp only; omega, rfl, ?_⟩
        simp only
        rw [xor_C0 _ hb0 (by omega) (by omega), xor_80 _ hb1 hcont.1 hcont.2]
        simp only [Nat.shiftLeft_eq]
        right; left
        refine ⟨trivial, ⟨by omega, by omega⟩, hcont, ?_⟩
        push_cast
      · simp only [c2, if_false] at h
        by_cases c1 : byteAt string index >>> 7 = 0b0
        · simp only [c1, if_true, hr1] at h
          split_ifs at h <;>
            (simp only [Except.ok.injEq, Prod.mk.injEq] at h
             obtain ⟨rfl, rfl⟩ := h
             first
              | (simp at hv; done)
              | (exfalso; omega)
              | skip)
          rw [Nat.shiftRight_eq_div_pow] at c1
          refine ⟨by simp only; omega, rfl, ?_⟩
          simp only
          left
          exact ⟨trivial, by omega, trivial⟩
        · simp only [c1, if_false, Except.ok.injEq, Prod.mk.injEq] at h
          obtain ⟨rfl, rfl⟩ := h
          simp at hv

/-- A byte read from inside the string, as a byte again. -/
theorem toByte_byteAt (l : List Byte) (i : Nat) (h : i < l.length) :
    toByte (byteAt l i) = l[i] := by
  unfold byteAt
  rw [List.getElem?_eq_getElem h]
  apply Fin.ext
  simp only [toByte]
  exact Nat.mod_eq_of_lt l[i].isLt

/-- The bytes of a string from `i` on, `k` of them. -/
theorem take_drop_bytes (l : List Byte) :
    ∀ (k i : Nat), i + k ≤ l.length →
      (l.drop i).take k = (List.range' i k).map (fun j => toByte (byteAt l j)) := by
  intro k
  induction k with
  | zero => intro i _; simp
  | succ k ih =>
    intro i h
    have hi : i < l.length := by omega
    rw [List.drop_eq_getElem_cons hi, List.take_succ_cons, List.range'_succ, List.map_cons,
      ih (i + 1) (by omega), toByte_byteAt l i hi]

/-- C17: for a byte string and an index `i` below its length, whenever
`next_codepoint` reports `valid = true` with `bytes = n`, the `n` bytes at `i`
lie inside the string and the index is moved past them, and they form a
well-formed UTF-8 sequence: the first byte has the form 0xxxxxxx, 110xxxxx,
1110xxxx or 11110xxx of the length `n`, every byte after the first has the form
10xxxxxx, the code point returned lies in 0..0x7F for `n = 1`, in 0x80..0x7FF
for `n = 2`, in 0x800..0xFFFF outside 0xD800..0xDFFF for `n = 3`, and in
0x10000..0x10FFFF for `n = 4`, and the `n` bytes are exactly the encoding of
that code point, which decodes to it: an overlong form, a surrogate or a
sequence beyond 0x10FFFF is never reported valid. -/
theorem Utf8EncodingObject.next_codepoint_valid (string : List Byte) (index : Nat)
    (r : CodepointResult) (idx : Nat) (hi : index < string.length)
    (h : next_codepoint string index = .ok (r, idx)) (hv : r.valid = true) :
    index + r.bytes ≤ string.length ∧ idx = index + r.bytes ∧
    ((r.bytes = 1 ∧ byteAt string index >>> 7 = 0b0) ∨
     (r.bytes = 2 ∧ byteAt string index >>> 5 = 0b110) ∨
     (r.bytes = 3 ∧ byteAt string index >>> 4 = 0b1110) ∨
     (r.bytes = 4 ∧ byteAt string index >>> 3 = 0b11110)) ∧
    (∀ j, 1 ≤ j → j < r.bytes → byteAt string (index + j) >>> 6 = 0b10) ∧
    ((r.bytes = 1 ∧ 0 ≤ r.codepoint ∧ r.codepoint ≤ 0x7F) ∨
     (r.bytes = 2 ∧ 0x80 ≤ r.codepoint ∧ r.codepoint ≤ 0x7FF) ∨
     (r.bytes = 3 ∧ 0x800 ≤ r.codepoint ∧ r.codepoint ≤ 0xFFFF ∧
        ¬(0xD800 ≤ r.codepoint ∧ r.codepoint ≤ 0xDFFF)) ∨
     (r.bytes = 4 ∧ 0x10000 ≤ r.codepoint ∧ r.codepoint ≤ 0x10FFFF)) ∧
    (string.drop index).take r.bytes = encode_codepoint r.codepoint ∧
    decode_codepoint ((string.drop index).take r.bytes) = r.codepoint := by
  obtain ⟨hlen, hidx, hshape⟩ := next_codepoint_valid_shape string index r idx hi h hv
  have hb0 := byteAt_lt string index
  refine ⟨hlen, hidx, ?_⟩
  rcases hshape with ⟨hn, h0, hcp⟩ | ⟨hn, h0, h1, hcp⟩ | ⟨hn, h0, h1, h2, hov, hsu, hcp⟩ |
    ⟨hn, h0, h1, h2, h3, hlo, hhi, hcp⟩
  · have henc : (string.drop index).take r.bytes = encode_codepoint r.codepoint := by
      rw [hn, hcp, take_drop_bytes string 1 index (by omega),
        (encode_codepoint_bytes _).1 h0]
      rfl
    refine ⟨Or.inl ⟨hn, by rw [Nat.shiftRight_eq_div_pow]; omega⟩, ?_, Or.inl ⟨hn, by omega⟩,
      henc, ?_⟩
    · intro j j1 j2
      omega
    · rw [henc, hcp]
      exact decode_encode_nat _ (by omega)
  · have e0 : 192 + ((byteAt string index - 192) * 64 + (byteAt string (index + 1) - 128)) / 64 =
        byteAt string index := by omega
    have e1 : 128 + ((byteAt string index - 192) * 64 + (byteAt string (index + 1) - 128)) % 64 =
        byteAt string (index + 1) := by omega
    have henc : (string.drop index).take r.bytes = encode_codepoint r.codepoint := by
      rw [hn, hcp, take_drop_bytes string 2 index (by omega),
        (encode_codepoint_bytes _).2.1 (by omega) (by omega), e0, e1]
      rfl
    refine ⟨Or.inr (Or.inl ⟨hn, by rw [Nat.shiftRight_eq_div_pow]; omega⟩), ?_,
      Or.inr (Or.inl ⟨hn, by omega⟩), henc, ?_⟩
    · intro j j1 j2
      have : j = 1 := by omega
      subst this
      exact (shr_cont _).2 h1
    · rw [henc, hcp]
      exact decode_encode_nat _ (by omega)
  · have e0 : 224 + ((byteAt string index - 224) * 4096 +
        (byteAt string (index + 1) - 128) * 64 + (byteAt string (index + 2) - 128)) / 4096 =
        byteAt string index := by omega
    have e1 : 128 + ((byteAt string index - 224) * 4096 +
        (byteAt string (index + 1) - 128) * 64 + (byteAt string (index + 2) - 128)) / 64 % 64 =
        byteAt string (index + 1) := by omega
    have e2 : 128 + ((byteAt string index - 224) * 4096 +
        (byteAt string (index + 1) - 128) * 64 + (byteAt string (index + 2) - 128)) % 64 =
        byteAt string (index + 2) := by omega
    have henc : (string.drop index).take r.bytes = encode_codepoint r.codepoint := by
      rw [hn, hcp, take_drop_bytes string 3 index (by omega),
        (encode_codepoint_bytes _).2.2.1 (by omega) (by omega), e0, e1, e2]
      rfl
    refine ⟨Or.inr (Or.inr (Or.inl ⟨hn, by rw [Nat.shiftRight_eq_div_pow]; omega⟩)), ?_,
      Or.inr (Or.inr (Or.inl ⟨hn, by omega⟩)), henc, ?_⟩
    · intro j j1 j2
      have : j = 1 ∨ j = 2 := by omega
      rcases this with e | e <;> subst e
      · exact (shr_cont _).2 h1
      · exact (shr_cont _).2 h2
    · rw [henc, hcp]
      exact decode_encode_nat _ (by omega)
  · have e0 : 240 + ((byteAt string index - 240) * 262144 +
        (byteAt string (index + 1) - 128) * 4096 + (byteAt string (index + 2) - 128) * 64 +
        (byteAt string (index + 3) - 128)) / 262144 = byteAt string index := by omega
    have e1 : 128 + ((byteAt string index - 240) * 262144 +
        (byteAt string (index + 1) - 128) * 4096 + (byteAt string (index + 2) - 128) * 64 +
        (byteAt string (index + 3) - 128)) / 4096 % 64 = byteAt string (index + 1) := by omega
    have e2 : 128 + ((byteAt string index - 240) * 262144 +
        (byteAt string (index + 1) - 128) * 4096 + (byteAt string (index + 2) - 128) * 64 +
        (byteAt string (index + 3) - 128)) / 64 % 64 = byteAt string (index + 2) := by omega
    have e3 : 128 + ((byteAt string index - 240) * 262144 +
        (byteAt string (index + 1) - 128) * 4096 + (byteAt string (index + 2) - 128) * 64 +
        (byteAt string (index + 3) - 128)) % 64 = byteAt string (index + 3) := by omega
    have henc : (string.drop index).take r.bytes = encode_codepoint r.codepoint := by
      rw [hn, hcp, take_drop_bytes string 4 index (by omega),
        (encode_codepoint_bytes _).2.2.2 (by omega) (by omega), e0, e1, e2, e3]
      rfl
    refine ⟨Or.inr (Or.inr (Or.inr ⟨hn, by rw [Nat.shiftRight_eq_div_pow]; omega⟩)), ?_,
      Or.inr (Or.inr (Or.inr ⟨hn, by omega⟩)), henc, ?_⟩
    · intro j j1 j2
      have : j = 1 ∨ j = 2 ∨ j = 3 := by omega
      rcases this with e | e | e <;> subst e
      · exact (shr_cont _).2 h1
      · exact (shr_cont _).2 h2
      · exact (shr_cont _).2 h3
    · rw [henc, hcp]
      exact decode_encode_nat _ (by omega)

theorem Utf8EncodingObject.next_codepoint_valid_witness :
    ([0x41, 0xE2, 0x82, 0xAC, 0x42].drop 1).take 3 = encode_codepoint 0x20AC ∧
      decode_codepoint (([0x41, 0xE2, 0x82, 0xAC, 0x42].drop 1).take 3) = 0x20AC ∧
      byteAt [0x41, 0xE2, 0x82, 0xAC, 0x42] 1 >>> 4 = 0b1110 :=
  ⟨(Utf8EncodingObject.next_codepoint_valid [0x41, 0xE2, 0x82, 0xAC, 0x42] 1
      ⟨true, 3, 0x20AC⟩ 4 (by decide) rfl rfl).2.2.2.2.2.1,
    (Utf8EncodingObject.next_codepoint_valid [0x41, 0xE2, 0x82, 0xAC, 0x42] 1
      ⟨true, 3, 0x20AC⟩ 4 (by decide) rfl rfl).2.2.2.2.2.2,
    ((Utf8EncodingObject.next_codepoint_valid [0x41, 0xE2, 0x82, 0xAC, 0x42] 1
      ⟨true, 3, 0x20AC⟩ 4 (by decide) rfl rfl).2.2.1.resolve_left (by decide)).resolve_left
        (by decide) |>.resolve_right (by decide) |>.2⟩

/-- `next_codepoint` on a well-formed sequence of two bytes. -/
theorem Utf8EncodingObject.next_codepoint_two (string : List Byte) (i b0 b1 : Nat)
    (h0 : byteAt string i = b0) (h1 : byteAt string (i + 1) = b1)
    (hlen : i + 2 ≤ string.length) (r0 : 194 ≤ b0 ∧ b0 < 224) (r1 : 128 ≤ b1 ∧ b1 < 192) :
    next_codepoint string i =
      .ok (⟨true, 2, (((b0 - 192) * 64 + (b1 - 128) : Nat) : Int)⟩, i + 2) := by
  have hb0 := byteAt_lt string i
  have hb1 := byteAt_lt string (i + 1)
  rw [h0] at hb0
  rw [h1] at hb1
  have hr2 : List.range' 1 (2 - 1) = [1] := rfl
  have n0 : ¬(i ≥ string.length) := by omega
  have n4 : ¬(b0 >>> 3 = 0b11110) := by rw [Nat.shiftRight_eq_div_pow]; omega
  have n3 : ¬(b0 >>> 4 = 0b1110) := by rw [Nat.shiftRight_eq_div_pow]; omega
  have p2 : b0 >>> 5 = 0b110 := by rw [Nat.shiftRight_eq_div_pow]; omega
  have l0 : ¬(i + 2 > string.length) := by omega
  have l1 : i + 1 < string.length := by omega
  have k1 : b1 >>> 6 = 0b10 := (shr_cont b1).2 r1
  have e0 : ¬(b0 &&& 0b11110 = 0) := by rw [and_1e _ hb0]; omega
  unfold next_codepoint
  simp only [h0, h1, n0, n4, n3, p2, l0, l1, if_true, if_false, hr2, List.any_cons,
    List.any_nil, Bool.or_false, decide_eq_true_eq, k1, ne_eq, not_true_eq_false, e0]
  rw [xor_C0 _ hb0 (by omega) (by omega), xor_80 _ hb1 r1.1 r1.2]
  simp only [Nat.shiftLeft_eq]

/-- `next_codepoint` on a byte below 0x80. -/
theorem Utf8EncodingObject.next_codepoint_one (string : List Byte) (i b0 : Nat)
    (h0 : byteAt string i = b0) (hlen : i + 1 ≤ string.length) (r0 : b0 < 128) :
    next_codepoint string i = .ok (⟨true, 1, (b0 : Int)⟩, i + 1) := by
  have hr1 : List.range' 1 (1 - 1) = [] := rfl
  have n0 : ¬(i ≥ string.length) := by omega
  have n4 : ¬(b0 >>> 3 = 0b11110) := by rw [Nat.shiftRight_eq_div_pow]; omega
  have n3 : ¬(b0 >>> 4 = 0b1110) := by rw [Nat.shiftRight_eq_div_pow]; omega
  have n2 : ¬(b0 >>> 5 = 0b110) := by rw [Nat.shiftRight_eq_div_pow]; omega
  have p1 : b0 >>> 7 = 0b0 := by rw [Nat.shiftRight_eq_div_pow]; omega
  have l0 : ¬(i + 1 > string.length) := by omega
  unfold next_codepoint
  simp only [h0, n0, n4, n3, n2, p1, l0, if_true, if_false, hr1, List.any_nil,
    Bool.false_eq_true]

/-- `next_codepoint` on a well-formed sequence of three bytes that is neither
overlong nor a surrogate. -/
theorem Utf8EncodingObject.next_codepoint_three (string : List Byte) (i b0 b1 b2 : Nat)
    (h0 : byteAt string i = b0) (h1 : byteAt string (i + 1) = b1)
    (h2 : byteAt string (i + 2) = b2) (hlen : i + 3 ≤ string.length)
    (r0 : 224 ≤ b0 ∧ b0 < 240) (r1 : 128 ≤ b1 ∧ b1 < 192) (r2 : 128 ≤ b2 ∧ b2 < 192)
    (hover : ¬(b0 = 224 ∧ b1 < 160)) (hsur : ¬(b0 = 237 ∧ 160 ≤ b1)) :
    next_codepoint string i =
      .ok (⟨true, 3, (((b0 - 224) * 4096 + (b1 - 128) * 64 + (b2 - 128) : Nat) : Int)⟩,
        i + 3) := by
  have hb0 := byteAt_lt string i
  have hb1 := byteAt_lt string (i + 1)
  have hb2 := byteAt_lt string (i + 2)
  rw [h0] at hb0
  rw [h1] at hb1
  rw [h2] at hb2
  have hr3 : List.range' 1 (3 - 1) = [1, 2] := rfl
  have n0 : ¬(i ≥ string.length) := by omega
  have n4 : ¬(b0 >>> 3 = 0b11110) := by rw [Nat.shiftRight_eq_div_pow]; omega
  have p3 : b0 >>> 4 = 0b1110 := by rw [Nat.shiftRight_eq_div_pow]; omega
  have l0 : ¬(i + 3 > string.length) := by omega
  have l1 : i + 1 < string.length := by omega
  have l2 : i + 2 < string.length := by omega
  have k1 : b1 >>> 6 = 0b10 := (shr_cont b1).2 r1
  have k2 : b2 >>> 6 = 0b10 := (shr_cont b2).2 r2
  have e0 : ¬(b0 &&& 0b1111 = 0 ∧ b1 &&& 0b100000 = 0) := by
    rw [and_0f, and_20 _ hb1]; omega
  have e1 : ¬(b0 &&& 0b1111 = 0b1101 ∧ (b1 &&& 0b111111) >>> 5 = 1) := by
    rw [and_0f, and_3f_bin, Nat.shiftRight_eq_div_pow]; omega
  unfold next_codepoint
  simp only [h0, h1, h2, n0, n4, p3, l0, l1, l2, if_true, if_false, hr3, List.any_cons,
    List.any_nil, Bool.or_false, Bool.or_self, decide_eq_true_eq, k1, k2, ne_eq,
    not_true_eq_false, decide_False, Bool.false_eq_true, e0, e1]
  rw [xor_E0 _ hb0 (by omega) (by omega), xor_80 _ hb1 r1.1 r1.2, xor_80 _ hb2 r2.1 r2.2]
  simp only [Nat.shiftLeft_eq]

/-- `next_codepoint` on a well-formed sequence of four bytes whose code point
is in 0x10000..0x10FFFF. -/
theorem Utf8EncodingObject.next_codepoint_four (string : List Byte) (i b0 b1 b2 b3 : Nat)
    (h0 : byteAt string i = b0) (h1 : byteAt string (i + 1) = b1)
    (h2 : byteAt string (i + 2) = b2) (h3 : byteAt string (i + 3) = b3)
    (hlen : i + 4 ≤ string.length)
    (r0 : 240 ≤ b0 ∧ b0 < 248) (r1 : 128 ≤ b1 ∧ b1 < 192) (r2 : 128 ≤ b2 ∧ b2 < 192)
    (r3 : 128 ≤ b3 ∧ b3 < 192)
    (hlow : 0x10000 ≤ (b0 - 240) * 262144 + (b1 - 128) * 4096 + (b2 - 128) * 64 + (b3 - 128))
    (hhigh : (b0 - 240) * 262144 + (b1 - 128) * 4096 + (b2 - 128) * 64 + (b3 - 128) ≤ 0x10FFFF) :
    next_codepoint string i =
      .ok (⟨true, 4,
        (((b0 - 240) * 262144 + (b1 - 128) * 4096 + (b2 - 128) * 64 + (b3 - 128) : Nat) : Int)⟩,
        i + 4) := by
  have hb0 := byteAt_lt string i
  have hb1 := byteAt_lt string (i + 1)
  have hb2 := byteAt_lt string (i + 2)
  have hb3 := byteAt_lt string (i + 3)
  rw [h0] at hb0
  rw [h1] at hb1
  rw [h2] at hb2
  rw [h3] at hb3
  have hr4 : List.range' 1 (4 - 1) = [1, 2, 3] := rfl
  have n0 : ¬(i ≥ string.length) := by omega
  have p4 : b0 >>> 3 = 0b11110 := by rw [Nat.shiftRight_eq_div_pow]; omega
  have l0 : ¬(i + 4 > string.length) := by omega
  have l1 : i + 1 < string.length := by omega
  have l2 : i + 2 < string.length := by omega
  have l3 : i + 3 < string.length := by omega
  have k1 : b1 >>> 6 = 0b10 := (shr_cont b1).2 r1
  have k2 : b2 >>> 6 = 0b10 := (shr_cont b2).2 r2
  have k3 : b3 >>> 6 = 0b10 := (shr_cont b3).2 r3
  have e0 : ¬((b3 &&& 0b111111 ||| (b2 &&& 0b111111) <<< 6 ||| (b1 &&& 0b111111) <<< 12 |||
      (b0 &&& 0b111) <<< 18) < 0x10000 ∨
      (b3 &&& 0b111111 ||| (b2 &&& 0b111111) <<< 6 ||| (b1 &&& 0b111111) <<< 12 |||
      (b0 &&& 0b111) <<< 18) > 0x10FFFF) := by
    simp only [and_3f_bin, and_07]
    rw [or_shift _ _ 6 (by omega), or_shift _ _ 12 (by omega), or_shift _ _ 18 (by omega)]
    omega
  unfold next_codepoint
  simp only [h0, h1, h2, h3, n0, p4, l0, l1, l2, l3, if_true, if_false, hr4, List.any_cons,
    List.any_nil, Bool.or_false, Bool.or_self, decide_eq_true_eq, k1, k2, k3, ne_eq,
    not_true_eq_false, decide_False, Bool.false_eq_true, e0]
  rw [xor_F0 _ hb0 (by omega) (by omega), xor_80 _ hb1 r1.1 r1.2, xor_80 _ hb2 r2.1 r2.2,
    xor_80 _ hb3 r3.1 r3.2]
  simp only [Nat.shiftLeft_eq]

theorem byteAt_cons_zero (b : Byte) (rest : List Byte) : byteAt (b :: rest) 0 = b.val := by
  simp [byteAt]

theorem byteAt_cons_succ (b : Byte) (rest : List Byte) (k : Nat) :
    byteAt (b :: rest) (k + 1) = byteAt rest k := by
  simp [byteAt]

/-- C16: on the encoding of a Unicode scalar value `next_codepoint` at index 0
reports a valid character made of all the bytes, with that code point, and
moves the index to the end. -/
theorem Utf8EncodingObject.next_codepoint_encode (cp : Int) (h0 : 0 ≤ cp)
    (h1 : cp ≤ 0x10FFFF) (hs : ¬(0xD800 ≤ cp ∧ cp ≤ 0xDFFF)) :
    next_codepoint (encode_codepoint cp) 0 =
      .ok (⟨true, (encode_codepoint cp).length, cp⟩, (encode_codepoint cp).length) := by
  obtain ⟨n, rfl⟩ := Int.eq_ofNat_of_zero_le h0
  have hn : n ≤ 0x10FFFF := by omega
  have hs2 : ¬(0xD800 ≤ n ∧ n ≤ 0xDFFF) := by omega
  obtain ⟨e1, e2, e3, e4⟩ := encode_codepoint_bytes n
  by_cases c1 : n < 0x80
  · rw [e1 c1]
    rw [next_codepoint_one _ 0 n (by rw [byteAt_cons_zero, toByte_val _ (by omega)])
      (by simp) c1]
    rfl
  · by_cases c2 : n < 0x800
    · rw [e2 (by omega) c2]
      rw [next_codepoint_two _ 0 (192 + n / 64) (128 + n % 64)
        (by rw [byteAt_cons_zero, toByte_val _ (by omega)])
        (by rw [byteAt_cons_succ, byteAt_cons_zero, toByte_val _ (by omega)])
        (by simp) (by omega) (by omega)]
      have : (192 + n / 64 - 192) * 64 + (128 + n % 64 - 128) = n := by omega
      rw [this]
      rfl
    · by_cases c3 : n < 0x10000
      · rw [e3 (by omega) c3]
        rw [next_codepoint_three _ 0 (224 + n / 4096) (128 + n / 64 % 64) (128 + n % 64)
          (by rw [byteAt_cons_zero, toByte_val _ (by omega)])
          (by rw [byteAt_cons_succ, byteAt_cons_zero, toByte_val _ (by omega)])
          (by rw [byteAt_cons_succ, byteAt_cons_succ, byteAt_cons_zero, toByte_val _ (by omega)])
          (by simp) (by omega) (by omega) (by omega) (by omega) (by omega)]
        have : (224 + n / 4096 - 224) * 4096 + (128 + n / 64 % 64 - 128) * 64 +
            (128 + n % 64 - 128) = n := by omega
        rw [this]
        rfl
      · rw [e4 (by omega) (by omega)]
        have : (240 + n / 262144 - 240) * 262144 + (128 + n / 4096 % 64 - 128) * 4096 +
            (128 + n / 64 % 64 - 128) * 64 + (128 + n % 64 - 128) = n := by omega
        rw [next_codepoint_four _ 0 (240 + n / 262144) (128 + n / 4096 % 64)
          (128 + n / 64 % 64) (128 + n % 64)
          (by rw [byteAt_cons_zero, toByte_val _ (by omega)])
          (by rw [byteAt_cons_succ, byteAt_cons_zero, toByte_val _ (by omega)])
          (by rw [byteAt_cons_succ, byteAt_cons_succ, byteAt_cons_zero, toByte_val _ (by omega)])
          (by rw [byteAt_cons_succ, byteAt_cons_succ, byteAt_cons_succ, byteAt_cons_zero,
            toByte_val _ (by omega)])
          (by simp) (by omega) (by omega) (by omega) (by omega) (by omega) (by omega)]
        rw [this]
        rfl

theorem Utf8EncodingObject.next_codepoint_encode_witness :
    next_codepoint (encode_codepoint 0x20AC) 0 =
      .ok (⟨true, (encode_codepoint 0x20AC).length, 0x20AC⟩, (encode_codepoint 0x20AC).length) :=
  Utf8EncodingObject.next_codepoint_encode 0x20AC (by decide) (by decide) (by decide)


end Utf8

/-! ## An iterator on a head that was unlinked -/

/-- The last cell of a chain is linked to the target of the chain. -/
theorem HashObject.Chain.next_lastOf {h : HashObject V} {t : Nat} :
    ∀ (rest : List Nat) (a : Nat), h.Chain a rest t → h.nextOf (lastOf a rest) = some t := by
  intro rest
  induction rest with
  | nil => intro a hc; exact hc.1
  | cons b r ih => intro a hc; exact ih b hc.2.2

/-- The state `ringHeadUnlinked` is what three insertions and the removal of
the first key leave. -/
theorem ringHeadUnlinked_reachable :
    ((((HashObject.create_klass 0 0).put numberKeys 10 1).1.put numberKeys 20 2).1.put
        numberKeys 30 3).1.remove numberKeys 10 = (ringHeadUnlinked, .ok (some 1)) ∧
      HashObject.Reachable numberKeys ringHeadUnlinked := by
  have e : ((((HashObject.create_klass 0 0).put numberKeys 10 1).1.put numberKeys 20 2).1.put
      numberKeys 30 3).1.remove numberKeys 10 = (ringHeadUnlinked, .ok (some 1)) := rfl
  refine ⟨e, ?_⟩
  have h0 : HashObject.Reachable numberKeys (HashObject.create_klass 0 0) :=
    HashObject.Reachable.create 0 0
  have hr := HashObject.Reachable.remove _ 10
    (HashObject.Reachable.put _ 30 3
      (HashObject.Reachable.put _ 20 2 (HashObject.Reachable.put _ 10 1 h0)))
  rw [e] at hr
  exact hr

/-- C22: the iterator stands on a cell `k` that was unlinked while it was the
head: the cell carries `removed = true`, its `next` still designates its former
successor `N`, and `m_key_list` is now `N`, the cells `N :: rest` forming a
well-formed circular list of live cells.  Then `operator++` moves to `N` and
does not end; the loop continued from there hands out the cells `N :: rest`,
each once, in order; and it ends at the cell whose `next` is `N`. -/
theorem iterator.operator_inc_unlinked_head (h : HashObject V) (k N : Nat) (rest : List Nat)
    (c : HashKey V) (hc : h.cells[k]? = some c) (hrem : c.removed = true)
    (hnext : c.next = some N) (hwf : h.WellFormed (N :: rest))
    (hlive : ∀ x ∈ N :: rest, h.isLive x = true) (fuel : Nat)
    (hf : (N :: rest).length ≤ fuel) :
    iterator.operator_inc h fuel ⟨some k⟩ = .ok ⟨some N⟩ ∧
      h.resume fuel fuel fuel ⟨some k⟩ = .ok (N :: rest) ∧ (N :: rest).Nodup ∧
      h.nextOf (lastOf N rest) = some N ∧
      iterator.operator_inc h fuel ⟨some (lastOf N rest)⟩ = .ok ⟨none⟩ := by
  obtain ⟨f, rfl⟩ : ∃ j, fuel = j + 1 := ⟨fuel - 1, by simp at hf; omega⟩
  obtain ⟨cn, hcn, hrn⟩ := (h.isLive_iff N).1 (hlive N (List.mem_cons_self _ _))
  have hlast : h.isLive (lastOf N rest) = true := hlive _ (lastOf_mem rest N)
  have hstep : iterator.operator_inc h (f + 1) ⟨some k⟩ = .ok ⟨some N⟩ := by
    simp [iterator.operator_inc, hc, hnext, hrem, hcn, hrn]
  have hloop : h.each_node (f + 1) = .ok (N :: rest.filter h.isLive) :=
    h.each_node_of_last_live N rest hwf hlast (f + 1) (by simp at hf; omega)
  have hfilter : rest.filter h.isLive = rest :=
    List.filter_eq_self.2 (fun x hx => hlive x (List.mem_cons_of_mem _ hx))
  refine ⟨hstep, ?_, hwf.2.1, hwf.2.2.next_lastOf rest N, ?_⟩
  · unfold HashObject.resume
    rw [hstep]
    simp only [HashObject.each_node, HashObject.begin, hwf.1] at hloop
    show h.traverse (f + 1) (f + 1) ⟨some N⟩ = .ok (N :: rest)
    rw [hloop, hfilter]
  · exact iterator.operator_inc_last h (lastOf N rest) N f hwf.1 (hwf.2.2.next_lastOf rest N) hlast

theorem iterator.operator_inc_unlinked_head_witness :
    iterator.operator_inc ringHeadUnlinked 2 ⟨some 0⟩ = .ok ⟨some 1⟩ ∧
      ringHeadUnlinked.resume 2 2 2 ⟨some 0⟩ = .ok [1, 2] ∧ [1, 2].Nodup ∧
      ringHeadUnlinked.nextOf (lastOf 1 [2]) = some 1 ∧
      iterator.operator_inc ringHeadUnlinked 2 ⟨some (lastOf 1 [2])⟩ = .ok ⟨none⟩ :=
  iterator.operator_inc_unlinked_head ringHeadUnlinked 0 1 [2]
    { prev := some 2, next := some 1, key := 10, val := 1, removed := true } rfl rfl rfl
    (by simp [HashObject.WellFormed, HashObject.Chain, HashObject.nextOf, HashObject.prevOf,
      ringHeadUnlinked])
    (by simp [HashObject.isLive, ringHeadUnlinked]) 2 (by simp)

/-! ## Sending to an immediate integer -/

/-- C24: on an immediate integer with payload `n` and a method name for which
`IntegerValue::optimized_method` holds, `send` and `public_send` hand back what
`_send` and `_public_send` of an integer object synthesized from `n` give, and
leave the handle and the heap as they were: the type is still `Integer`, the
payload still `n`, and the state is not the one `hydrate()` would have left. -/
theorem ValuePtr.send_immediate_optimized {R : Type} (d : Dispatch R) (v : ValuePtr)
    (heap : Heap) (n : Int) (name : String) (args : List ValuePtr) (block : Option Nat)
    (ht : v.m_type = .Integer) (hn : v.m_integer = n) (ho : d.optimized_method name = true) :
    v.send_state d heap name args block =
        ((v, heap), .ok (d._send (IntegerValue n) name args block)) ∧
      v.public_send_state d heap name args block =
        ((v, heap), .ok (d._public_send (IntegerValue n) name args block)) ∧
      (v.send_state d heap name args block).1.1.m_type = .Integer ∧
      (v.send_state d heap name args block).1.1.m_integer = n ∧
      (v.public_send_state d heap name args block).1.1.m_type = .Integer ∧
      (v.public_send_state d heap name args block).1.1.m_integer = n ∧
      (v.send_state d heap name args block).1 ≠ v.hydrate heap ∧
      (v.public_send_state d heap name args block).1 ≠ v.hydrate heap := by
  have hne : (v, heap) ≠ v.hydrate heap := by
    intro e
    have e1 := congrArg (fun p => p.1.m_type) e
    simp [ValuePtr.hydrate, ht, Heap.alloc] at e1
  refine ⟨?_, ?_, ht, hn, ht, hn, hne, hne⟩
  · simp [ValuePtr.send_state, ValuePtr.send, ht, ho, hn]
  · simp [ValuePtr.public_send_state, ValuePtr.public_send, ht, ho, hn]

theorem ValuePtr.send_immediate_optimized_witness :
    immediateSeven.send_state sampleDispatch sampleHeap "+" [] none =
        ((immediateSeven, sampleHeap), .ok ("Integer", "+")) ∧
      immediateSeven.public_send_state sampleDispatch sampleHeap "+" [] none =
        ((immediateSeven, sampleHeap), .ok ("Integer", "+")) :=
  ⟨(ValuePtr.send_immediate_optimized sampleDispatch immediateSeven sampleHeap 7 "+" [] none
      rfl rfl rfl).1,
    (ValuePtr.send_immediate_optimized sampleDispatch immediateSeven sampleHeap 7 "+" [] none
      rfl rfl rfl).2.1⟩

/-! ## Hydration and the collector -/

/-- The truncated quotient of two `int64_t`s is an `int64_t`, except for the
least one divided by -1. -/
theorem tdiv_int64 (n d : Int) (hn : INT64_MIN ≤ n ∧ n ≤ INT64_MAX) (hd0 : d ≠ 0)
    (hov : ¬(n = INT64_MIN ∧ d = -1)) :
    INT64_MIN ≤ Int.tdiv n d ∧ Int.tdiv n d ≤ INT64_MAX := by
  simp only [INT64_MIN, INT64_MAX] at *
  by_cases h1 : d = 1
  · subst h1
    simpa using hn
  · by_cases h2 : d = -1
    · subst h2
      have e : Int.tdiv n (-1) = -n := by
        rw [Int.tdiv_neg, Int.tdiv_one]
      rw [e]
      omega
    · have hq : (Int.tdiv n d).natAbs = n.natAbs / d.natAbs := Int.natAbs_tdiv n d
      have hd2 : 2 ≤ d.natAbs := by omega
      have hle : n.natAbs / d.natAbs ≤ n.natAbs / 2 :=
        Nat.div_le_div_left hd2 (by decide)
      omega

/-- C21 (as stated) fails on the code: the least `int64_t` divided by -1 has the
quotient 2^63, which is no `int64_t`; the division `dividend / divisor` is
undefined there and no object holding the quotient is returned. -/
theorem Integer_div_counterexample :
    (IntegerValue INT64_MIN).is_integer = true ∧ (IntegerValue (-1)).is_integer = true ∧
      Int.tdiv INT64_MIN (-1) = 2 ^ 63 ∧ INT64_MAX < 2 ^ 63 ∧
      Integer_div sampleBuiltin (IntegerValue INT64_MIN) [IntegerValue (-1)] = .undefined ∧
      Integer_div sampleBuiltin (IntegerValue INT64_MIN) [IntegerValue (-1)] ≠
        .returned (IntegerValue (Int.tdiv INT64_MIN (-1))) := by
  have e : Integer_div sampleBuiltin (IntegerValue INT64_MIN) [IntegerValue (-1)] =
      .undefined := rfl
  refine ⟨rfl, rfl, by decide, by decide, e, ?_⟩
  rw [e]
  intro h
  cases h

/-- C21 (amended): for an integer `self` and an integer argument `d`, both
`int64_t`s, `Integer_div` raises `ZeroDivisionError` with the message
"divided by 0" exactly when `d` is 0; and when `d` is not 0 and the pair is not
the least `int64_t` with -1, it returns an integer object holding the quotient
of `self` by `d` truncated toward zero. -/
theorem Integer_div_integer {R : Type} (b : Builtin R) (self_value arg : Value)
    (hs : self_value.is_integer = true) (ha : arg.is_integer = true)
    (hsr : INT64_MIN ≤ self_value.to_int64_t ∧ self_value.to_int64_t ≤ INT64_MAX)
    (_har : INT64_MIN ≤ arg.to_int64_t ∧ arg.to_int64_t ≤ INT64_MAX) :
    (Integer_div b self_value [arg] = .raised ⟨"ZeroDivisionError", "divided by 0"⟩ ↔
        arg.to_int64_t = 0) ∧
      (arg.to_int64_t ≠ 0 → ¬(self_value.to_int64_t = INT64_MIN ∧ arg.to_int64_t = -1) →
        Integer_div b self_value [arg] =
          .returned (IntegerValue (Int.tdiv self_value.to_int64_t arg.to_int64_t))) := by
  have hret : arg.to_int64_t ≠ 0 →
      ¬(self_value.to_int64_t = INT64_MIN ∧ arg.to_int64_t = -1) →
      Integer_div b self_value [arg] =
        .returned (IntegerValue (Int.tdiv self_value.to_int64_t arg.to_int64_t)) := by
    intro hd hov
    have hq := tdiv_int64 _ _ hsr hd hov
    simp [Integer_div, Value.as_integer, hs, ha, hd, int64_div, hq]
  refine ⟨⟨?_, ?_⟩, hret⟩
  · intro h
    by_contra hd
    cases hdiv : int64_div self_value.to_int64_t arg.to_int64_t with
    | none => simp [Integer_div, Value.as_integer, hs, ha, hd, hdiv] at h
    | some q => simp [Integer_div, Value.as_integer, hs, ha, hd, hdiv] at h
  · intro hd
    simp [Integer_div, Value.as_integer, hs, ha, hd]

theorem Integer_div_integer_witness :
    (Integer_div sampleBuiltin (IntegerValue (-7)) [IntegerValue 2] =
        .raised ⟨"ZeroDivisionError", "divided by 0"⟩ ↔ (IntegerValue 2).to_int64_t = 0) ∧
      Integer_div sampleBuiltin (IntegerValue (-7)) [IntegerValue 2] =
        .returned (IntegerValue (-3)) :=
  ⟨(Integer_div_integer sampleBuiltin (IntegerValue (-7)) (IntegerValue 2) rfl rfl
      (by decide) (by decide)).1,
    (Integer_div_integer sampleBuiltin (IntegerValue (-7)) (IntegerValue 2) rfl rfl
      (by decide) (by decide)).2 (by decide) (by decide)⟩

/-! ## The layout of encoded code points -/

section Utf8Text

open Utf8EncodingObject

/-- C26: for a code point `cp` that is not negative, `encode_codepoint` follows
the table of the source: one byte 0xxxxxxx below 0x80, the two bytes 110xxxxx
10xxxxxx below 0x800, the three bytes 1110xxxx 10xxxxxx 10xxxxxx below 0x10000,
the four bytes 11110xxx 10xxxxxx 10xxxxxx 10xxxxxx below 0x200000, the bits
marked x being those of `cp`; and from 0x200000 on the two bytes 0xFF 0xFD. -/
theorem Utf8EncodingObject.encode_codepoint_layout (cp : Int) (h0 : 0 ≤ cp) :
    (cp < 0x80 → ∃ x, x < 128 ∧ (encode_codepoint cp).map Fin.val = [x] ∧ (x : Int) = cp) ∧
    (0x80 ≤ cp → cp < 0x800 → ∃ x y, x < 32 ∧ y < 64 ∧
      (encode_codepoint cp).map Fin.val = [0b11000000 + x, 0b10000000 + y] ∧
      ((x * 64 + y : Nat) : Int) = cp) ∧
    (0x800 ≤ cp → cp < 0x10000 → ∃ x y z, x < 16 ∧ y < 64 ∧ z < 64 ∧
      (encode_codepoint cp).map Fin.val = [0b11100000 + x, 0b10000000 + y, 0b10000000 + z] ∧
      ((x * 4096 + y * 64 + z : Nat) : Int) = cp) ∧
    (0x10000 ≤ cp → cp < 0x200000 → ∃ x y z w, x < 8 ∧ y < 64 ∧ z < 64 ∧ w < 64 ∧
      (encode_codepoint cp).map Fin.val =
        [0b11110000 + x, 0b10000000 + y, 0b10000000 + z, 0b10000000 + w] ∧
      ((x * 262144 + y * 4096 + z * 64 + w : Nat) : Int) = cp) ∧
    (0x200000 ≤ cp → (encode_codepoint cp).map Fin.val = [0xFF, 0xFD]) := by
  obtain ⟨n, rfl⟩ := Int.eq_ofNat_of_zero_le h0
  obtain ⟨e1, e2, e3, e4⟩ := encode_codepoint_bytes n
  refine ⟨?_, ?_, ?_, ?_, ?_⟩
  · intro c
    refine ⟨n, by omega, ?_, rfl⟩
    rw [e1 (by omega)]
    simp only [List.map_cons, List.map_nil]
    rw [toByte_val _ (by omega)]
  · intro c1 c2
    refine ⟨n / 64, n % 64, by omega, by omega, ?_, by omega⟩
    rw [e2 (by omega) (by omega)]
    simp only [List.map_cons, List.map_nil]
    rw [toByte_val _ (by omega), toByte_val _ (by omega)]
  · intro c1 c2
    refine ⟨n / 4096, n / 64 % 64, n % 64, by omega, by omega, by omega, ?_, by omega⟩
    rw [e3 (by omega) (by omega)]
    simp only [List.map_cons, List.map_nil]
    rw [toByte_val _ (by omega), toByte_val _ (by omega), toByte_val _ (by omega)]
  · intro c1 c2
    refine ⟨n / 262144, n / 4096 % 64, n / 64 % 64, n % 64, by omega, by omega, by omega,
      by omega, ?_, by omega⟩
    rw [e4 (by omega) (by omega)]
    simp only [List.map_cons, List.map_nil]
    rw [toByte_val _ (by omega), toByte_val _ (by omega), toByte_val _ (by omega),
      toByte_val _ (by omega)]
  · intro c
    have c1 : ¬(n : Int) < 0x80 := by omega
    have c2 : ¬(n : Int) < 0x800 := by omega
    have c3 : ¬(n : Int) < 0x10000 := by omega
    have c4 : ¬(n : Int) < 0x200000 := by omega
    simp only [encode_codepoint, if_neg c1, if_neg c2, if_neg c3, if_neg c4]
    rfl

theorem Utf8EncodingObject.encode_codepoint_layout_witness :
    ∃ x y z, x < 16 ∧ y < 64 ∧ z < 64 ∧
      (encode_codepoint 0x20AC).map Fin.val = [0b11100000 + x, 0b10000000 + y, 0b10000000 + z] ∧
      ((x * 4096 + y * 64 + z : Nat) : Int) = 0x20AC :=
  (Utf8EncodingObject.encode_codepoint_layout 0x20AC (by decide)).2.2.1 (by decide) (by decide)

/-! ## Characters -/

/-- C23: on a sequence that `next_codepoint` rejects by its range checks (an
overlong form of two, three or four bytes, a surrogate, a code point above
0x10FFFF) `next_char` reports an invalid character and returns a view of the
one byte at the index, but leaves the index after the whole sequence: the bytes
between are skipped. -/
theorem Utf8EncodingObject.next_char_skips_bytes :
    next_char [0xC0, 0x80] 0 = .ok ((false, ⟨0, 1⟩), 2) ∧
      next_char [0xE0, 0x80, 0x80] 0 = .ok ((false, ⟨0, 1⟩), 3) ∧
      next_char [0xED, 0xA0, 0x80] 0 = .ok ((false, ⟨0, 1⟩), 3) ∧
      next_char [0xF0, 0x80, 0x80, 0x80] 0 = .ok ((false, ⟨0, 1⟩), 4) ∧
      next_char [0xF4, 0x90, 0x80, 0x80] 0 = .ok ((false, ⟨0, 1⟩), 4) ∧
      next_char [0x41, 0xC0, 0x80, 0x42] 1 = .ok ((false, ⟨1, 1⟩), 3) :=
  ⟨rfl, rfl, rfl, rfl, rfl, rfl⟩

end Utf8Text

/-! ## Grapheme clusters -/

section Utf8Clusters

open Utf8EncodingObject

/-- A byte inside the middle part of a string. -/
theorem byteAt_append_mid (pre l post : List Byte) (k : Nat) (hk : k < l.length) :
    byteAt (pre ++ l ++ post) (pre.length + k) = byteAt l k := by
  unfold byteAt
  rw [List.append_assoc, List.getElem?_append_right (by omega)]
  simp only [Nat.add_sub_cancel_left]
  rw [List.getElem?_append_left hk]

/-- The bytes of the view on the middle part of a string. -/
theorem StringView.bytes_mid (pre l post : List Byte) :
    StringView.bytes (pre ++ l ++ post) ⟨pre.length, l.length⟩ = l := by
  simp [StringView.bytes, List.append_assoc]

/-- The number of bytes `encode_codepoint` produces is 1 to 4. -/
theorem Utf8EncodingObject.encode_codepoint_length (n : Nat) (hn : n ≤ 0x10FFFF) :
    1 ≤ (encode_codepoint n).length ∧ (encode_codepoint n).length ≤ 4 := by
  obtain ⟨e1, e2, e3, e4⟩ := encode_codepoint_bytes n
  by_cases c1 : n < 0x80
  · rw [e1 c1]; simp
  · by_cases c2 : n < 0x800
    · rw [e2 (by omega) c2]; simp
    · by_cases c3 : n < 0x10000
      · rw [e3 (by omega) c3]; simp
      · rw [e4 (by omega) (by omega)]; simp

/-- On the encoding of a Unicode scalar value that stands anywhere in a string,
`next_codepoint` reports a valid character made of its bytes, with that code
point, and moves the index past them. -/
theorem Utf8EncodingObject.next_codepoint_mid (pre post : List Byte) (n : Nat)
    (hn : n ≤ 0x10FFFF) (hs : ¬(0xD800 ≤ n ∧ n ≤ 0xDFFF)) :
    next_codepoint (pre ++ encode_codepoint n ++ post) pre.length =
      .ok (⟨true, (encode_codepoint n).length, n⟩,
        pre.length + (encode_codepoint n).length) := by
  obtain ⟨e1, e2, e3, e4⟩ := encode_codepoint_bytes n
  by_cases c1 : n < 0x80
  · rw [e1 c1]
    rw [next_codepoint_one _ pre.length n
      (by rw [← Nat.add_zero pre.length, byteAt_append_mid _ _ _ 0 (by simp),
        byteAt_cons_zero, toByte_val _ (by omega)])
      (by simp) c1]
    rfl
  · by_cases c2 : n < 0x800
    · rw [e2 (by omega) c2]
      rw [next_codepoint_two _ pre.length (192 + n / 64) (128 + n % 64)
        (by rw [← Nat.add_zero pre.length, byteAt_append_mid _ _ _ 0 (by simp),
          byteAt_cons_zero, toByte_val _ (by omega)])
        (by rw [byteAt_append_mid _ _ _ 1 (by simp), byteAt_cons_succ, byteAt_cons_zero,
          toByte_val _ (by omega)])
        (by simp) (by omega) (by omega)]
      have : (192 + n / 64 - 192) * 64 + (128 + n % 64 - 128) = n := by omega
      rw [this]
      rfl
    · by_cases c3 : n < 0x10000
      · rw [e3 (by omega) c3]
        rw [next_codepoint_three _ pre.length (224 + n / 4096) (128 + n / 64 % 64)
          (128 + n % 64)
          (by rw [← Nat.add_zero pre.length, byteAt_append_mid _ _ _ 0 (by simp),
            byteAt_cons_zero, toByte_val _ (by omega)])
          (by rw [byteAt_append_mid _ _ _ 1 (by simp), byteAt_cons_succ, byteAt_cons_zero,
            toByte_val _ (by omega)])
          (by rw [byteAt_append_mid _ _ _ 2 (by simp), byteAt_cons_succ, byteAt_cons_succ,
            byteAt_cons_zero, toByte_val _ (by omega)])
          (by simp) (by omega) (by omega) (by omega) (by omega) (by omega)]
        have : (224 + n / 4096 - 224) * 4096 + (128 + n / 64 % 64 - 128) * 64 +
            (128 + n % 64 - 128) = n := by omega
        rw [this]
        rfl
      · rw [e4 (by omega) (by omega)]
        have : (240 + n / 262144 - 240) * 262144 + (128 + n / 4096 % 64 - 128) * 4096 +
            (128 + n / 64 % 64 - 128) * 64 + (128 + n % 64 - 128) = n := by omega
        rw [next_codepoint_four _ pre.length (240 + n / 262144) (128 + n / 4096 % 64)
          (128 + n / 64 % 64) (128 + n % 64)
          (by rw [← Nat.add_zero pre.length, byteAt_append_mid _ _ _ 0 (by simp),
            byteAt_cons_zero, toByte_val _ (by omega)])
          (by rw [byteAt_append_mid _ _ _ 1 (by simp), byteAt_cons_succ, byteAt_cons_zero,
            toByte_val _ (by omega)])
          (by rw [byteAt_append_mid _ _ _ 2 (by simp), byteAt_cons_succ, byteAt_cons_succ,
            byteAt_cons_zero, toByte_val _ (by omega)])
          (by rw [byteAt_append_mid _ _ _ 3 (by simp), byteAt_cons_succ, byteAt_cons_succ,
            byteAt_cons_succ, byteAt_cons_zero, toByte_val _ (by omega)])
          (by simp) (by omega) (by omega) (by omega) (by omega) (by omega) (by omega)]
        rw [this]
        rfl

/-- On the encoding of a Unicode scalar value that stands anywhere in a string,
`next_char` returns the view of its bytes and moves the index past them. -/
theorem Utf8EncodingObject.next_char_mid (pre post : List Byte) (n : Nat)
    (hn : n ≤ 0x10FFFF) (hs : ¬(0xD800 ≤ n ∧ n ≤ 0xDFFF)) :
    next_char (pre ++ encode_codepoint n ++ post) pre.length =
      .ok ((true, ⟨pre.length, (encode_codepoint n).length⟩),
        pre.length + (encode_codepoint n).length) := by
  unfold next_char
  rw [next_codepoint_mid pre post n hn hs]
  rfl

/-- At the end of the string `next_char` returns an empty view. -/
theorem Utf8EncodingObject.next_char_end (string : List Byte) :
    next_char string string.length = .ok ((true, ⟨string.length, 0⟩), string.length) := by
  simp [next_char, next_codepoint]

set_option maxRecDepth 10000 in
/-- One round of the loop of `next_grapheme_cluster` when `index2` stands at the
encoding of a Unicode scalar value: a variation selector and a zero-width
joiner are taken into the view, any other character ends the loop. -/
theorem Utf8EncodingObject.next_grapheme_cluster_loop_mid (pre post : List Byte) (n : Nat)
    (hn : n ≤ 0x10FFFF) (hs : ¬(0xD800 ≤ n ∧ n ≤ 0xDFFF)) (fuel : Nat) (view : StringView)
    (index : Nat) (join_next : Bool) :
    next_grapheme_cluster_loop (pre ++ encode_codepoint n ++ post) (fuel + 1) view index
        join_next pre.length =
      if 0xFE00 ≤ n ∧ n ≤ 0xFE0F then
        next_grapheme_cluster_loop (pre ++ encode_codepoint n ++ post) fuel
          ⟨view.offset, view.size + (encode_codepoint n).length⟩
          (pre.length + (encode_codepoint n).length) join_next
          (pre.length + (encode_codepoint n).length)
      else if n = 0x200D then
        next_grapheme_cluster_loop (pre ++ encode_codepoint n ++ post) fuel
          ⟨view.offset, view.size + (encode_codepoint n).length⟩
          (pre.length + (encode_codepoint n).length) true
          (pre.length + (encode_codepoint n).length)
      else .ok (view, index, join_next) := by
  have hlen := (encode_codepoint_length n hn).1
  have hne : (encode_codepoint (n : Int)).length ≠ 0 := by omega
  rw [next_grapheme_cluster_loop, next_char_mid pre post n hn hs]
  simp only [StringView.is_empty, StringView.bytes_mid, decode_encode_nat n hn, Bool.not_true,
    Bool.false_or, beq_iff_eq, hne, if_false]
  by_cases c1 : 0xFE00 ≤ n ∧ n ≤ 0xFE0F
  · have c1i : (n : Int) ≥ 0xFE00 ∧ (n : Int) ≤ 0xFE0F := by omega
    rw [if_pos c1i, if_pos c1]
  · have c1i : ¬((n : Int) ≥ 0xFE00 ∧ (n : Int) ≤ 0xFE0F) := by omega
    rw [if_neg c1i, if_neg c1]
    by_cases c2 : n = 0x200D
    · have c2i : (n : Int) = 0x200D := by omega
      rw [if_pos c2i, if_pos c2]
    · have c2i : ¬((n : Int) = 0x200D) := by omega
      rw [if_neg c2i, if_neg c2]

set_option maxRecDepth 10000 in
/-- A character, a zero-width joiner and a character that is neither a joiner
nor a variation selector make one cluster. -/
theorem Utf8EncodingObject.next_grapheme_cluster_joiner (na nb f : Nat)
    (hna : na ≤ 0x10FFFF) (hsa : ¬(0xD800 ≤ na ∧ na ≤ 0xDFFF))
    (hnb : nb ≤ 0x10FFFF) (hsb : ¬(0xD800 ≤ nb ∧ nb ≤ 0xDFFF))
    (hbj : nb ≠ 0x200D) (hbv : ¬(0xFE00 ≤ nb ∧ nb ≤ 0xFE0F)) :
    next_grapheme_cluster
        (encode_codepoint na ++ encode_codepoint 0x200D ++ encode_codepoint nb) 0 (f + 2) =
      .ok (⟨0, (encode_codepoint na ++ encode_codepoint 0x200D ++ encode_codepoint nb).length⟩,
        (encode_codepoint na ++ encode_codepoint 0x200D ++ encode_codepoint nb).length) := by
  have hlb := (encode_codepoint_length nb hnb).1
  have hz : encode_codepoint (0x200D : Int) = encode_codepoint ((0x200D : Nat) : Int) := rfl
  -- the first character
  have s1 := next_char_mid [] (encode_codepoint 0x200D ++ encode_codepoint nb) na hna hsa
  simp only [List.nil_append, List.length_nil, Nat.zero_add, ← List.append_assoc] at s1
  -- the joiner
  have s2 := next_grapheme_cluster_loop_mid (encode_codepoint na) (encode_codepoint nb)
    0x200D (by decide) (by decide) (f + 1) ⟨0, (encode_codepoint na).length⟩
    (encode_codepoint na).length false
  rw [if_neg (by decide), if_pos rfl, ← hz] at s2
  -- the character after the joiner
  have s3 := next_grapheme_cluster_loop_mid (encode_codepoint na ++ encode_codepoint 0x200D)
    [] nb hnb hsb f
    ⟨0, (encode_codepoint na).length + (encode_codepoint (0x200D : Int)).length⟩
    (encode_codepoint na ++ encode_codepoint 0x200D).length true
  rw [if_neg (by omega), if_neg (by omega), List.append_nil] at s3
  have s4 := next_char_mid (encode_codepoint na ++ encode_codepoint 0x200D) [] nb hnb hsb
  rw [List.append_nil] at s4
  have hne : (encode_codepoint (nb : Int)).length ≠ 0 := by omega
  simp only [List.length_append] at s2 s3 s4
  unfold next_grapheme_cluster
  rw [s1]
  simp only [List.length_append, s2, s3, s4, if_true, StringView.is_empty, Bool.not_true,
    Bool.false_or, beq_iff_eq, hne, if_false]

set_option maxRecDepth 10000 in
/-- A character and a variation selector that ends the string make one
cluster. -/
theorem Utf8EncodingObject.next_grapheme_cluster_selector (na nv f : Nat)
    (hna : na ≤ 0x10FFFF) (hsa : ¬(0xD800 ≤ na ∧ na ≤ 0xDFFF))
    (hv : 0xFE00 ≤ nv ∧ nv ≤ 0xFE0F) :
    next_grapheme_cluster (encode_codepoint na ++ encode_codepoint nv) 0 (f + 2) =
      .ok (⟨0, (encode_codepoint na ++ encode_codepoint nv).length⟩,
        (encode_codepoint na ++ encode_codepoint nv).length) := by
  have hnv : nv ≤ 0x10FFFF := by omega
  have hsv : ¬(0xD800 ≤ nv ∧ nv ≤ 0xDFFF) := by omega
  have s1 := next_char_mid [] (encode_codepoint nv) na hna hsa
  simp only [List.nil_append, List.length_nil, Nat.zero_add] at s1
  have s2 := next_grapheme_cluster_loop_mid (encode_codepoint na) [] nv hnv hsv (f + 1)
    ⟨0, (encode_codepoint na).length⟩ (encode_codepoint na).length false
  rw [if_pos (by omega), List.append_nil] at s2
  have s3 : next_grapheme_cluster_loop (encode_codepoint na ++ encode_codepoint nv) (f + 1)
      ⟨0, (encode_codepoint na).length + (encode_codepoint (nv : Int)).length⟩
      (encode_codepoint na ++ encode_codepoint nv).length false
      (encode_codepoint na ++ encode_codepoint nv).length =
      .ok (⟨0, (encode_codepoint na).length + (encode_codepoint (nv : Int)).length⟩,
        (encode_codepoint na ++ encode_codepoint nv).length, false) := by
    rw [next_grapheme_cluster_loop, next_char_end]
    simp [StringView.is_empty]
  simp only [List.length_append] at s2 s3
  unfold next_grapheme_cluster
  rw [s1]
  simp only [List.length_append, s2, s3, Bool.false_eq_true, if_false]

/-- C27: for Unicode scalar values `a` and `b`, `b` being neither U+200D nor a
variation selector U+FE00..U+FE0F, `next_grapheme_cluster` at index 0 of the
encoding of `a`, U+200D, `b` returns one view of the whole string and leaves
the index at its length; and for a variation selector `v` it returns, at index
0 of the encoding of `a`, `v`, one view of both characters and leaves the index
after them. -/
theorem Utf8EncodingObject.next_grapheme_cluster_joins (a b v : Int) (fuel : Nat)
    (ha : 0 ≤ a ∧ a ≤ 0x10FFFF ∧ ¬(0xD800 ≤ a ∧ a ≤ 0xDFFF))
    (hb : 0 ≤ b ∧ b ≤ 0x10FFFF ∧ ¬(0xD800 ≤ b ∧ b ≤ 0xDFFF))
    (hbj : b ≠ 0x200D) (hbv : ¬(0xFE00 ≤ b ∧ b ≤ 0xFE0F))
    (hv : 0xFE00 ≤ v ∧ v ≤ 0xFE0F) (hf : 2 ≤ fuel) :
    next_grapheme_cluster (encode_codepoint a ++ encode_codepoint 0x200D ++ encode_codepoint b)
        0 fuel =
      .ok (⟨0, (encode_codepoint a ++ encode_codepoint 0x200D ++ encode_codepoint b).length⟩,
        (encode_codepoint a ++ encode_codepoint 0x200D ++ encode_codepoint b).length) ∧
    next_grapheme_cluster (encode_codepoint a ++ encode_codepoint v) 0 fuel =
      .ok (⟨0, (encode_codepoint a ++ encode_codepoint v).length⟩,
        (encode_codepoint a ++ encode_codepoint v).length) := by
  obtain ⟨na, rfl⟩ := Int.eq_ofNat_of_zero_le ha.1
  obtain ⟨nb, rfl⟩ := Int.eq_ofNat_of_zero_le hb.1
  obtain ⟨nv, rfl⟩ := Int.eq_ofNat_of_zero_le (by omega : (0 : Int) ≤ v)
  obtain ⟨f, rfl⟩ : ∃ j, fuel = j + 2 := ⟨fuel - 2, by omega⟩
  exact ⟨next_grapheme_cluster_joiner na nb f (by omega) (by omega) (by omega) (by omega)
      (by omega) (by omega),
    next_grapheme_cluster_selector na nv f (by omega) (by omega) (by omega)⟩

theorem Utf8EncodingObject.next_grapheme_cluster_joins_witness :
    next_grapheme_cluster (encode_codepoint 0x1F468 ++ encode_codepoint 0x200D ++
        encode_codepoint 0x1F469) 0 2 =
      .ok (⟨0, (encode_codepoint 0x1F468 ++ encode_codepoint 0x200D ++
          encode_codepoint 0x1F469).length⟩,
        (encode_codepoint 0x1F468 ++ encode_codepoint 0x200D ++
          encode_codepoint 0x1F469).length) ∧
    next_grapheme_cluster (encode_codepoint 0x2764 ++ encode_codepoint 0xFE0F) 0 2 =
      .ok (⟨0, (encode_codepoint 0x2764 ++ encode_codepoint 0xFE0F).length⟩,
        (encode_codepoint 0x2764 ++ encode_codepoint 0xFE0F).length) :=
  ⟨(Utf8EncodingObject.next_grapheme_cluster_joins 0x1F468 0x1F469 0xFE0F 2 (by decide)
      (by decide) (by decide) (by decide) (by decide) (by decide)).1,
    (Utf8EncodingObject.next_grapheme_cluster_joins 0x2764 0x41 0xFE0F 2 (by decide)
      (by decide) (by decide) (by decide) (by decide) (by decide)).2⟩

end Utf8Clusters

end Natalie
